import Mathlib

/-!
# brawtool: a verification development

Shallow embedding of `src/brawtool.cpp` and theorems about it.

* `Braw.F32`: the values of the C++ type `float` (binary32) that the resize
  block computes with, as exact fractions, with correctly rounded conversion,
  division and product (round to nearest, ties to even).
* `Braw.ImageSpec`, `Braw.ImageBuf`: the image buffer the tool hands around,
  with the attribute list that `BrawCallback::ProcessMetaData` fills.
* `Braw.resizeDims`, `Braw.resizeStep`, `Braw.resizeBlock`: the resize / letterbox
  block of `main` and its guard.
* `Braw.ProcessMetaData`: the metadata merge loop.
* `Braw.scanSidecar`, `Braw.extractLut`: the sidecar scan loop and the guarded
  write of the LUT file.
* `Braw.BrawTool`, `Braw.apply3dlutSrc`: the options and the source of the 3D LUT.
* `Braw.overlayName`, `Braw.draw_metadata`, `Braw.overlayLoop`: the labels and the
  geometry of the metadata overlay, with `float` sums and the `double` product of
  the font size.
* `Braw.BrawCallback`, `Braw.SetFrame`, `Braw.decodeBlock`: the callback object, its
  Frame slot and reference count, and the decode block of `main` run against the
  answers of the codec (`Braw.EngineRun`).

A `std::string` is a `List Char` (one `Char` per byte) wherever the source
searches or cuts it; attribute names and values are `String`.
-/

namespace Braw

/-! ## Single precision arithmetic -/

/-- Position of the highest set bit, by halving (`fuel` bounds the number of halvings). -/
def ilog2Aux : Nat → Nat → Nat
  | 0, _ => 0
  | f + 1, n => if 2 ≤ n then ilog2Aux f (n / 2) + 1 else 0

/-- Floor of the binary logarithm of `n` (0 for `n = 0`). -/
def ilog2 (n : Nat) : Nat := ilog2Aux n n

/-- A finite `float` value, kept as the exact fraction `num / den`. -/
structure F32 where
  num : Int
  den : Nat
deriving DecidableEq, Repr

/-- The rational number a `float` value stands for. -/
def F32.val (a : F32) : ℚ := (a.num : ℚ) / (a.den : ℚ)

/-- The float `0.0f`, which `ImageBufAlgo::zero` writes. -/
def F32.zero : F32 := ⟨0, 1⟩

/-- Round the positive fraction `n / d` to the nearest number with a 24 bit
significand, ties to even, as binary32 does for values in its normal range
(every quotient and product of two 32 bit sizes is in that range). The result
is the fraction `fst / snd`, with `snd` a power of two. -/
def rne24 (n d : Nat) : Nat × Nat :=
  if n = 0 ∨ d = 0 then (0, 1) else
  let ln := ilog2 n
  let ld := ilog2 d
  -- `adj = 0` when `2 ^ (ln - ld) ≤ n / d`, else the leading bit is one lower
  let adj := if d * 2 ^ ln ≤ n * 2 ^ ld then 0 else 1
  let up := 23 + ld + adj
  let sn := up - ln
  let sd := ln - up
  -- `N / D = (n / d) * 2 ^ (sn - sd)` lies in `[2 ^ 23, 2 ^ 24)`
  let N := n * 2 ^ sn
  let D := d * 2 ^ sd
  let q := N / D
  let r := N % D
  let q1 := if D < 2 * r ∨ (2 * r = D ∧ q % 2 = 1) then q + 1 else q
  (q1 * 2 ^ sd, 2 ^ sn)

/-- Correct rounding of the signed fraction `n / d` to a `float`. -/
def F32.round (n : Int) (d : Nat) : F32 :=
  let p := rne24 n.natAbs d
  ⟨(if n < 0 then -1 else 1) * (p.1 : Int), p.2⟩

/-- Conversion `static_cast<float>(i)` of an `int` (also the implicit one of an
`int` operand of a `float` operation). -/
def F32.ofInt (i : Int) : F32 := F32.round i 1

/-- Operator `/` on two `float`s: the exact quotient, correctly rounded. A zero
divisor (which C++ answers with an infinity or a NaN) is outside the model;
it needs a zero height. -/
def F32.div (a b : F32) : F32 :=
  F32.round (a.num * (b.den : Int) * Int.sign b.num) (a.den * b.num.natAbs)

/-- Operator `*` on two `float`s: the exact product, correctly rounded. -/
def F32.mul (a b : F32) : F32 := F32.round (a.num * b.num) (a.den * b.den)

/-- Operator `>` on two `float`s. -/
def F32.gt (a b : F32) : Bool := decide (b.num * (a.den : Int) < a.num * (b.den : Int))

/-- Conversion `static_cast<int>(a)`: truncation toward zero. -/
def F32.toInt (a : F32) : Int := Int.tdiv a.num (a.den : Int)

/-! ## Attributes, image specs and image buffers -/

/-- A value held by an attribute of an `ImageSpec`, by the overload of
`ImageSpec::attribute` that stored it: `int` (also for the promoted `short` and
`unsigned short`), `unsigned int`, `float`, or a string. -/
inductive AttrValue where
  | int (v : Int)
  | uint (v : Nat)
  | float (v : F32)
  | string (s : String)
deriving DecidableEq, Repr

/-- The fields of `OIIO::ImageSpec` the tool uses; `extra_attribs` is the
attribute store, in insertion order. -/
structure ImageSpec where
  width : Int
  height : Int
  nchannels : Int
  extra_attribs : List (String × AttrValue)
deriving DecidableEq, Repr

/-- An `OIIO::ImageBuf`: a spec and the value of channel `c` of pixel `(x, y)`. -/
structure ImageBuf where
  spec : ImageSpec
  pixel : Int → Int → Int → F32

/-! ## The resize / letterbox block of `main` -/

/-- Lines 866-876: the size `(resizewidth, resizeheight)` of the resized region for a
source of `sw x sh` and the requested `width x height`. -/
def resizeDims (sw sh width height : Int) : Int × Int :=
  let aspectratio := F32.div (F32.ofInt sw) (F32.ofInt sh)
  let resizeaspectratio := F32.div (F32.ofInt width) (F32.ofInt height)
  if F32.gt aspectratio resizeaspectratio then
    (width, F32.toInt (F32.div (F32.ofInt width) aspectratio))
  else
    (F32.toInt (F32.mul (F32.ofInt height) aspectratio), height)

/-- The call `ImageBufAlgo::resize(resizedbuf, src, "triangle", 0, ROI(0, w, 0, h))`
into an uninitialized `resizedbuf`: the result covers the requested region and
takes the channels of `src`; the filtered pixel values are the library's
matter and come in as `filter`. -/
def ImageBufAlgo.resize (filter : ImageBuf → Int → Int → Int → Int → Int → F32)
    (src : ImageBuf) (w h : Int) : ImageBuf :=
  { spec := { width := w, height := h, nchannels := src.spec.nchannels,
              extra_attribs := src.spec.extra_attribs },
    pixel := filter src w h }

/-- The call `ImageBufAlgo::zero(dst)`: every channel of every pixel becomes `0.0f`. -/
def ImageBufAlgo.zero (dst : ImageBuf) : ImageBuf :=
  { spec := dst.spec, pixel := fun _ _ _ => F32.zero }

/-- The call `ImageBufAlgo::paste(dst, xbegin, ybegin, 0, 0, src)`: pixel `(0, 0)` of
`src` lands on `(xbegin, ybegin)` of `dst`; pixels of `dst` that no pixel of
`src` lands on keep their value. -/
def ImageBufAlgo.paste (dst : ImageBuf) (xbegin ybegin : Int) (src : ImageBuf) : ImageBuf :=
  { spec := dst.spec,
    pixel := fun x y c =>
      if xbegin ≤ x ∧ x < xbegin + src.spec.width ∧
         ybegin ≤ y ∧ y < ybegin + src.spec.height ∧
         0 ≤ c ∧ c < src.spec.nchannels then
        src.pixel (x - xbegin) (y - ybegin) c
      else dst.pixel x y c }

/-- Lines 862-888: the body of the resize block, run with `--width width` and
`--height height` on the decoded `imageBuf`; the result is the new `imageBuf`. -/
def resizeStep (filter : ImageBuf → Int → Int → Int → Int → Int → F32)
    (imageBuf : ImageBuf) (width height : Int) : ImageBuf :=
  let spec := imageBuf.spec
  let d := resizeDims spec.width spec.height width height
  let resizewidth := d.1
  let resizeheight := d.2
  let resizedbuf := ImageBufAlgo.resize filter imageBuf resizewidth resizeheight
  let copyspec : ImageSpec :=
    { width := width, height := height, nchannels := spec.nchannels, extra_attribs := [] }
  let copybuf : ImageBuf := { spec := copyspec, pixel := fun _ _ _ => F32.zero }
  let copybuf := ImageBufAlgo.zero copybuf
  let xoffset := Int.tdiv (width - resizewidth) 2
  let yoffset := Int.tdiv (height - resizeheight) 2
  ImageBufAlgo.paste copybuf xoffset yoffset resizedbuf

/-- The resize rule read in exact arithmetic, as the specification words it:
`sw / sh` against `width / height` as rationals, `width / (sw / sh)` and
`height * (sw / sh)` as rationals, then truncation. -/
def resizeDimsExact (sw sh width height : Int) : Int × Int :=
  let srcAR : ℚ := (sw : ℚ) / (sh : ℚ)
  let dstAR : ℚ := (width : ℚ) / (height : ℚ)
  if dstAR < srcAR then
    (width, ⌊(width : ℚ) / srcAR⌋)
  else
    (⌊(height : ℚ) * srcAR⌋, height)

/-- The region of `d.1` by `d.2` pixels fits the canvas of `width` by `height`: its sides
lie between zero and the sides of the canvas, the paste offsets of lines 885-886 are
not negative, the pasted region ends inside the canvas, and the two borders on each
axis differ by at most one pixel. -/
def fitsCanvas (width height : Int) (d : Int × Int) : Prop :=
  0 ≤ d.1 ∧ d.1 ≤ width ∧ 0 ≤ d.2 ∧ d.2 ≤ height ∧
  0 ≤ Int.tdiv (width - d.1) 2 ∧ 0 ≤ Int.tdiv (height - d.2) 2 ∧
  Int.tdiv (width - d.1) 2 + d.1 ≤ width ∧ Int.tdiv (height - d.2) 2 + d.2 ≤ height ∧
  |(width - d.1 - Int.tdiv (width - d.1) 2) - Int.tdiv (width - d.1) 2| ≤ 1 ∧
  |(height - d.2 - Int.tdiv (height - d.2) 2) - Int.tdiv (height - d.2) 2| ≤ 1

instance (width height : Int) (d : Int × Int) : Decidable (fitsCanvas width height d) :=
  inferInstanceAs (Decidable (_ ∧ _ ∧ _ ∧ _ ∧ _ ∧ _ ∧ _ ∧ _ ∧ _ ∧ _))

/-! ## The metadata merge engine -/

/-- The collaborator `ImageSpec::attribute(name, value)` on the attribute list, by its
contract in the specification (section 3, a mapping from key to attribute in which the
last write wins): an attribute of that name is replaced where it stands, otherwise
the attribute is added at the end. -/
def setAttribute : List (String × AttrValue) → String → AttrValue → List (String × AttrValue)
  | [], name, v => [(name, v)]
  | (n, w) :: rest, name, v =>
    if n = name then (name, v) :: rest else (n, w) :: setAttribute rest name v

/-- The call `spec.attribute(name, value)`. -/
def ImageSpec.attribute (spec : ImageSpec) (name : String) (v : AttrValue) : ImageSpec :=
  { spec with extra_attribs := setAttribute spec.extra_attribs name v }

/-- The call `spec.find_attribute(name)`: the attribute stored under `name`, if any. -/
def ImageSpec.find_attribute (spec : ImageSpec) (name : String) : Option AttrValue :=
  (spec.extra_attribs.find? (fun p => p.1 = name)).map Prod.snd

/-- A `CFStringRef`: the bytes of its text in Mac OS Roman, the encoding the source asks
for (one `Char` a byte), and whether the text has such an encoding at all. -/
structure CFString where
  chars : List Char
  macRoman : Bool
deriving DecidableEq, Repr

/-- The size `m_buffersize` of the decode buffer. -/
def m_buffersize : Nat := 1024

/-- The call `CFStringGetCString(s, buffer, size, kCFStringEncodingMacRoman)` followed by
a read of `buffer` as a C string: `none` when the call returns false (a character
without encoding, or no room for the bytes and the terminating NUL), else the bytes
up to the first NUL. -/
def CFStringGetCString (s : CFString) (size : Nat) : Option (List Char) :=
  if s.macRoman ∧ s.chars.length + 1 ≤ size then
    some (s.chars.takeWhile (fun c => c ≠ Char.ofNat 0))
  else none

/-- The tags of `BlackmagicRawVariantType` that the source names; `other code` is any
tag it does not name. -/
inductive VariantType where
  | u8 | s16 | u16 | s32 | u32 | float32 | string | safeArray
  | other (code : Nat)
deriving DecidableEq, Repr

/-- The elements of a `SafeArray`, by declared element type (`SafeArrayGetVartype`). For an
element type the array loop has no case for, only the number of elements matters. -/
inductive SafeArrayData where
  | u8 (xs : List Nat)
  | s16 (xs : List Int)
  | u16 (xs : List Nat)
  | s32 (xs : List Int)
  | u32 (xs : List Nat)
  | float32 (xs : List F32)
  | string (n : Nat)
  | safeArray (n : Nat)
  | other (code : Nat) (n : Nat)
deriving DecidableEq, Repr

/-- A `SafeArray*`: whether `SafeArrayAccessData` and `SafeArrayGetVartype` return `S_OK`,
the lower bound, and the elements (the upper bound is `lBound + length - 1`). -/
structure SafeArray where
  accessOk : Bool
  vartypeOk : Bool
  lBound : Int
  data : SafeArrayData
deriving DecidableEq, Repr

/-- A `Variant`: the tag `vt` together with the member of the union that the tag selects. -/
inductive Variant where
  | u8 (v : Nat)
  | s16 (iVal : Int)
  | u16 (uiVal : Nat)
  | s32 (intVal : Int)
  | u32 (uintVal : Nat)
  | float32 (fltVal : F32)
  | string (bstrVal : CFString)
  | safeArray (parray : SafeArray)
  | other (code : Nat)
deriving DecidableEq, Repr

/-- The field `vt` of a `Variant`. -/
def Variant.vt : Variant → VariantType
  | .u8 _ => .u8
  | .s16 _ => .s16
  | .u16 _ => .u16
  | .s32 _ => .s32
  | .u32 _ => .u32
  | .float32 _ => .float32
  | .string _ => .string
  | .safeArray _ => .safeArray
  | .other c => .other c

/-- The declared element type of an array. -/
def SafeArrayData.vartype : SafeArrayData → VariantType
  | .u8 _ => .u8
  | .s16 _ => .s16
  | .u16 _ => .u16
  | .s32 _ => .s32
  | .u32 _ => .u32
  | .float32 _ => .float32
  | .string _ => .string
  | .safeArray _ => .safeArray
  | .other c _ => .other c

/-- The variant types the outer `switch` of `ProcessMetaData` has a case for. -/
def VariantType.supported : VariantType → Bool
  | .s16 | .u16 | .s32 | .u32 | .float32 | .string | .safeArray => true
  | _ => false

/-- The element types the inner `switch` (the array loop) has a case for. -/
def VariantType.supportedElement : VariantType → Bool
  | .u8 | .s16 | .u16 | .s32 | .u32 | .float32 => true
  | _ => false

/-- Lines 499-519: what `arrayValues << element` appends for each element, in order. An
`unsigned char` is streamed as the character itself, the integer types in decimal, a
`float` through the stream's float format `fmt`; for any other element type the
`switch` appends nothing. -/
def SafeArrayData.texts (fmt : F32 → String) : SafeArrayData → List String
  | .u8 xs => xs.map (fun b => String.singleton (Char.ofNat b))
  | .s16 xs => xs.map (fun i => toString i)
  | .u16 xs => xs.map (fun i => toString i)
  | .s32 xs => xs.map (fun i => toString i)
  | .u32 xs => xs.map (fun i => toString i)
  | .float32 xs => xs.map fmt
  | .string n => List.replicate n ""
  | .safeArray n => List.replicate n ""
  | .other _ n => List.replicate n ""

/-- Lines 497-521: the loop `for (i = lBound; i <= uBound; i++)` on the stream
`arrayValues`: the element's text, then `", "` when `i < uBound`, that is when an
element follows. -/
def arrayLoop : List String → String → String
  | [], arrayValues => arrayValues
  | e :: rest, arrayValues =>
    arrayLoop rest (if rest.isEmpty then arrayValues ++ e else arrayValues ++ e ++ ", ")

/-- Lines 449-528: the `switch (variantType)` of one iteration, on the spec of
`m_imageBuf`, with `attr` the current value of the local `attribute`. -/
def storeVariant (fmt : F32 → String) (attr : String) (value : Variant)
    (spec : ImageSpec) : ImageSpec :=
  match value with
  | .s16 iVal => spec.attribute attr (.int iVal)
  | .u16 uiVal => spec.attribute attr (.int uiVal)
  | .s32 intVal => spec.attribute attr (.int intVal)
  | .u32 uintVal => spec.attribute attr (.uint uintVal)
  | .float32 fltVal => spec.attribute attr (.float fltVal)
  | .string bstrVal =>
    match CFStringGetCString bstrVal m_buffersize with
    | some buffer => spec.attribute attr (.string (String.mk buffer))
    | none => spec
  | .safeArray safeArray =>
    if safeArray.accessOk = false then spec
    else if safeArray.vartypeOk = false then spec
    else spec.attribute attr (.string (arrayLoop (safeArray.data.texts fmt) ""))
  | .u8 _ => spec
  | .other _ => spec

/-- One entry of an `IBlackmagicRawMetadataIterator`: the key `GetKey` yields and the
variant `GetData` yields, `none` when `GetData` does not return `S_OK`. -/
structure MetadataEntry where
  key : CFString
  data : Option Variant
deriving DecidableEq, Repr

/-- Lines 436-441: the local `attribute` after the key of an entry has been read: the
decoded key, or the previous value `attr` when the key does not decode. -/
def nextAttribute (key : CFString) (attr : String) : String :=
  match CFStringGetCString key m_buffersize with
  | some str => String.mk str
  | none => attr

/-- The attribute value the `switch` stores for a variant, `none` when it stores
nothing: a restatement of `storeVariant` used to word the theorems. -/
def Variant.stored (fmt : F32 → String) : Variant → Option AttrValue
  | .s16 iVal => some (.int iVal)
  | .u16 uiVal => some (.int uiVal)
  | .s32 intVal => some (.int intVal)
  | .u32 uintVal => some (.uint uintVal)
  | .float32 fltVal => some (.float fltVal)
  | .string bstrVal => (CFStringGetCString bstrVal m_buffersize).map (fun b => .string (String.mk b))
  | .safeArray a =>
    if a.accessOk = true ∧ a.vartypeOk = true then
      some (.string (String.intercalate ", " (a.data.texts fmt)))
    else none
  | .u8 _ => none
  | .other _ => none

/-- Number of elements of an array (`uBound - lBound + 1`). -/
def SafeArrayData.length : SafeArrayData → Nat
  | .u8 xs => xs.length
  | .s16 xs => xs.length
  | .u16 xs => xs.length
  | .s32 xs => xs.length
  | .u32 xs => xs.length
  | .float32 xs => xs.length
  | .string n => n
  | .safeArray n => n
  | .other _ n => n

/-- Lines 434-531: the `while` loop over the entries the iterator still has (`GetKey`
succeeds as long as there is one), with the local `attribute` (here `attr`) and the spec of
`m_imageBuf`. A failed `GetData` leaves the loop. -/
def metaDataLoop (fmt : F32 → String) : List MetadataEntry → String → ImageSpec → ImageSpec
  | [], _, spec => spec
  | e :: rest, attr, spec =>
    let attr := nextAttribute e.key attr
    match e.data with
    | none => spec
    | some value => metaDataLoop fmt rest attr (storeVariant fmt attr value spec)

/-- The local `attribute` of `ProcessMetaData` once the keys of `entries` have been read,
from the value `attr` on: `nextAttribute` entry after entry. Used to word the
theorems. -/
def keyAfter (entries : List MetadataEntry) (attr : String) : String :=
  entries.foldl (fun a e => nextAttribute e.key a) attr

/-- The method `BrawCallback::ProcessMetaData(metadataIterator)` on `m_imageBuf`. -/
def ProcessMetaData (fmt : F32 → String) (metadataIterator : List MetadataEntry)
    (m_imageBuf : ImageBuf) : ImageBuf :=
  { m_imageBuf with spec := metaDataLoop fmt metadataIterator "" m_imageBuf.spec }

/-- Lines 829-830: the clip-level stream is merged first, then the frame-level stream. -/
def mergeMetaData (fmt : F32 → String) (clipMetadataIterator frameMetadataIterator : List MetadataEntry)
    (m_imageBuf : ImageBuf) : ImageBuf :=
  ProcessMetaData fmt frameMetadataIterator (ProcessMetaData fmt clipMetadataIterator m_imageBuf)

/-! ## The sidecar LUT extractor -/

/-- The class `\s` of the regular expressions, for `char` in the "C" locale. -/
def isSpace (c : Char) : Bool :=
  c = ' ' || c = '\t' || c = '\n' || c = Char.ofNat 11 || c = Char.ofNat 12 || c = '\r'

/-- The characters after which the anchor `^` of Boost.Regex matches inside a text:
line feed, carriage return, form feed. -/
def isLineSeparator (c : Char) : Bool :=
  c = '\n' || c = '\r' || c = Char.ofNat 12

/-- The whitespace seen since the last other character, while runs are collapsed. -/
inductive Pending where
  | nothing
  | one (c : Char)
  | many
deriving DecidableEq, Repr

/-- What a finished run leaves in the output: a single whitespace character stays, a run
of two or more matches `\s{2,}` and becomes one space. -/
def Pending.flush : Pending → List Char
  | .nothing => []
  | .one c => [c]
  | .many => [' ']

/-- Scan for `boost::regex_replace(value, multispaces, " ")`. -/
def collapseAux : Pending → List Char → List Char
  | p, [] => p.flush
  | p, c :: cs =>
    if isSpace c then
      collapseAux (match p with
        | .nothing => .one c
        | _ => .many) cs
    else p.flush ++ c :: collapseAux .nothing cs

/-- The call `boost::regex_replace(value, multispaces, " ")` with `multispaces` the
expression `\s{2,}`: every maximal run of two or more whitespace characters becomes a
single space. -/
def replaceMultispaces (value : List Char) : List Char := collapseAux .nothing value

/-- Whether `^` matches in front of `c`, `prev` being the character before it (`none` at
the start of the text): at the start, and after a line separator unless the position
is inside a `\r\n` pair. -/
def atLineStart (prev : Option Char) (c : Char) : Bool :=
  match prev with
  | none => true
  | some t => isLineSeparator t && !(t = '\r' && c = '\n')

/-- Scan for `boost::regex_replace(value, leadingspaces, "")`; `inMatch` says that the
previous character was consumed by a match of `^\s+`. -/
def stripAux : Option Char → Bool → List Char → List Char
  | _, _, [] => []
  | prev, inMatch, c :: cs =>
    if isSpace c && (inMatch || atLineStart prev c) then stripAux (some c) true cs
    else c :: stripAux (some c) false cs

/-- The call `boost::regex_replace(value, leadingspaces, "")` with `leadingspaces` the
expression `^\s+`. -/
def replaceLeadingspaces (value : List Char) : List Char := stripAux none false value

/-- The two replacements every chunk of the data block goes through (lines 912-913,
917-918, 942-943). -/
def normalize (value : List Char) : List Char :=
  replaceLeadingspaces (replaceMultispaces value)

/-- The normalisation as the specification words it: runs of two or more whitespace
characters collapsed to one space, then the leading whitespace removed. -/
def norm (value : List Char) : List Char :=
  (replaceMultispaces value).dropWhile isSpace

/-- Search of `needle` in `hay` from the left, `i` being the index of the head of `hay`. -/
def findAux (needle : List Char) : List Char → Nat → Option Nat
  | [], i => if needle = [] then some i else none
  | c :: cs, i => if needle.isPrefixOf (c :: cs) then some i else findAux needle cs (i + 1)

/-- The call `hay.find(needle, pos)`: the first index from `pos` on at which `needle`
occurs, `none` for `npos`. -/
def find (hay needle : List Char) (pos : Nat) : Option Nat :=
  if hay.length < pos then none else findAux needle (hay.drop pos) pos

/-- Search of the character `c` from the left for its last occurrence. -/
def rfindAux (c : Char) : List Char → Nat → Option Nat → Option Nat
  | [], _, last => last
  | d :: ds, i, last => rfindAux c ds (i + 1) (if d = c then some i else last)

/-- The call `hay.rfind(c)` for a one character string: the last index of `c`. -/
def rfind (hay : List Char) (c : Char) : Option Nat := rfindAux c hay 0 none

/-- The text `"post_3dlut_sidecar_name":` that line 922 looks for. -/
def nameLabel : List Char := "\"post_3dlut_sidecar_name\":".toList

/-- The text `"post_3dlut_sidecar_title":` that line 928 looks for. -/
def titleLabel : List Char := "\"post_3dlut_sidecar_title\":".toList

/-- The text `"post_3dlut_sidecar_data":` that line 934 looks for. -/
def dataLabel : List Char := "\"post_3dlut_sidecar_data\":".toList

/-- A match of the expression `"<field>"\s*:\s*"([^"]*)\"` at the head of `s`; the result is
the capture group. No step of it can be matched in two ways. -/
def matchField (field : List Char) (s : List Char) : Option (List Char) :=
  let quoted := '"' :: field ++ ['"']
  if quoted.isPrefixOf s then
    match (s.drop quoted.length).dropWhile isSpace with
    | ':' :: r =>
      match r.dropWhile isSpace with
      | '"' :: r =>
        match r.dropWhile (fun c => c ≠ '"') with
        | '"' :: _ => some (r.takeWhile (fun c => c ≠ '"'))
        | _ => none
      | _ => none
    | _ => none
  else none

/-- The call `boost::regex_search(line, what, expr)` followed by `what[1]`: the capture of
the leftmost match. -/
def searchField (field : List Char) : List Char → Option (List Char)
  | [] => matchField field []
  | c :: cs =>
    match matchField field (c :: cs) with
    | some v => some v
    | none => searchField field cs

/-- The locals of the scan loop (lines 903-907). -/
structure SidecarScan where
  name : List Char
  title : List Char
  data : List Char
  datarun : Bool
deriving DecidableEq, Repr

/-- Lines 934-946: the line that carries the data label. `startPos` is one past the first
quote that follows the first colon; when there is no such quote `npos + 1` wraps to 0. -/
def openDataRun (line : List Char) (st : SidecarScan) : SidecarScan :=
  let startPos : Nat :=
    match (find line [':'] 0).bind (fun p => find line ['"'] p) with
    | some q => q + 1
    | none => 0
  if startPos < line.length then
    let value := line.drop startPos
    let value :=
      match find value ['"'] 0 with
      | some q => if value.isEmpty then value else value.take q
      | none => value
    let value := normalize value
    { st with datarun := true,
              data := st.data ++ value ++ (if value.isEmpty then [] else ['\n']) }
  else { st with datarun := true }

/-- Lines 908-947: the loop `while (getline(sidecar, line))` over the lines still to read. -/
def scanLoop : List (List Char) → SidecarScan → SidecarScan
  | [], st => st
  | line :: rest, st =>
    if st.datarun then
      match rfind line '"' with
      | some q =>
        -- `line.find("\"") != npos`: the chunk before the last quote, then `break`
        { st with data := st.data ++ normalize (line.take q) }
      | none => scanLoop rest { st with data := st.data ++ normalize line ++ ['\n'] }
    else if (find line nameLabel 0).isSome then
      scanLoop rest
        (match searchField "post_3dlut_sidecar_name".toList line with
         | some v => { st with name := v }
         | none => st)
    else if (find line titleLabel 0).isSome then
      scanLoop rest
        (match searchField "post_3dlut_sidecar_title".toList line with
         | some v => { st with title := v }
         | none => st)
    else if (find line dataLabel 0).isSome then
      scanLoop rest (openDataRun line st)
    else scanLoop rest st

/-- The scan of a whole sidecar, from the initial values of the locals. -/
def scanSidecar (lines : List (List Char)) : SidecarScan :=
  scanLoop lines ⟨[], [], [], false⟩

/-- The lines `getline` yields for a file: `acc` is the line read so far. -/
def getlinesAux : List Char → List Char → List (List Char)
  | [], acc => if acc.isEmpty then [] else [acc]
  | c :: cs, acc => if c = '\n' then acc :: getlinesAux cs [] else getlinesAux cs (acc ++ [c])

/-- The lines of a text file as `getline` reads them. -/
def getlines (text : List Char) : List (List Char) := getlinesAux text []

/-- The function `combine_path` (line 282). -/
def combine_path (path filename : List Char) : List Char := path ++ "/".toList ++ filename

/-- The files the extractor can see: `content p` is `some` for every path that exists,
`writable p` says whether `std::ofstream` can open `p`. -/
structure FileSystem where
  content : List Char → Option (List Char)
  writable : List Char → Bool

/-- The call `exists(path)`. -/
def FileSystem.exists_ (fs : FileSystem) (path : List Char) : Bool := (fs.content path).isSome

/-- A completed write of `text` to the file `path`. -/
def FileSystem.write (fs : FileSystem) (path text : List Char) : FileSystem :=
  { fs with content := fun p => if p = path then some text else fs.content p }

/-- What the LUT file receives (lines 956-959), `lutSize` being the constant 0 of line 904. -/
def lutFileText (title data : List Char) : List Char :=
  "BMD_TITLE ".toList ++ title ++ ['\n'] ++ ['\n'] ++
    "LUT_3D_SIZE ".toList ++ (toString (0 : Int)).toList ++ ['\n'] ++ data

/-- The outcome of the sidecar block: the file system, the path `lutfile`, whether the block
wrote the file, and whether `main` returned `EXIT_FAILURE` from it. -/
structure ExtractResult where
  fs : FileSystem
  lutfile : List Char
  wrote : Bool
  failed : Bool

/-- Lines 948-950: the path `lutfile` for the scanned `name`. -/
def lutfilePath (filename_path : List Char → List Char) (inputfilename name : List Char) :
    List Char :=
  combine_path (filename_path inputfilename ++ "/3DLut".toList) name

/-- Lines 899-970: the sidecar block of `main`. `sidecar` holds the lines of the sidecar
file, `none` when it cannot be opened; `filename_path` is the library's parent
directory function. -/
def extractLut (filename_path : List Char → List Char) (fs : FileSystem)
    (sidecar : Option (List (List Char))) (inputfilename : List Char) : ExtractResult :=
  match sidecar with
  | some lines =>
    let st := scanSidecar lines
    let lutfile := lutfilePath filename_path inputfilename st.name
    if fs.exists_ lutfile then ⟨fs, lutfile, false, false⟩
    else if fs.writable lutfile then
      ⟨fs.write lutfile (lutFileText st.title st.data), lutfile, true, false⟩
    else ⟨fs, lutfile, false, true⟩
  | none => ⟨fs, [], false, true⟩

/-- The text `needle` occurs somewhere in `hay`. -/
def Occurs (needle hay : List Char) : Prop := ∃ s t, hay = s ++ needle ++ t

/-! ## The options, the colorspace catalog and the 3D LUT of the color transform -/

/-- The options of `struct BrawTool` (lines 75-92). -/
structure BrawTool where
  help : Bool
  verbose : Bool
  clonebraw : Bool
  cloneproxy : Bool
  apply3dlut : Bool
  applymetadata : Bool
  exposure : Option F32
  kelvin : Option Int
  tint : Option Int
  width : Option Int
  height : Option Int
  inputfilename : List Char
  outputdirectory : List Char
  override3dlut : List Char
deriving DecidableEq, Repr

/-- An entry of the catalog, `struct BrawColorspace` (lines 610-614). -/
structure BrawColorspace where
  description : List Char
  filename : List Char
deriving DecidableEq, Repr

/-- The call `colorspaces.count(name)` on the catalog `std::map`, as a truth value. -/
def colorspacesCount (colorspaces : List (List Char × BrawColorspace)) (name : List Char) : Bool :=
  colorspaces.any (fun p => p.1 = name)

/-- Lines 738-744: `true` when `main` returns `EXIT_FAILURE` because an override name is
given that the catalog does not hold. -/
def unknownOverride3dlut (tool : BrawTool) (colorspaces : List (List Char × BrawColorspace)) :
    Bool :=
  !tool.override3dlut.isEmpty && !colorspacesCount colorspaces tool.override3dlut

/-- Lines 973-981: the path given to `transform->setSrc`, `none` when `--apply3dlut` is off
and no transform is built. `lutfile` is the local the sidecar block has set. -/
def apply3dlutSrc (tool : BrawTool) (lutfile : List Char) : Option (List Char) :=
  if tool.apply3dlut then some lutfile else none

/-! ## The metadata overlay -/

/-- The two values of `TypeDesc` that the overlay table names. -/
inductive TypeDesc where
  | STRING
  | INT
deriving DecidableEq, Repr

/-- An overlay entry, `struct BrawMetadata` (lines 289-296). -/
structure BrawMetadata where
  key : String
  name : String
  type : TypeDesc
  x : Int
  y : Int
deriving DecidableEq, Repr

/-- The table `metadatas` (lines 1012-1026). -/
def metadatas : List BrawMetadata :=
  [ ⟨"filename", "filename", .STRING, 0, 0⟩,
    ⟨"exposure", "exposure", .STRING, 0, 0⟩,
    ⟨"sensor_rate", "fps", .STRING, 0, 0⟩,
    ⟨"shutter_value", "shutter", .STRING, 0, 0⟩,
    ⟨"aperture", "iris", .STRING, 0, 0⟩,
    ⟨"iso", "iso", .INT, 0, 0⟩,
    ⟨"white_balance_kelvin", "wb", .INT, 0, 0⟩,
    ⟨"white_balance_tint", "tint", .INT, 0, 0⟩,
    ⟨"lens_type", "lens", .STRING, 0, 0⟩,
    ⟨"focal_length", "focal length", .STRING, 0, 0⟩,
    ⟨"distance", "focus", .STRING, 0, 0⟩,
    ⟨"date_recorded", "date", .STRING, 0, 0⟩ ]

/-- Lines 1041-1068: the text `value` of an attribute, by its base type; `str_by_float` is
the function of line 177 (one digit after the point). -/
def attributeText (str_by_float : F32 → String) : AttrValue → String
  | .string s => s
  | .float v => str_by_float v
  | .int v => toString v
  | .uint v => toString v

/-- Lines 1036-1091: the label `metadata.name` of an entry after the body of the overlay
loop has resolved it; `filename` is the library's file name function. -/
def overlayName (str_by_float : F32 → String) (filename : List Char → List Char)
    (tool : BrawTool) (spec : ImageSpec) (metadata : BrawMetadata) : String :=
  if metadata.key = "filename" then String.mk (filename tool.inputfilename)
  else
    match spec.find_attribute metadata.key with
    | some attr =>
      let value := attributeText str_by_float attr
      if metadata.key = "exposure" then
        match tool.exposure with
        | some exposure => metadata.name ++ ": " ++ str_by_float exposure ++ " (" ++ value ++ ")"
        | none => metadata.name ++ ": " ++ value
      else if metadata.key = "white_balance_kelvin" then
        match tool.kelvin with
        | some kelvin => metadata.name ++ ": " ++ toString kelvin ++ " (" ++ value ++ ")"
        | none => metadata.name ++ ": " ++ value
      else if metadata.key = "white_balance_tint" then
        match tool.tint with
        | some tint => metadata.name ++ ": " ++ toString tint ++ " (" ++ value ++ ")"
        | none => metadata.name ++ ": " ++ value
      else metadata.name ++ ": " ++ value
    | none => metadata.name

/-! ## The callback object and the decode block of `main` -/

/-- An `HRESULT`. -/
abbrev HRESULT := Int

/-- The value `S_OK`. -/
def S_OK : HRESULT := 0

/-- The value `E_FAIL` (`0x80004005` as a 32 bit signed number). -/
def E_FAIL : HRESULT := -2147467259

/-- The exit status `EXIT_FAILURE`. -/
def EXIT_FAILURE : Nat := 1

/-- An `IBlackmagicRawFrame`, by its identity; a pointer to a frame is an `Option Frame`,
`none` being `nullptr`. -/
abbrev Frame := Nat

/-- A step of `SetFrame`, as it is carried out. -/
inductive FrameEvent where
  | release (frame : Frame)
  | assign (frame : Option Frame)
  | addRef (frame : Frame)
deriving DecidableEq, Repr

/-- The frames of the codec: the reference count of each frame, and the steps taken on
frames and on the Frame slot so far, oldest first. -/
structure Frames where
  refCount : Frame → Int
  log : List FrameEvent

/-- The call `frame->Release()`. -/
def Frames.Release (frames : Frames) (frame : Frame) : Frames :=
  { refCount := fun g => if g = frame then frames.refCount g - 1 else frames.refCount g,
    log := frames.log ++ [.release frame] }

/-- The call `frame->AddRef()`. -/
def Frames.AddRef (frames : Frames) (frame : Frame) : Frames :=
  { refCount := fun g => if g = frame then frames.refCount g + 1 else frames.refCount g,
    log := frames.log ++ [.addRef frame] }

/-- A default constructed `ImageBuf`: no pixels, no channels, no attributes. -/
def ImageBuf.uninitialized : ImageBuf :=
  { spec := { width := 0, height := 0, nchannels := 0, extra_attribs := [] },
    pixel := fun _ _ _ => F32.zero }

/-- The members of `class BrawCallback` (lines 600-606); `destroyed` records that
`delete this` has run. -/
structure BrawCallback where
  m_kelvin : Option Int
  m_tint : Option Int
  m_exposure : Option F32
  m_frame : Option Frame
  m_imageBuf : ImageBuf
  m_refCount : Int
  destroyed : Bool

/-- The object `new BrawCallback()` yields. -/
def BrawCallback.new : BrawCallback :=
  { m_kelvin := none, m_tint := none, m_exposure := none, m_frame := none,
    m_imageBuf := ImageBuf.uninitialized, m_refCount := 0, destroyed := false }

/-- The method `SetFrame` (lines 589-598): release the frame held, assign, add a reference
to the new frame. -/
def SetFrame (cb : BrawCallback) (frames : Frames) (frame : Option Frame) :
    BrawCallback × Frames :=
  let frames :=
    match cb.m_frame with
    | some held => frames.Release held
    | none => frames
  let cb := { cb with m_frame := frame }
  let frames := { frames with log := frames.log ++ [.assign frame] }
  let frames :=
    match cb.m_frame with
    | some f => frames.AddRef f
    | none => frames
  (cb, frames)

/-- The method `AddRef` of the callback (line 543). -/
def BrawCallback.AddRef (cb : BrawCallback) : BrawCallback :=
  { cb with m_refCount := cb.m_refCount + 1 }

/-- The method `Release` of the callback (lines 548-556): at zero `delete this` runs the
destructor (lines 339-344), which empties the Frame slot and clears the buffer. -/
def BrawCallback.Release (cb : BrawCallback) (frames : Frames) : BrawCallback × Frames :=
  let cb := { cb with m_refCount := cb.m_refCount - 1 }
  if cb.m_refCount = 0 then
    let r := SetFrame cb frames none
    ({ r.1 with m_imageBuf := ImageBuf.uninitialized, destroyed := true }, r.2)
  else (cb, frames)

/-- The setters `SetKelvin` and `SetTint` (lines 561-572): the parameter is a `float`, the
member an `int`. -/
def floatToIntMember (v : Int) : Int := F32.toInt (F32.ofInt v)

/-- The method `ReadComplete` (lines 346-387). `result` and `frame` come from the engine;
`createJob` and `submit` are the results of `CreateJobDecodeAndProcessFrame` and of
`Submit` on the decode job. The second component says whether the decode job was
submitted. The calls on the frame's processing attributes and on the jobs change
nothing of the callback. -/
def ReadComplete (cb : BrawCallback) (frames : Frames) (result : HRESULT) (frame : Frame)
    (createJob submit : HRESULT) : (BrawCallback × Frames) × Bool :=
  let result := if result = S_OK then createJob else result
  let result := if result = S_OK then submit else result
  if result = S_OK then (SetFrame cb frames (some frame), true)
  else ((cb, frames), false)

/-- The method `ProcessImage` (lines 413-424): a buffer of three `float` channels filled
from the image data. -/
def ProcessImage (cb : BrawCallback) (width height : Int) (image : Int → Int → Int → F32) :
    BrawCallback :=
  { cb with m_imageBuf :=
      { spec := { width := width, height := height, nchannels := 3, extra_attribs := [] },
        pixel := image } }

/-- The method `ProcessComplete` (lines 389-411): `result` comes from the engine, the four
further results from the getters of the processed image. -/
def ProcessComplete (cb : BrawCallback) (result getWidth getHeight getResourceSizeBytes
    getResource : HRESULT) (width height : Int) (image : Int → Int → Int → F32) : BrawCallback :=
  let result := if result = S_OK then getWidth else result
  let result := if result = S_OK then getHeight else result
  let result := if result = S_OK then getResourceSizeBytes else result
  let result := if result = S_OK then getResource else result
  if result = S_OK then ProcessImage cb width height image else cb

/-- What the codec engine answers in one run: the results of the calls `main` and the
callback make, the frame and the result the read job completes with, the result and the
image the decode and process job completes with, and the two metadata streams. -/
structure EngineRun where
  factory : Bool
  createCodec : HRESULT
  openClip : HRESULT
  setCallback : HRESULT
  clipMetadataIterator : HRESULT
  clipMetadata : List MetadataEntry
  createJobReadFrame : HRESULT
  submitRead : HRESULT
  readResult : HRESULT
  frame : Frame
  createJobDecodeAndProcessFrame : HRESULT
  submitDecode : HRESULT
  processResult : HRESULT
  getWidth : HRESULT
  getHeight : HRESULT
  getResourceSizeBytes : HRESULT
  getResource : HRESULT
  width : Int
  height : Int
  image : Int → Int → Int → F32
  frameMetadataIterator : HRESULT
  frameMetadata : List MetadataEntry

/-- How the decode block ends: `code` is `some EXIT_FAILURE` when `main` returns from it and
`none` when `main` goes on; `callback` is the callback object once it has been created;
`imageBuf` is the local of `main`. -/
structure DecodeOutcome where
  code : Option Nat
  callback : Option BrawCallback
  frames : Frames
  imageBuf : ImageBuf

/-- The call `codec->FlushJobs()` after the read job has been submitted: the read job
completes, and if `ReadComplete` submitted the decode and process job, that one
completes too. -/
def FlushJobs (engine : EngineRun) (cb : BrawCallback) (frames : Frames) :
    BrawCallback × Frames :=
  let r := ReadComplete cb frames engine.readResult engine.frame
    engine.createJobDecodeAndProcessFrame engine.submitDecode
  if r.2 then
    (ProcessComplete r.1.1 engine.processResult engine.getWidth engine.getHeight
      engine.getResourceSizeBytes engine.getResource engine.width engine.height engine.image,
     r.1.2)
  else r.1

/-- Lines 774-784: the callback is created, `main` takes a reference on it and hands it
the overrides that were given. -/
def createCallback (tool : BrawTool) : BrawCallback :=
  let callback := BrawCallback.new.AddRef
  let callback :=
    match tool.kelvin with
    | some k => { callback with m_kelvin := some (floatToIntMember k) }
    | none => callback
  let callback :=
    match tool.tint with
    | some t => { callback with m_tint := some (floatToIntMember t) }
    | none => callback
  match tool.exposure with
  | some e => { callback with m_exposure := some e }
  | none => callback

/-- The calls of `main` before the jobs run all succeed (lines 753-811). -/
def setupSucceeds (engine : EngineRun) : Prop :=
  engine.factory = true ∧ engine.createCodec = S_OK ∧ engine.openClip = S_OK ∧
    engine.setCallback = S_OK ∧ engine.clipMetadataIterator = S_OK ∧
    engine.createJobReadFrame = S_OK ∧ engine.submitRead = S_OK

/-- The read job completes with success and `ReadComplete` creates and submits the decode
and process job. -/
def readSucceeds (engine : EngineRun) : Prop :=
  engine.readResult = S_OK ∧ engine.createJobDecodeAndProcessFrame = S_OK ∧
    engine.submitDecode = S_OK

/-- The decode and process job completes with success and the four getters of the
processed image succeed. -/
def processSucceeds (engine : EngineRun) : Prop :=
  engine.processResult = S_OK ∧ engine.getWidth = S_OK ∧ engine.getHeight = S_OK ∧
    engine.getResourceSizeBytes = S_OK ∧ engine.getResource = S_OK

instance (engine : EngineRun) : Decidable (setupSucceeds engine) :=
  inferInstanceAs (Decidable (_ ∧ _ ∧ _ ∧ _ ∧ _ ∧ _ ∧ _))

instance (engine : EngineRun) : Decidable (readSucceeds engine) :=
  inferInstanceAs (Decidable (_ ∧ _ ∧ _))

instance (engine : EngineRun) : Decidable (processSucceeds engine) :=
  inferInstanceAs (Decidable (_ ∧ _ ∧ _ ∧ _ ∧ _))

/-- Lines 749-857: the decode block of `main`, up to the resize. -/
def decodeBlock (fmt : F32 → String) (tool : BrawTool) (engine : EngineRun) (frames : Frames) :
    DecodeOutcome :=
  if engine.factory = false then ⟨some EXIT_FAILURE, none, frames, ImageBuf.uninitialized⟩
  else if engine.createCodec ≠ S_OK then ⟨some EXIT_FAILURE, none, frames, ImageBuf.uninitialized⟩
  else if engine.openClip ≠ S_OK then ⟨some EXIT_FAILURE, none, frames, ImageBuf.uninitialized⟩
  else
    let callback := createCallback tool
    if engine.setCallback ≠ S_OK then
      ⟨some EXIT_FAILURE, some callback, frames, ImageBuf.uninitialized⟩
    else if engine.clipMetadataIterator ≠ S_OK then
      ⟨some EXIT_FAILURE, some callback, frames, ImageBuf.uninitialized⟩
    else if engine.createJobReadFrame ≠ S_OK then
      ⟨some EXIT_FAILURE, some callback, frames, ImageBuf.uninitialized⟩
    else if engine.submitRead ≠ S_OK then
      ⟨some EXIT_FAILURE, some callback, frames, ImageBuf.uninitialized⟩
    else
      let r := FlushJobs engine callback frames
      let callback := r.1
      let frames := r.2
      match callback.m_frame with
      | none => ⟨some EXIT_FAILURE, some callback, frames, ImageBuf.uninitialized⟩
      | some _ =>
        if engine.frameMetadataIterator ≠ S_OK then
          ⟨some EXIT_FAILURE, some callback, frames, ImageBuf.uninitialized⟩
        else
          let merged := mergeMetaData fmt engine.clipMetadata engine.frameMetadata callback.m_imageBuf
          let callback := { callback with m_imageBuf := merged }
          -- `GetImageBuf` copies; a pending error is printed and `main` goes on
          let imageBuf := callback.m_imageBuf
          let r :=
            match callback.m_frame with
            | some _ => SetFrame callback frames none
            | none => (callback, frames)
          let r := r.1.Release r.2
          ⟨none, some r.1, r.2, imageBuf⟩

/-! ## The geometry of the metadata overlay -/

/-- Round the positive fraction `n / d` to the nearest number with a 53 bit significand,
ties to even, as binary64 does in its normal range: `rne24` with a 53 bit significand. -/
def rne53 (n d : Nat) : Nat × Nat :=
  if n = 0 ∨ d = 0 then (0, 1) else
  let ln := ilog2 n
  let ld := ilog2 d
  let adj := if d * 2 ^ ln ≤ n * 2 ^ ld then 0 else 1
  let up := 52 + ld + adj
  let sn := up - ln
  let sd := ln - up
  let N := n * 2 ^ sn
  let D := d * 2 ^ sd
  let q := N / D
  let r := N % D
  let q1 := if D < 2 * r ∨ (2 * r = D ∧ q % 2 = 1) then q + 1 else q
  (q1 * 2 ^ sd, 2 ^ sn)

/-- A finite `double` value, kept as the exact fraction `num / den`. -/
structure F64 where
  num : Int
  den : Nat
deriving DecidableEq, Repr

/-- Correct rounding of the signed fraction `n / d` to a `double`. -/
def F64.round (n : Int) (d : Nat) : F64 :=
  let p := rne53 n.natAbs d
  ⟨(if n < 0 then -1 else 1) * (p.1 : Int), p.2⟩

/-- Conversion of an `int` operand of a `double` operation. -/
def F64.ofInt (i : Int) : F64 := F64.round i 1

/-- Operator `*` on two `double`s. -/
def F64.mul (a b : F64) : F64 := F64.round (a.num * b.num) (a.den * b.den)

/-- Conversion of a `double` to `float`. -/
def F64.toF32 (a : F64) : F32 := F32.round a.num a.den

/-- Conversion of a `double` to `int`: truncation toward zero. -/
def F64.toInt (a : F64) : Int := Int.tdiv a.num (a.den : Int)

/-- Operator `+` on two `float`s: the exact sum, correctly rounded. -/
def F32.add (a b : F32) : F32 :=
  F32.round (a.num * (b.den : Int) + b.num * (a.den : Int)) (a.den * b.den)

/-- Operator `-` on two `float`s: the exact difference, correctly rounded. -/
def F32.sub (a b : F32) : F32 :=
  F32.round (a.num * (b.den : Int) - b.num * (a.den : Int)) (a.den * b.den)

/-- An `OIIO::ROI`, in the image plane. -/
structure ROI where
  xbegin : Int
  xend : Int
  ybegin : Int
  yend : Int
deriving DecidableEq, Repr

/-- The method `ROI::width`. -/
def ROI.width (roi : ROI) : Int := roi.xend - roi.xbegin

/-- The method `ROI::height`. -/
def ROI.height (roi : ROI) : Int := roi.yend - roi.ybegin

/-- Lines 298-331: the rectangle `draw_metadata` fills and returns. `text_size` is the
library's measure of the label at the font size; the pixels drawn are the library's
matter and leave the size of the image as it is. -/
def draw_metadata (text_size : String → F32 → ROI) (imageBuf : ImageBuf)
    (metadata : BrawMetadata) : ROI :=
  let height := imageBuf.spec.height
  let fontsize := F64.toF32 (F64.mul (F64.ofInt height) (F64.round 2 100))
  let margin := F32.mul fontsize (F32.round 2 10)
  let padding := F32.mul fontsize (F32.round 2 10)
  let size := text_size metadata.name fontsize
  { xbegin := F32.toInt (F32.sub (F32.ofInt metadata.x) padding),
    xend := F32.toInt (F32.add (F32.ofInt (metadata.x + size.width)) padding),
    ybegin := F32.toInt (F32.sub (F32.ofInt (metadata.y - size.height)) padding),
    yend := F32.toInt (F32.add (F32.add (F32.ofInt metadata.y) margin) padding) }

/-- Line 1094: the cursor after an entry whose rectangle is `roi`,
`y += roi.height() + height * 0.01f`. -/
def advance (height y : Int) (roi : ROI) : Int :=
  F32.toInt (F32.add (F32.ofInt y)
    (F32.add (F32.ofInt roi.height) (F32.mul (F32.ofInt height) (F32.round 1 100))))

/-- Lines 1031-1095: the overlay loop from the cursor `(x, y)` on; `name` is the label
the body resolves for an entry. The result lists every entry as it was drawn, with
its rectangle. -/
def overlayLoop (text_size : String → F32 → ROI) (name : BrawMetadata → String)
    (imageBuf : ImageBuf) : List BrawMetadata → Int → Int → List (BrawMetadata × ROI)
  | [], _, _ => []
  | metadata :: rest, x, y =>
    let metadata := { metadata with name := name metadata, x := x, y := y }
    let roi := draw_metadata text_size imageBuf metadata
    (metadata, roi) ::
      overlayLoop text_size name imageBuf rest x (advance imageBuf.spec.height y roi)

/-- Lines 1008-1097: the overlay block of `main`. -/
def applyMetadata (text_size : String → F32 → ROI) (str_by_float : F32 → String)
    (filename : List Char → List Char) (tool : BrawTool) (imageBuf : ImageBuf) :
    List (BrawMetadata × ROI) :=
  if tool.applymetadata then
    let width := imageBuf.spec.width
    let height := imageBuf.spec.height
    let x := F64.toInt (F64.mul (F64.ofInt width) (F64.round 2 100))
    let y := F32.toInt (F32.mul (F32.ofInt height) (F32.round 4 100))
    overlayLoop text_size (overlayName str_by_float filename tool imageBuf.spec) imageBuf
      metadatas x y
  else []

/-- An entry of the overlay is in range when its start, the height of its rectangle and
the sum of the two are at most `2 ^ 24` in size, the range in which a `float` holds
every integer. -/
def inFloatRange (e : BrawMetadata × ROI) : Prop :=
  |e.1.y| ≤ 2 ^ 24 ∧ |e.2.height| ≤ 2 ^ 24 ∧ |e.1.y + e.2.height| ≤ 2 ^ 24

instance (e : BrawMetadata × ROI) : Decidable (inFloatRange e) :=
  inferInstanceAs (Decidable (_ ∧ _ ∧ _))

/-! ## The guard of the resize block -/

/-- The exception `boost::bad_optional_access`, which `main` has no handler for. -/
inductive BadOptionalAccess where
  | bad_optional_access
deriving DecidableEq, Repr

/-- The method `boost::optional<int>::value`: the value held, or the exception when the
optional is empty. -/
def optionalValue : Option Int → Except BadOptionalAccess Int
  | some v => .ok v
  | none => .error .bad_optional_access

/-- Lines 859-889: the resize block of `main` on the decoded `imageBuf`. The guard asks
whether one of the two options has a value; the body reads both. -/
def resizeBlock (filter : ImageBuf → Int → Int → Int → Int → Int → F32) (tool : BrawTool)
    (imageBuf : ImageBuf) : Except BadOptionalAccess ImageBuf :=
  if tool.width.isSome = true ∨ tool.height.isSome = true then
    match optionalValue tool.width with
    | .error e => .error e
    | .ok width =>
      match optionalValue tool.height with
      | .error e => .error e
      | .ok height => .ok (resizeStep filter imageBuf width height)
  else .ok imageBuf

/-! ## Sample inputs -/

/-- A 4096x2160 source of three channels, all ones, and a filter that repeats the
source's first pixel; used to instantiate the resize theorems. -/
def sampleImage : ImageBuf :=
  { spec := { width := 4096, height := 2160, nchannels := 3, extra_attribs := [] },
    pixel := fun _ _ _ => ⟨1, 1⟩ }

/-- The `iso` key, as the iterator yields it. -/
def isoKey : CFString := ⟨"iso".toList, true⟩

/-- An accessible array of three 32 bit integers. -/
def sampleArray : SafeArray := ⟨true, true, 0, .s32 [4096, -1, 2160]⟩

/-- The entry `crop_size` holding `sampleArray`. -/
def sampleArrayEntry : MetadataEntry := ⟨⟨"crop_size".toList, true⟩, some (.safeArray sampleArray)⟩

/-- A sidecar whose data block is the two rows `1.0 0.0 0.0` and `0.0 1.0 0.0`, written
with a doubled space and an indented second row. -/
def sampleSidecar : List (List Char) :=
  [ "\x7b".toList,
    "  \"post_3dlut_sidecar_name\": \"Test.cube\",".toList,
    "  \"post_3dlut_sidecar_title\": \"Test\",".toList,
    "  \"post_3dlut_sidecar_data\": \"1.0  0.0 0.0".toList,
    "    0.0 1.0  0.0\"".toList,
    "\x7d".toList ]

/-- A file system that holds one file, `clips/3DLut/Test.cube`, and lets every path be
written. -/
def sampleFileSystem : FileSystem :=
  { content := fun p => if p = "clips/3DLut/Test.cube".toList then some "old".toList else none,
    writable := fun _ => true }

/-- A catalog with the one entry `Rec709`. -/
def sampleColorspaces : List (List Char × BrawColorspace) :=
  [("Rec709".toList, ⟨"/res/rec709.txt".toList, "/res/rec709.cube".toList⟩)]

/-- Options that apply the 3D LUT and name `overrideName` as override, for the clip
`clips/A001.braw`. -/
def sampleTool (overrideName : List Char) : BrawTool :=
  { help := false, verbose := false, clonebraw := false, cloneproxy := false,
    apply3dlut := true, applymetadata := false, exposure := none, kelvin := none,
    tint := none, width := none, height := none,
    inputfilename := "clips/A001.braw".toList, outputdirectory := "out".toList,
    override3dlut := overrideName }

/-- The stream of the overlay scenario: `iso` 800 (int32) and `white_balance_kelvin` 5600
(uint32). -/
def sampleStream : List MetadataEntry :=
  [ ⟨isoKey, some (.s32 800)⟩,
    ⟨⟨"white_balance_kelvin".toList, true⟩, some (.u32 5600)⟩ ]

/-- The options of `sampleTool` with the metadata overlay on and the kelvin override `k`. -/
def sampleOverlayTool (k : Option Int) : BrawTool :=
  { sampleTool [] with applymetadata := true, kelvin := k }

/-- Frames that all carry one reference, and no step taken yet. -/
def sampleFrames : Frames := { refCount := fun _ => 1, log := [] }

/-- An engine run that decodes frame 7 of a 4 by 2 clip; the read job completes with
`readResult`, the decode and process job with `processResult`, the getter of the image
width answers `getWidth` and the metadata iterator of the frame `frameMetadataIterator`;
every other call succeeds. -/
def sampleEngine (readResult processResult getWidth frameMetadataIterator : HRESULT) :
    EngineRun :=
  { factory := true, createCodec := S_OK, openClip := S_OK, setCallback := S_OK,
    clipMetadataIterator := S_OK, clipMetadata := sampleStream,
    createJobReadFrame := S_OK, submitRead := S_OK, readResult := readResult, frame := 7,
    createJobDecodeAndProcessFrame := S_OK, submitDecode := S_OK,
    processResult := processResult, getWidth := getWidth, getHeight := S_OK,
    getResourceSizeBytes := S_OK, getResource := S_OK, width := 4, height := 2,
    image := fun _ _ _ => ⟨1, 1⟩, frameMetadataIterator := frameMetadataIterator,
    frameMetadata := [] }

/-- A callback that holds frame 3. -/
def sampleCallback : BrawCallback := { BrawCallback.new with m_frame := some 3 }

/-- A text measure that answers 10 by 16777217 pixels for every label. -/
def tallTextSize (_ : String) (_ : F32) : ROI := ⟨0, 10, 0, 16777217⟩

/-- A text measure that answers seven pixels a character and the font size plus three
pixels of height. -/
def sampleTextSize (s : String) (fontsize : F32) : ROI :=
  ⟨0, 7 * s.length, 0, F32.toInt fontsize + 3⟩

/-- An image of `width` by `height` pixels without attributes. -/
def blankImage (width height : Int) : ImageBuf :=
  { spec := { width := width, height := height, nchannels := 3, extra_attribs := [] },
    pixel := fun _ _ _ => F32.zero }

/-- The options of `sampleTool` with `--width` and `--height` as given. -/
def sampleResizeTool (width height : Option Int) : BrawTool :=
  { sampleTool [] with width := width, height := height }

/-- An entry whose key has no MacRoman encoding, holding the 32 bit integer 400. -/
def undecodableEntry : MetadataEntry := ⟨⟨"isoα".toList, false⟩, some (.s32 400)⟩

/-! ## Theorems -/

/-! ### Correct rounding -/

theorem ilog2Aux_spec (f n : Nat) (hn : 0 < n) (hf : n ≤ f) :
    2 ^ ilog2Aux f n ≤ n ∧ n < 2 ^ (ilog2Aux f n + 1) := by
  induction f generalizing n with
  | zero => omega
  | succ f ih =>
    rw [ilog2Aux]
    by_cases h2 : 2 ≤ n
    · rw [if_pos h2]
      have hpos : 0 < n / 2 := Nat.div_pos h2 (by decide)
      have hle : n / 2 ≤ f := by omega
      obtain ⟨h3, h4⟩ := ih (n / 2) hpos hle
      generalize ilog2Aux f (n / 2) = r at h3 h4
      rw [pow_succ] at h4 ⊢
      rw [pow_succ (2 : Nat) (r + 1), pow_succ (2 : Nat) r]
      generalize 2 ^ r = a at h3 h4 ⊢
      omega
    · rw [if_neg h2]
      have : n = 1 := by omega
      subst this
      decide

/-- The function `ilog2` finds the position of the leading bit. -/
theorem ilog2_spec (n : Nat) (hn : 0 < n) : 2 ^ ilog2 n ≤ n ∧ n < 2 ^ (ilog2 n + 1) :=
  ilog2Aux_spec n n hn (Nat.le_refl n)

/-- With `ln`, `ld` the leading bit positions of `n`, `d` and `adj` the correction of their
difference, the shifts of `rne24` bring `n / d` into `[2 ^ 23, 2 ^ 24)`. -/
theorem scaled_bounds (n d ln ld adj : Nat)
    (hln : 2 ^ ln ≤ n ∧ n < 2 ^ (ln + 1)) (hld : 2 ^ ld ≤ d ∧ d < 2 ^ (ld + 1))
    (hadj : (adj = 0 ∧ d * 2 ^ ln ≤ n * 2 ^ ld) ∨ (adj = 1 ∧ n * 2 ^ ld < d * 2 ^ ln)) :
    2 ^ 23 * (d * 2 ^ (ln - (23 + ld + adj))) ≤ n * 2 ^ (23 + ld + adj - ln) ∧
    n * 2 ^ (23 + ld + adj - ln) < 2 ^ 24 * (d * 2 ^ (ln - (23 + ld + adj))) := by
  obtain ⟨hn1, hn2⟩ := hln
  obtain ⟨hd1, hd2⟩ := hld
  rw [pow_succ] at hn2 hd2
  have hA : 0 < 2 ^ ln := Nat.pos_pow_of_pos _ (by decide)
  have hB : 0 < 2 ^ ld := Nat.pos_pow_of_pos _ (by decide)
  -- the key inequality
  have hK : d * 2 ^ ln ≤ n * 2 ^ ld * 2 ^ adj ∧ n * 2 ^ ld * 2 ^ adj < 2 * (d * 2 ^ ln) := by
    rcases hadj with ⟨h0, h⟩ | ⟨h1, h⟩
    · subst h0
      refine ⟨by simpa using h, ?_⟩
      simp only [pow_zero, mul_one]
      nlinarith
    · subst h1
      simp only [pow_one]
      constructor
      · nlinarith
      · nlinarith
  obtain ⟨hK1, hK2⟩ := hK
  have hup : (2 : Nat) ^ (23 + ld + adj) = 2 ^ 23 * 2 ^ ld * 2 ^ adj := by
    rw [pow_add, pow_add]
  by_cases hc : ln ≤ 23 + ld + adj
  · obtain ⟨k, hk⟩ := Nat.exists_eq_add_of_le hc
    have hsn : 23 + ld + adj - ln = k := by omega
    have hsd : ln - (23 + ld + adj) = 0 := by omega
    rw [hsn, hsd, pow_zero, mul_one]
    have hE : (2 : Nat) ^ ln * 2 ^ k = 2 ^ 23 * 2 ^ ld * 2 ^ adj := by
      rw [← pow_add, ← hk, hup]
    constructor
    · apply Nat.le_of_mul_le_mul_right _ hA
      calc 2 ^ 23 * d * 2 ^ ln = 2 ^ 23 * (d * 2 ^ ln) := by ring
        _ ≤ 2 ^ 23 * (n * 2 ^ ld * 2 ^ adj) := Nat.mul_le_mul_left _ hK1
        _ = n * (2 ^ 23 * 2 ^ ld * 2 ^ adj) := by ring
        _ = n * (2 ^ ln * 2 ^ k) := by rw [hE]
        _ = n * 2 ^ k * 2 ^ ln := by ring
    · apply Nat.lt_of_mul_lt_mul_right (a := 2 ^ ln)
      calc n * 2 ^ k * 2 ^ ln = n * (2 ^ ln * 2 ^ k) := by ring
        _ = n * (2 ^ 23 * 2 ^ ld * 2 ^ adj) := by rw [hE]
        _ = 2 ^ 23 * (n * 2 ^ ld * 2 ^ adj) := by ring
        _ < 2 ^ 23 * (2 * (d * 2 ^ ln)) := Nat.mul_lt_mul_of_pos_left hK2 (by decide)
        _ = 2 ^ 24 * d * 2 ^ ln := by ring
  · have hc2 : 23 + ld + adj ≤ ln := by omega
    obtain ⟨k, hk⟩ := Nat.exists_eq_add_of_le hc2
    have hsn : 23 + ld + adj - ln = 0 := by omega
    have hsd : ln - (23 + ld + adj) = k := by omega
    rw [hsn, hsd, pow_zero, mul_one]
    have hE : (2 : Nat) ^ ln = 2 ^ 23 * 2 ^ ld * 2 ^ adj * 2 ^ k := by
      rw [hk, pow_add, hup]
    have hU : 0 < 2 ^ 23 * 2 ^ ld * 2 ^ adj := by positivity
    constructor
    · apply Nat.le_of_mul_le_mul_right _ hU
      calc 2 ^ 23 * (d * 2 ^ k) * (2 ^ 23 * 2 ^ ld * 2 ^ adj)
          = 2 ^ 23 * (d * (2 ^ 23 * 2 ^ ld * 2 ^ adj * 2 ^ k)) := by ring
        _ = 2 ^ 23 * (d * 2 ^ ln) := by rw [hE]
        _ ≤ 2 ^ 23 * (n * 2 ^ ld * 2 ^ adj) := Nat.mul_le_mul_left _ hK1
        _ = n * (2 ^ 23 * 2 ^ ld * 2 ^ adj) := by ring
    · apply Nat.lt_of_mul_lt_mul_right (a := 2 ^ 23 * 2 ^ ld * 2 ^ adj)
      calc n * (2 ^ 23 * 2 ^ ld * 2 ^ adj) = 2 ^ 23 * (n * 2 ^ ld * 2 ^ adj) := by ring
        _ < 2 ^ 23 * (2 * (d * 2 ^ ln)) := Nat.mul_lt_mul_of_pos_left hK2 (by decide)
        _ = 2 ^ 24 * (d * (2 ^ 23 * 2 ^ ld * 2 ^ adj * 2 ^ k)) := by rw [hE]; ring
        _ = 2 ^ 24 * (d * 2 ^ k) * (2 ^ 23 * 2 ^ ld * 2 ^ adj) := by ring

/-- Rounding a scaled value to the nearest integer, ties to even. -/
theorem round_step (N D : Nat) (hD : 0 < D) (hlo : 2 ^ 23 * D ≤ N) (hhi : N < 2 ^ 24 * D) :
    ∃ q : Nat,
      q = (if D < 2 * (N % D) ∨ (2 * (N % D) = D ∧ N / D % 2 = 1) then N / D + 1 else N / D) ∧
      2 ^ 23 ≤ q ∧ q ≤ 2 ^ 24 ∧
      2 * (q * D) ≤ 2 * N + D ∧ 2 * N ≤ 2 * (q * D) + D ∧
      ((2 * (q * D) = 2 * N + D ∨ 2 * N = 2 * (q * D) + D) → q % 2 = 0) := by
  have hdm : D * (N / D) + N % D = N := Nat.div_add_mod N D
  have hr : N % D < D := Nat.mod_lt _ hD
  have hq1 : 2 ^ 23 ≤ N / D := (Nat.le_div_iff_mul_le hD).mpr hlo
  have hq2 : N / D < 2 ^ 24 := (Nat.div_lt_iff_lt_mul hD).mpr hhi
  generalize N / D = q0 at hdm hq1 hq2 ⊢
  generalize N % D = r at hdm hr ⊢
  have hP : (q0 + 1) * D = D * q0 + D := by ring
  have hP0 : q0 * D = D * q0 := by ring
  by_cases hup : D < 2 * r ∨ (2 * r = D ∧ q0 % 2 = 1)
  · refine ⟨q0 + 1, by rw [if_pos hup], by omega, by omega, ?_, ?_, ?_⟩
    · rw [hP]; omega
    · rw [hP]; omega
    · rw [hP]
      intro h
      rcases hup with h1 | ⟨h1, h2⟩
      · omega
      · omega
  · refine ⟨q0, by rw [if_neg hup], hq1, by omega, ?_, ?_, ?_⟩
    · rw [hP0]; omega
    · rw [hP0]; omega
    · rw [hP0]
      intro h
      have h3 : ¬ D < 2 * r := fun h => hup (Or.inl h)
      have h4 : ¬ (2 * r = D ∧ q0 % 2 = 1) := fun h => hup (Or.inr h)
      rcases h with h | h
      · omega
      · have : 2 * r = D := by omega
        have : ¬ q0 % 2 = 1 := fun h5 => h4 ⟨this, h5⟩
        omega

/-- The function `rne24` rounds correctly: for `n / d > 0` it returns `q * 2 ^ sd / 2 ^ sn`
where the scaled value `(n * 2 ^ sn) / (d * 2 ^ sd)` lies in `[2 ^ 23, 2 ^ 24)` and `q` is
the integer nearest to it, the even one when two are equally near. -/
theorem rne24_spec (n d : Nat) (hn : 0 < n) (hd : 0 < d) :
    ∃ q sn sd : Nat, rne24 n d = (q * 2 ^ sd, 2 ^ sn) ∧
      2 ^ 23 * (d * 2 ^ sd) ≤ n * 2 ^ sn ∧ n * 2 ^ sn < 2 ^ 24 * (d * 2 ^ sd) ∧
      2 ^ 23 ≤ q ∧ q ≤ 2 ^ 24 ∧
      2 * (q * (d * 2 ^ sd)) ≤ 2 * (n * 2 ^ sn) + d * 2 ^ sd ∧
      2 * (n * 2 ^ sn) ≤ 2 * (q * (d * 2 ^ sd)) + d * 2 ^ sd ∧
      ((2 * (q * (d * 2 ^ sd)) = 2 * (n * 2 ^ sn) + d * 2 ^ sd ∨
        2 * (n * 2 ^ sn) = 2 * (q * (d * 2 ^ sd)) + d * 2 ^ sd) → q % 2 = 0) := by
  have hne : ¬ (n = 0 ∨ d = 0) := by omega
  have hadj : ∀ adj : Nat, adj = (if d * 2 ^ ilog2 n ≤ n * 2 ^ ilog2 d then 0 else 1) →
      (adj = 0 ∧ d * 2 ^ ilog2 n ≤ n * 2 ^ ilog2 d) ∨
      (adj = 1 ∧ n * 2 ^ ilog2 d < d * 2 ^ ilog2 n) := by
    intro adj h
    by_cases hc : d * 2 ^ ilog2 n ≤ n * 2 ^ ilog2 d
    · rw [if_pos hc] at h; exact Or.inl ⟨h, hc⟩
    · rw [if_neg hc] at h; exact Or.inr ⟨h, by omega⟩
  unfold rne24
  rw [if_neg hne]
  simp only []
  generalize hA : (if d * 2 ^ ilog2 n ≤ n * 2 ^ ilog2 d then 0 else 1) = adj
  obtain ⟨hlo, hhi⟩ := scaled_bounds n d (ilog2 n) (ilog2 d) adj (ilog2_spec n hn)
    (ilog2_spec d hd) (hadj adj hA.symm)
  generalize 23 + ilog2 d + adj - ilog2 n = sn at hlo hhi ⊢
  generalize ilog2 n - (23 + ilog2 d + adj) = sd at hlo hhi ⊢
  have hD : 0 < d * 2 ^ sd := Nat.mul_pos hd (Nat.pos_pow_of_pos _ (by decide))
  obtain ⟨q, hq, h1, h2, h3, h4, h5⟩ := round_step (n * 2 ^ sn) (d * 2 ^ sd) hD hlo hhi
  exact ⟨q, sn, sd, by rw [hq], hlo, hhi, h1, h2, h3, h4, h5⟩

theorem rne24_snd_pos (n d : Nat) : 0 < (rne24 n d).2 := by
  unfold rne24
  split
  · decide
  · exact Nat.pos_pow_of_pos _ (by decide)

theorem F32.round_den_pos (n : Int) (d : Nat) : 0 < (F32.round n d).den :=
  rne24_snd_pos _ _

theorem F32.round_num_nonneg (n : Int) (d : Nat) (h : 0 ≤ n) : 0 ≤ (F32.round n d).num := by
  have h1 : ¬ n < 0 := not_lt.mpr h
  simp only [F32.round, h1, if_false, one_mul]
  exact Int.natCast_nonneg _

theorem F32.ofInt_den_pos (i : Int) : 0 < (F32.ofInt i).den := F32.round_den_pos _ _

theorem F32.ofInt_num_nonneg (i : Int) (h : 0 ≤ i) : 0 ≤ (F32.ofInt i).num :=
  F32.round_num_nonneg _ _ h

theorem F32.div_den_pos (a b : F32) : 0 < (F32.div a b).den := F32.round_den_pos _ _

theorem F32.mul_den_pos (a b : F32) : 0 < (F32.mul a b).den := F32.round_den_pos _ _

theorem F32.div_num_nonneg (a b : F32) (ha : 0 ≤ a.num) (hb : 0 ≤ b.num) :
    0 ≤ (F32.div a b).num := by
  apply F32.round_num_nonneg
  exact mul_nonneg (mul_nonneg ha (Int.natCast_nonneg _)) (Int.sign_nonneg.mpr hb)

theorem F32.mul_num_nonneg (a b : F32) (ha : 0 ≤ a.num) (hb : 0 ≤ b.num) :
    0 ≤ (F32.mul a b).num :=
  F32.round_num_nonneg _ _ (mul_nonneg ha hb)

/-- Operator `>` of the model compares the values. -/
theorem F32.gt_iff (a b : F32) (ha : 0 < a.den) (hb : 0 < b.den) :
    F32.gt a b = true ↔ b.val < a.val := by
  have ha' : (0 : ℚ) < (a.den : ℚ) := by exact_mod_cast ha
  have hb' : (0 : ℚ) < (b.den : ℚ) := by exact_mod_cast hb
  simp only [F32.gt, decide_eq_true_eq, F32.val]
  rw [div_lt_div_iff₀ hb' ha']
  constructor
  · intro h
    exact_mod_cast h
  · intro h
    exact_mod_cast h

/-- On a value that is not negative the conversion to `int` is the floor. -/
theorem F32.toInt_eq_floor (a : F32) (h : 0 ≤ a.num) : F32.toInt a = ⌊a.val⌋ := by
  unfold F32.toInt F32.val
  rw [Rat.floor_intCast_div_natCast]
  exact Int.tdiv_eq_ediv h (Int.natCast_nonneg _)

theorem resizeStep_spec (filter : ImageBuf → Int → Int → Int → Int → Int → F32)
    (imageBuf : ImageBuf) (width height : Int) :
    (resizeStep filter imageBuf width height).spec.width = width ∧
    (resizeStep filter imageBuf width height).spec.height = height := by
  simp [resizeStep, ImageBufAlgo.paste, ImageBufAlgo.zero]

/-- C1: for a source of positive size and a positive target `(tw, th)`, the buffer the
resize step leaves has width `tw` and height `th`, and each of its pixels outside the
pasted rectangle `[xoff, xoff + rw) x [yoff, yoff + rh)`, where `xoff = (tw - rw) / 2`
and `yoff = (th - rh) / 2` by integer division, is zero in every channel. -/
theorem C1_resize_canvas (filter : ImageBuf → Int → Int → Int → Int → Int → F32)
    (imageBuf : ImageBuf) (tw th : Int)
    (hsw : 0 < imageBuf.spec.width) (hsh : 0 < imageBuf.spec.height)
    (htw : 0 < tw) (hth : 0 < th) :
    (resizeStep filter imageBuf tw th).spec.width = tw ∧
    (resizeStep filter imageBuf tw th).spec.height = th ∧
    ∀ x y c : Int,
      ¬ (Int.tdiv (tw - (resizeDims imageBuf.spec.width imageBuf.spec.height tw th).1) 2 ≤ x ∧
         x < Int.tdiv (tw - (resizeDims imageBuf.spec.width imageBuf.spec.height tw th).1) 2
              + (resizeDims imageBuf.spec.width imageBuf.spec.height tw th).1 ∧
         Int.tdiv (th - (resizeDims imageBuf.spec.width imageBuf.spec.height tw th).2) 2 ≤ y ∧
         y < Int.tdiv (th - (resizeDims imageBuf.spec.width imageBuf.spec.height tw th).2) 2
              + (resizeDims imageBuf.spec.width imageBuf.spec.height tw th).2) →
      (resizeStep filter imageBuf tw th).pixel x y c = F32.zero := by
  refine ⟨(resizeStep_spec filter imageBuf tw th).1, (resizeStep_spec filter imageBuf tw th).2, ?_⟩
  intro x y c hout
  simp only [resizeStep, ImageBufAlgo.paste, ImageBufAlgo.zero, ImageBufAlgo.resize]
  rw [if_neg]
  rintro ⟨h1, h2, h3, h4, -, -⟩
  exact hout ⟨h1, h2, h3, h4⟩

theorem C1_resize_canvas_witness :
    (resizeStep (fun src _ _ _ _ c => src.pixel 0 0 c) sampleImage 1920 1080).spec.width = 1920 ∧
    (resizeStep (fun src _ _ _ _ c => src.pixel 0 0 c) sampleImage 1920 1080).spec.height = 1080 ∧
    ∀ x y c : Int,
      ¬ (Int.tdiv (1920 - (resizeDims sampleImage.spec.width sampleImage.spec.height 1920 1080).1) 2 ≤ x ∧
         x < Int.tdiv (1920 - (resizeDims sampleImage.spec.width sampleImage.spec.height 1920 1080).1) 2
              + (resizeDims sampleImage.spec.width sampleImage.spec.height 1920 1080).1 ∧
         Int.tdiv (1080 - (resizeDims sampleImage.spec.width sampleImage.spec.height 1920 1080).2) 2 ≤ y ∧
         y < Int.tdiv (1080 - (resizeDims sampleImage.spec.width sampleImage.spec.height 1920 1080).2) 2
              + (resizeDims sampleImage.spec.width sampleImage.spec.height 1920 1080).2) →
      (resizeStep (fun src _ _ _ _ c => src.pixel 0 0 c) sampleImage 1920 1080).pixel x y c
        = F32.zero :=
  C1_resize_canvas (fun src _ _ _ _ c => src.pixel 0 0 c) sampleImage 1920 1080
    (by decide) (by decide) (by decide) (by decide)

/-- C6, counterexample: for the 4096x2160 source and the 1920x1080 target the resized
region is not 1920x1080 and the vertical paste offset is not 0. -/
theorem C6_region_is_not_full_target :
    resizeDims 4096 2160 1920 1080 ≠ (1920, 1080) ∧
    Int.tdiv (1080 - (resizeDims 4096 2160 1920 1080).2) 2 ≠ 0 := by
  decide

/-- C6, amended: for the 4096x2160 source and the 1920x1080 target the resized region is
1920x1012 (width-constrained: 4096/2160 exceeds 1920/1080), the paste offsets are
`(0, 34)`, the output is 1920x1080, and the rows `y < 34` and `y ≥ 1046` are zero. -/
theorem C6_region_1920x1012 (filter : ImageBuf → Int → Int → Int → Int → Int → F32)
    (pixel : Int → Int → Int → F32) (nchannels : Int) (attrs : List (String × AttrValue)) :
    resizeDims 4096 2160 1920 1080 = (1920, 1012) ∧
    Int.tdiv (1920 - (resizeDims 4096 2160 1920 1080).1) 2 = 0 ∧
    Int.tdiv (1080 - (resizeDims 4096 2160 1920 1080).2) 2 = 34 ∧
    (resizeStep filter ⟨⟨4096, 2160, nchannels, attrs⟩, pixel⟩ 1920 1080).spec.width = 1920 ∧
    (resizeStep filter ⟨⟨4096, 2160, nchannels, attrs⟩, pixel⟩ 1920 1080).spec.height = 1080 ∧
    ∀ x y c : Int, (y < 34 ∨ 1046 ≤ y) →
      (resizeStep filter ⟨⟨4096, 2160, nchannels, attrs⟩, pixel⟩ 1920 1080).pixel x y c
        = F32.zero := by
  have hd : resizeDims 4096 2160 1920 1080 = (1920, 1012) := by decide
  refine ⟨hd, by rw [hd]; decide, by rw [hd]; decide, ?_, ?_, ?_⟩
  · exact (resizeStep_spec _ _ _ _).1
  · exact (resizeStep_spec _ _ _ _).2
  · intro x y c hy
    simp only [resizeStep, ImageBufAlgo.paste, ImageBufAlgo.zero, ImageBufAlgo.resize, hd]
    rw [if_neg]
    rintro ⟨-, -, h3, h4, -, -⟩
    have e : Int.tdiv (1080 - 1012) 2 = 34 := by decide
    rw [e] at h3 h4
    omega

/-! ### The attribute store -/

theorem find_setAttribute_same (l : List (String × AttrValue)) (k : String) (v : AttrValue) :
    (setAttribute l k v).find? (fun p => p.1 = k) = some (k, v) := by
  induction l with
  | nil => simp [setAttribute]
  | cons hd tl ih =>
    obtain ⟨n, w⟩ := hd
    by_cases h : n = k
    · simp [setAttribute, h]
    · simp [setAttribute, h, List.find?_cons, ih]

theorem find_setAttribute_ne (l : List (String × AttrValue)) (k k' : String) (v : AttrValue)
    (h : k' ≠ k) :
    (setAttribute l k' v).find? (fun p => p.1 = k) = l.find? (fun p => p.1 = k) := by
  induction l with
  | nil => simp [setAttribute, h]
  | cons hd tl ih =>
    obtain ⟨n, w⟩ := hd
    by_cases hn : n = k'
    · subst hn
      simp [setAttribute, List.find?_cons, h]
    · by_cases hk : n = k
      · subst hk
        simp [setAttribute, hn, List.find?_cons]
      · simp [setAttribute, hn, List.find?_cons, hk, ih]

theorem ImageSpec.find_attribute_attribute_same (spec : ImageSpec) (k : String) (v : AttrValue) :
    (spec.attribute k v).find_attribute k = some v := by
  simp [ImageSpec.find_attribute, ImageSpec.attribute, find_setAttribute_same]

theorem ImageSpec.find_attribute_attribute_ne (spec : ImageSpec) (k k' : String) (v : AttrValue)
    (h : k' ≠ k) : (spec.attribute k' v).find_attribute k = spec.find_attribute k := by
  simp [ImageSpec.find_attribute, ImageSpec.attribute, find_setAttribute_ne _ _ _ _ h]

/-! ### The array loop -/

theorem intercalate_go_eq (sep : String) (l : List String) (acc : String) :
    String.intercalate.go acc sep l = acc ++ String.join (l.map (fun s => sep ++ s)) := by
  induction l generalizing acc with
  | nil =>
    apply String.ext
    simp [String.intercalate.go]
  | cons a t ih =>
    rw [String.intercalate.go, ih]
    apply String.ext
    simp [List.append_assoc]

/-- Joining with a separator puts one separator in front of every element but the first. -/
theorem intercalate_eq_head_join (sep : String) (l : List String) :
    String.intercalate sep l =
      match l with
      | [] => ""
      | t :: ts => t ++ String.join (ts.map (fun s => sep ++ s)) := by
  cases l with
  | nil => rfl
  | cons a t => simp only [String.intercalate, intercalate_go_eq]

theorem arrayLoop_eq (l : List String) (acc : String) :
    arrayLoop l acc = acc ++ String.intercalate ", " l := by
  induction l generalizing acc with
  | nil =>
    apply String.ext
    simp [arrayLoop, String.intercalate]
  | cons a t ih =>
    cases t with
    | nil =>
      apply String.ext
      simp [arrayLoop, String.intercalate, String.intercalate.go]
    | cons b t =>
      rw [arrayLoop, ih]
      apply String.ext
      simp [intercalate_eq_head_join, List.append_assoc]

theorem arrayLoop_replicate_empty (n : Nat) :
    arrayLoop (List.replicate n "") "" = String.join (List.replicate (n - 1) ", ") := by
  rw [arrayLoop_eq, intercalate_eq_head_join]
  cases n with
  | zero => rfl
  | succ m =>
    apply String.ext
    simp [List.replicate_succ]

/-! ### The merge loop -/

/-- The `switch` stores `Variant.stored` under the current attribute name, or nothing. -/
theorem storeVariant_eq (fmt : F32 → String) (attr : String) (value : Variant) (spec : ImageSpec) :
    storeVariant fmt attr value spec =
      match value.stored fmt with
      | some v => spec.attribute attr v
      | none => spec := by
  cases value with
  | string b =>
    simp only [storeVariant, Variant.stored]
    cases CFStringGetCString b m_buffersize <;> rfl
  | safeArray a =>
    simp only [storeVariant, Variant.stored, arrayLoop_eq, String.empty_append]
    cases a.accessOk <;> cases a.vartypeOk <;> simp
  | _ => rfl

theorem storeVariant_find_ne (fmt : F32 → String) (attr k : String) (value : Variant)
    (spec : ImageSpec) (h : attr ≠ k) :
    (storeVariant fmt attr value spec).find_attribute k = spec.find_attribute k := by
  rw [storeVariant_eq]
  cases value.stored fmt with
  | none => rfl
  | some v => exact ImageSpec.find_attribute_attribute_ne _ _ _ _ h

theorem metaDataLoop_append_failed (fmt : F32 → String) (pre post : List MetadataEntry)
    (e : MetadataEntry) (h : e.data = none) (attr : String) (spec : ImageSpec) :
    metaDataLoop fmt (pre ++ e :: post) attr spec = metaDataLoop fmt pre attr spec := by
  induction pre generalizing attr spec with
  | nil => simp [metaDataLoop, h]
  | cons x xs ih =>
    simp only [List.cons_append, metaDataLoop]
    cases x.data with
    | none => rfl
    | some value => exact ih _ _

theorem metaDataLoop_append_fetched (fmt : F32 → String) (pre : List MetadataEntry)
    (hpre : ∀ x ∈ pre, x.data ≠ none) (attr : String) (spec : ImageSpec) :
    ∃ attr1 spec1, ∀ rest, metaDataLoop fmt (pre ++ rest) attr spec
      = metaDataLoop fmt rest attr1 spec1 := by
  induction pre generalizing attr spec with
  | nil => exact ⟨attr, spec, fun _ => rfl⟩
  | cons x xs ih =>
    have hx : x.data ≠ none := hpre x (List.mem_cons_self _ _)
    have hxs : ∀ y ∈ xs, y.data ≠ none := fun y hy => hpre y (List.mem_cons_of_mem _ hy)
    cases hd : x.data with
    | none => exact absurd hd hx
    | some value =>
      obtain ⟨a1, s1, h1⟩ := ih hxs (nextAttribute x.key attr)
        (storeVariant fmt (nextAttribute x.key attr) value spec)
      refine ⟨a1, s1, fun rest => ?_⟩
      simp only [List.cons_append, metaDataLoop, hd]
      exact h1 rest

theorem nextAttribute_of_decoded (key : CFString) (attr : String) (k : List Char)
    (h : CFStringGetCString key m_buffersize = some k) : nextAttribute key attr = String.mk k := by
  simp [nextAttribute, h]

theorem metaDataLoop_keeps (fmt : F32 → String) (k : List Char) (post : List MetadataEntry)
    (hpost : ∀ x ∈ post, ∃ k1, CFStringGetCString x.key m_buffersize = some k1 ∧ k1 ≠ k)
    (attr : String) (spec : ImageSpec) :
    (metaDataLoop fmt post attr spec).find_attribute (String.mk k)
      = spec.find_attribute (String.mk k) := by
  induction post generalizing attr spec with
  | nil => rfl
  | cons x xs ih =>
    obtain ⟨k1, hk1, hne⟩ := hpost x (List.mem_cons_self _ _)
    have hxs : ∀ y ∈ xs, ∃ k1, CFStringGetCString y.key m_buffersize = some k1 ∧ k1 ≠ k :=
      fun y hy => hpost y (List.mem_cons_of_mem _ hy)
    simp only [metaDataLoop, nextAttribute_of_decoded _ _ _ hk1]
    cases x.data with
    | none => rfl
    | some value =>
      simp only []
      rw [ih hxs]
      apply storeVariant_find_ne
      intro hc
      exact hne (congrArg String.data hc)

/-- C3, counterexample: the clip-level stream holds `iso = 800` (int32), the frame-level
stream holds `iso = 100` as an unsigned byte, a variant type the `switch` has no case
for; after both merges the store still holds the clip-level 800 under `iso`. -/
theorem C3_clip_value_survives :
    (mergeMetaData (fun _ => "") [⟨isoKey, some (.s32 800)⟩] [⟨isoKey, some (.u8 100)⟩]
        ⟨⟨1, 1, 3, []⟩, fun _ _ _ => F32.zero⟩).spec.find_attribute "iso"
      = some (.int 800) := by
  decide

/-- C3, amended: if the frame-level stream holds an entry with key `k` whose value the
`switch` stores as `v` (a supported kind, decodable), no fetch fails before that entry,
and every later frame-level entry has a decodable key other than `k`, then after the
clip-level and then the frame-level merge the store holds `v` under `k`, whatever the
clip-level stream held. -/
theorem C3_frame_value_wins (fmt : F32 → String) (clip pre post : List MetadataEntry)
    (e : MetadataEntry) (value : Variant) (k : List Char) (v : AttrValue) (buf : ImageBuf)
    (hpre : ∀ x ∈ pre, x.data ≠ none)
    (hkey : CFStringGetCString e.key m_buffersize = some k)
    (hdata : e.data = some value)
    (hstored : value.stored fmt = some v)
    (hpost : ∀ x ∈ post, ∃ k1, CFStringGetCString x.key m_buffersize = some k1 ∧ k1 ≠ k) :
    (mergeMetaData fmt clip (pre ++ e :: post) buf).spec.find_attribute (String.mk k)
      = some v := by
  obtain ⟨a1, s1, h1⟩ := metaDataLoop_append_fetched fmt pre hpre ""
    (ProcessMetaData fmt clip buf).spec
  simp only [mergeMetaData, ProcessMetaData] at h1 ⊢
  rw [h1 (e :: post)]
  simp only [metaDataLoop, hdata, nextAttribute_of_decoded _ _ _ hkey]
  rw [metaDataLoop_keeps fmt k post hpost, storeVariant_eq, hstored]
  exact ImageSpec.find_attribute_attribute_same _ _ _

theorem C3_frame_value_wins_witness :
    (mergeMetaData (fun _ => "") [⟨isoKey, some (.s32 800)⟩]
        ([] ++ (⟨isoKey, some (.s32 400)⟩ : MetadataEntry) :: [])
        ⟨⟨1, 1, 3, []⟩, fun _ _ _ => F32.zero⟩).spec.find_attribute (String.mk "iso".toList)
      = some (.int 400) :=
  C3_frame_value_wins (fun _ => "") [⟨isoKey, some (.s32 800)⟩] [] []
    ⟨isoKey, some (.s32 400)⟩ (.s32 400) "iso".toList (.int 400)
    ⟨⟨1, 1, 3, []⟩, fun _ _ _ => F32.zero⟩
    (by simp) (by decide) rfl rfl (by simp)

/-- C8, counterexample: an array entry of two elements whose element type (tag 9) the array
loop has no case for is not skipped: merging it into an empty store adds the attribute
`crop_origin` with the value `", "`. -/
theorem C8_array_of_unsupported_is_written :
    (ProcessMetaData (fun _ => "")
        [⟨⟨"crop_origin".toList, true⟩, some (.safeArray ⟨true, true, 0, .other 9 2⟩)⟩]
        ⟨⟨1, 1, 3, []⟩, fun _ _ _ => F32.zero⟩).spec.extra_attribs
      = [("crop_origin", .string ", ")] := by
  decide

/-- C8, amended: an entry whose variant type is not one of int16, uint16, int32, uint32,
float32, string, array leaves the attribute store unchanged (alone, or in front of the
entries `rest`). An accessible array entry whose element type is not supported is not
skipped: it sets the attribute under the current name to the `n - 1` separators of its
`n` elements, with no element text. -/
theorem C8_unsupported_entries (fmt : F32 → String) (e : MetadataEntry)
    (rest : List MetadataEntry) (attr : String) (spec : ImageSpec) :
    (∀ value, e.data = some value → value.vt.supported = false →
      metaDataLoop fmt [e] attr spec = spec ∧
      metaDataLoop fmt (e :: rest) attr spec
        = metaDataLoop fmt rest (nextAttribute e.key attr) spec) ∧
    (∀ a : SafeArray, e.data = some (.safeArray a) →
      a.data.vartype.supportedElement = false → a.accessOk = true → a.vartypeOk = true →
      metaDataLoop fmt (e :: rest) attr spec
        = metaDataLoop fmt rest (nextAttribute e.key attr)
            (spec.attribute (nextAttribute e.key attr)
              (.string (String.join (List.replicate (a.data.length - 1) ", "))))) := by
  constructor
  · intro value hdata hvt
    have hs : ∀ a s, storeVariant fmt a value s = s := by
      intro a s
      cases value <;> first | rfl | (simp [Variant.vt, VariantType.supported] at hvt)
    constructor <;> simp only [metaDataLoop, hdata, hs]
  · intro a hdata hel hacc hvt
    simp only [metaDataLoop, hdata, storeVariant, hacc, hvt]
    have ht : a.data.texts fmt = List.replicate a.data.length "" := by
      cases hd : a.data <;>
        first
          | rfl
          | (rw [hd] at hel; simp [SafeArrayData.vartype, VariantType.supportedElement] at hel)
    rw [ht, arrayLoop_replicate_empty]
    simp

theorem C8_unsupported_entries_witness :
    (metaDataLoop (fun _ => "") [⟨isoKey, some (.u8 100)⟩] "" ⟨1, 1, 3, []⟩ = ⟨1, 1, 3, []⟩ ∧
      metaDataLoop (fun _ => "") (⟨isoKey, some (.u8 100)⟩ :: []) "" ⟨1, 1, 3, []⟩
        = metaDataLoop (fun _ => "") [] (nextAttribute isoKey "") ⟨1, 1, 3, []⟩) ∧
    metaDataLoop (fun _ => "")
        (⟨isoKey, some (.safeArray ⟨true, true, 0, .other 9 2⟩)⟩ :: []) "" ⟨1, 1, 3, []⟩
      = metaDataLoop (fun _ => "") [] (nextAttribute isoKey "")
          (ImageSpec.attribute ⟨1, 1, 3, []⟩ (nextAttribute isoKey "")
            (.string (String.join (List.replicate ((SafeArrayData.other 9 2).length - 1) ", ")))) :=
  ⟨(C8_unsupported_entries (fun _ => "") ⟨isoKey, some (.u8 100)⟩ [] "" ⟨1, 1, 3, []⟩).1
      (.u8 100) rfl rfl,
   (C8_unsupported_entries (fun _ => "")
      ⟨isoKey, some (.safeArray ⟨true, true, 0, .other 9 2⟩)⟩ [] "" ⟨1, 1, 3, []⟩).2
      ⟨true, true, 0, .other 9 2⟩ rfl rfl rfl rfl⟩

/-- C10: if `GetData` fails on the entry after `pre`, the loop stops there and the store is
the one obtained by merging `pre` alone, none of the entries from the failing one on
being merged; `ProcessMetaData` returns normally, and the frame-level merge that
follows a failed clip-level merge still runs. -/
theorem C10_fetch_failure_keeps_prefix (fmt : F32 → String) (pre post : List MetadataEntry)
    (e : MetadataEntry) (frame : List MetadataEntry) (buf : ImageBuf) (h : e.data = none) :
    (ProcessMetaData fmt (pre ++ e :: post) buf).spec = (ProcessMetaData fmt pre buf).spec ∧
    (ProcessMetaData fmt (pre ++ e :: post) buf).pixel = buf.pixel ∧
    mergeMetaData fmt (pre ++ e :: post) frame buf
      = ProcessMetaData fmt frame (ProcessMetaData fmt pre buf) := by
  have h1 : ProcessMetaData fmt (pre ++ e :: post) buf = ProcessMetaData fmt pre buf := by
    simp only [ProcessMetaData, metaDataLoop_append_failed fmt pre post e h]
  refine ⟨by rw [h1], rfl, ?_⟩
  simp only [mergeMetaData, h1]

theorem C10_fetch_failure_keeps_prefix_witness :
    (ProcessMetaData (fun _ => "")
        ([⟨isoKey, some (.s32 800)⟩] ++ (⟨isoKey, none⟩ : MetadataEntry) :: [sampleArrayEntry])
        sampleImage).spec
      = (ProcessMetaData (fun _ => "") [⟨isoKey, some (.s32 800)⟩] sampleImage).spec ∧
    (ProcessMetaData (fun _ => "")
        ([⟨isoKey, some (.s32 800)⟩] ++ (⟨isoKey, none⟩ : MetadataEntry) :: [sampleArrayEntry])
        sampleImage).pixel = sampleImage.pixel ∧
    mergeMetaData (fun _ => "")
        ([⟨isoKey, some (.s32 800)⟩] ++ (⟨isoKey, none⟩ : MetadataEntry) :: [sampleArrayEntry])
        [sampleArrayEntry] sampleImage
      = ProcessMetaData (fun _ => "") [sampleArrayEntry]
          (ProcessMetaData (fun _ => "") [⟨isoKey, some (.s32 800)⟩] sampleImage) :=
  C10_fetch_failure_keeps_prefix (fun _ => "") [⟨isoKey, some (.s32 800)⟩] [sampleArrayEntry]
    ⟨isoKey, none⟩ [sampleArrayEntry] sampleImage rfl

/-! ### String search -/

theorem findAux_isSome_of_occurs (needle s t : List Char) (i : Nat) :
    (findAux needle (s ++ needle ++ t) i).isSome = true := by
  induction s generalizing i with
  | nil =>
    simp only [List.nil_append]
    cases h : needle ++ t with
    | nil =>
      have hn : needle = [] := (List.append_eq_nil.mp h).1
      simp [findAux, hn]
    | cons c cs =>
      have hp : needle.isPrefixOf (c :: cs) = true := by
        rw [List.isPrefixOf_iff_prefix, ← h]
        exact List.prefix_append _ _
      simp [findAux, hp]
  | cons c s ih =>
    simp only [List.cons_append, findAux]
    split
    · rfl
    · exact ih (i + 1)

theorem occurs_of_findAux (needle hay : List Char) (i j : Nat)
    (h : findAux needle hay i = some j) : Occurs needle hay := by
  induction hay generalizing i with
  | nil =>
    simp only [findAux] at h
    split at h
    · rename_i hn
      exact ⟨[], [], by simp [hn]⟩
    · exact absurd h (by simp)
  | cons c cs ih =>
    simp only [findAux] at h
    split at h
    · rename_i hp
      rw [List.isPrefixOf_iff_prefix] at hp
      obtain ⟨t, ht⟩ := hp
      exact ⟨[], t, by simp [ht]⟩
    · obtain ⟨s, t, hst⟩ := ih (i + 1) h
      exact ⟨c :: s, t, by simp [hst]⟩

/-- The call `hay.find(needle)` succeeds exactly when `needle` occurs in `hay`. -/
theorem find_isSome_iff (hay needle : List Char) :
    (find hay needle 0).isSome = true ↔ Occurs needle hay := by
  simp only [find, Nat.not_lt_zero, if_false, List.drop_zero]
  constructor
  · intro h
    cases hf : findAux needle hay 0 with
    | none => rw [hf] at h; exact absurd h (by simp)
    | some j => exact occurs_of_findAux _ _ _ _ hf
  · rintro ⟨s, t, rfl⟩
    exact findAux_isSome_of_occurs _ _ _ _

theorem findAux_char (c : Char) (a b : List Char) (i : Nat) (h : c ∉ a) :
    findAux [c] (a ++ c :: b) i = some (i + a.length) := by
  induction a generalizing i with
  | nil => simp [findAux, List.isPrefixOf]
  | cons d a ih =>
    have hd : c ≠ d := fun e => h (e ▸ List.mem_cons_self _ _)
    have ha : c ∉ a := fun e => h (List.mem_cons_of_mem _ e)
    have hp : List.isPrefixOf [c] (d :: (a ++ c :: b)) = false := by
      simp [List.isPrefixOf, hd]
    rw [List.cons_append, findAux, hp, if_neg (by simp), ih (i + 1) ha]
    simp only [List.length_cons]
    congr 1
    omega

theorem findAux_char_none (c : Char) (l : List Char) (i : Nat) (h : c ∉ l) :
    findAux [c] l i = none := by
  induction l generalizing i with
  | nil => simp [findAux]
  | cons d l ih =>
    have hd : c ≠ d := fun e => h (e ▸ List.mem_cons_self _ _)
    have hl : c ∉ l := fun e => h (List.mem_cons_of_mem _ e)
    have hp : List.isPrefixOf [c] (d :: l) = false := by
      simp [List.isPrefixOf, hd]
    rw [findAux, hp, if_neg (by simp)]
    exact ih (i + 1) hl

/-- The first `c` at or after the end of `a`, when `c` is not in `m`. -/
theorem find_char_from (c : Char) (a m b : List Char) (h : c ∉ m) :
    find (a ++ m ++ c :: b) [c] a.length = some (a.length + m.length) := by
  have hlen : ¬ (a ++ m ++ c :: b).length < a.length := by
    simp only [List.length_append]
    omega
  rw [find, if_neg hlen, List.append_assoc, List.drop_left]
  exact findAux_char c m b a.length h

theorem find_char_none (c : Char) (l : List Char) (h : c ∉ l) : find l [c] 0 = none := by
  simp only [find, Nat.not_lt_zero, if_false, List.drop_zero]
  exact findAux_char_none c l 0 h

theorem rfindAux_not_mem (c : Char) (l : List Char) (i : Nat) (last : Option Nat) (h : c ∉ l) :
    rfindAux c l i last = last := by
  induction l generalizing i last with
  | nil => rfl
  | cons d l ih =>
    have hd : d ≠ c := fun e => h (e ▸ List.mem_cons_self _ _)
    have hl : c ∉ l := fun e => h (List.mem_cons_of_mem _ e)
    simp only [rfindAux, hd, if_false]
    exact ih _ _ hl

theorem rfindAux_last (c : Char) (a b : List Char) (i : Nat) (last : Option Nat) (h : c ∉ b) :
    rfindAux c (a ++ c :: b) i last = some (i + a.length) := by
  induction a generalizing i last with
  | nil => simp [rfindAux, rfindAux_not_mem c b _ _ h]
  | cons d a ih =>
    rw [List.cons_append, rfindAux, ih]
    simp only [List.length_cons]
    congr 1
    omega

/-- The call `rfind` yields the position of the last `c`. -/
theorem rfind_last (c : Char) (a b : List Char) (h : c ∉ b) :
    rfind (a ++ c :: b) c = some a.length := by
  simp [rfind, rfindAux_last c a b 0 none h]

theorem rfind_none (c : Char) (l : List Char) (h : c ∉ l) : rfind l c = none :=
  rfindAux_not_mem c l 0 none h

/-! ### Whitespace normalisation -/

theorem isSpace_of_isLineSeparator (c : Char) (h : isLineSeparator c = true) :
    isSpace c = true := by
  simp only [isLineSeparator, Bool.or_eq_true, decide_eq_true_eq] at h
  simp only [isSpace, Bool.or_eq_true, decide_eq_true_eq]
  rcases h with (h | h) | h
  · exact Or.inl (Or.inl (Or.inl (Or.inr h)))
  · exact Or.inr h
  · exact Or.inl (Or.inr h)

theorem atLineStart_of_not_space (t c : Char) (h : ¬ isSpace t = true) :
    atLineStart (some t) c = false := by
  have hs : isLineSeparator t = false := by
    cases hl : isLineSeparator t with
    | false => rfl
    | true => exact absurd (isSpace_of_isLineSeparator t hl) h
  simp [atLineStart, hs]

/-- After the runs are collapsed no two neighbours are both whitespace; with whitespace
pending, the output starts with a whitespace character. -/
theorem collapseAux_shape (l : List Char) (p : Pending)
    (hp : ∀ d, p = .one d → isSpace d = true) :
    List.Chain' (fun a b => ¬ (isSpace a = true ∧ isSpace b = true)) (collapseAux p l) ∧
    (p ≠ .nothing → ∃ w rest, collapseAux p l = w :: rest ∧ isSpace w = true) := by
  induction l generalizing p with
  | nil =>
    cases p with
    | nothing => exact ⟨by simp [collapseAux, Pending.flush], fun h => absurd rfl h⟩
    | one c =>
      exact ⟨by simp [collapseAux, Pending.flush], fun _ => ⟨c, [], rfl, hp c rfl⟩⟩
    | many => exact ⟨by simp [collapseAux, Pending.flush], fun _ => ⟨' ', [], rfl, by decide⟩⟩
  | cons c cs ih =>
    by_cases hc : isSpace c = true
    · have h1 : ∀ d, Pending.one c = .one d → isSpace d = true := by
        intro d hd
        injection hd with hd
        exact hd ▸ hc
      have hm : ∀ d, Pending.many = .one d → isSpace d = true := by
        intro d hd
        exact absurd hd (by simp)
      simp only [collapseAux, hc, if_true]
      cases p with
      | nothing => exact ⟨(ih (.one c) h1).1, fun h => absurd rfl h⟩
      | one d => exact ⟨(ih .many hm).1, fun _ => (ih .many hm).2 (by simp)⟩
      | many => exact ⟨(ih .many hm).1, fun _ => (ih .many hm).2 (by simp)⟩
    · have hX := (ih .nothing (fun d hd => absurd hd (by simp))).1
      have hcX : List.Chain' (fun a b => ¬ (isSpace a = true ∧ isSpace b = true))
          (c :: collapseAux .nothing cs) := by
        cases hx : collapseAux .nothing cs with
        | nil => simp
        | cons x xs =>
          rw [hx] at hX
          exact List.Chain'.cons (fun h => hc h.1) hX
      simp only [collapseAux, hc, if_false]
      cases p with
      | nothing => exact ⟨hcX, fun h => absurd rfl h⟩
      | one d =>
        exact ⟨List.Chain'.cons (fun h => hc h.2) hcX, fun _ => ⟨d, _, rfl, hp d rfl⟩⟩
      | many =>
        exact ⟨List.Chain'.cons (fun h => hc h.2) hcX, fun _ => ⟨' ', _, rfl, by decide⟩⟩

theorem stripAux_id (l : List Char) (prev : Option Char)
    (hl : List.Chain' (fun a b => ¬ (isSpace a = true ∧ isSpace b = true)) l)
    (hh : ∀ c ∈ l.head?, isSpace c = true → atLineStart prev c = false) :
    stripAux prev false l = l := by
  induction l generalizing prev with
  | nil => rfl
  | cons c cs ih =>
    have hcond : (isSpace c && (false || atLineStart prev c)) = false := by
      cases hs : isSpace c with
      | false => rfl
      | true => simp [hh c (by simp) hs]
    rw [stripAux, hcond, if_neg (by simp)]
    congr 1
    apply ih
    · exact hl.tail
    · intro d hd hsd
      cases cs with
      | nil => simp at hd
      | cons x xs =>
        simp only [List.head?_cons, Option.mem_def, Option.some.injEq] at hd
        subst hd
        have hr := hl.rel_head
        exact atLineStart_of_not_space c x (fun hsc => hr ⟨hsc, hsd⟩)

theorem stripAux_eq_dropWhile (l : List Char)
    (hl : List.Chain' (fun a b => ¬ (isSpace a = true ∧ isSpace b = true)) l) :
    stripAux none false l = l.dropWhile isSpace := by
  have tailId : ∀ (d : Char) (ds : List Char), ¬ isSpace d = true →
      List.Chain' (fun a b => ¬ (isSpace a = true ∧ isSpace b = true)) (d :: ds) →
      stripAux (some d) false ds = ds := by
    intro d ds hd hch
    apply stripAux_id _ _ hch.tail
    intro e _ _
    exact atLineStart_of_not_space d e hd
  cases l with
  | nil => rfl
  | cons c cs =>
    by_cases hc : isSpace c = true
    · rw [stripAux, List.dropWhile_cons_of_pos hc]
      simp only [hc, atLineStart, Bool.or_true, Bool.and_self, if_true]
      cases cs with
      | nil => rfl
      | cons d ds =>
        have hd : ¬ isSpace d = true := fun hsd => hl.rel_head ⟨hc, hsd⟩
        rw [stripAux, List.dropWhile_cons_of_neg hd]
        simp only [hd, Bool.false_and, Bool.false_eq_true, if_false]
        rw [tailId d ds hd hl.tail]
    · rw [stripAux, List.dropWhile_cons_of_neg hc]
      simp only [hc, Bool.false_and, Bool.false_eq_true, if_false]
      rw [tailId c cs hc hl]

/-- The two regular expression replacements of the source do what the specification says:
collapse the runs, then drop the leading whitespace. -/
theorem normalize_eq_norm (value : List Char) : normalize value = norm value := by
  unfold normalize norm replaceLeadingspaces
  apply stripAux_eq_dropWhile
  exact (collapseAux_shape value .nothing (fun d hd => absurd hd (by simp))).1

/-! ### The scan loop -/

/-- Lines read before the data field opens change neither `data` nor `datarun`. -/
theorem scanLoop_before (before rest : List (List Char)) (st : SidecarScan)
    (hst : st.datarun = false)
    (hbefore : ∀ l ∈ before, Occurs nameLabel l ∨ Occurs titleLabel l ∨ ¬ Occurs dataLabel l) :
    ∃ st1, scanLoop (before ++ rest) st = scanLoop rest st1 ∧ st1.data = st.data ∧
      st1.datarun = false := by
  induction before generalizing st with
  | nil => exact ⟨st, rfl, rfl, hst⟩
  | cons l ls ih =>
    have hls : ∀ x ∈ ls, Occurs nameLabel x ∨ Occurs titleLabel x ∨ ¬ Occurs dataLabel x :=
      fun x hx => hbefore x (List.mem_cons_of_mem _ hx)
    have hl := hbefore l (List.mem_cons_self _ _)
    rw [List.cons_append, scanLoop, if_neg (by simp [hst])]
    by_cases hn : (find l nameLabel 0).isSome = true
    · rw [if_pos hn]
      cases searchField "post_3dlut_sidecar_name".toList l with
      | none => exact ih st hst hls
      | some v =>
        obtain ⟨st1, h1, h2, h3⟩ := ih { st with name := v } hst hls
        exact ⟨st1, h1, h2, h3⟩
    · rw [if_neg hn]
      by_cases ht : (find l titleLabel 0).isSome = true
      · rw [if_pos ht]
        cases searchField "post_3dlut_sidecar_title".toList l with
        | none => exact ih st hst hls
        | some v =>
          obtain ⟨st1, h1, h2, h3⟩ := ih { st with title := v } hst hls
          exact ⟨st1, h1, h2, h3⟩
      · rw [if_neg ht]
        have hd : ¬ (find l dataLabel 0).isSome = true := by
          rw [find_isSome_iff]
          rcases hl with h | h | h
          · exact absurd ((find_isSome_iff _ _).mpr h) hn
          · exact absurd ((find_isSome_iff _ _).mpr h) ht
          · exact h
        rw [if_neg hd]
        exact ih st hst hls

theorem openDataRun_of_positions (line c0 : List Char) (st : SidecarScan) (P Q : Nat)
    (hcolon : find line [':'] 0 = some P) (hquote : find line ['"'] P = some Q)
    (hdrop : line.drop (Q + 1) = c0) (hlength : line.length = Q + 1 + c0.length)
    (hc0 : '"' ∉ c0) :
    openDataRun line st =
      { st with datarun := true,
                data := st.data ++ normalize c0 ++
                  (if (normalize c0).isEmpty then [] else ['\n']) } := by
  unfold openDataRun
  rw [hcolon]
  simp only [Option.some_bind]
  rw [hquote]
  simp only [hdrop, hlength]
  cases c0 with
  | nil =>
    have hn : normalize [] = [] := by decide
    simp [hn]
  | cons x xs =>
    have hlt : Q + 1 < Q + 1 + (x :: xs).length := by
      simp only [List.length_cons]
      omega
    rw [if_pos hlt]
    simp only [find_char_none '"' (x :: xs) hc0]

/-- The line on which the data field opens: the chunk after the opening quote is
normalised and appended, with a newline unless it is empty. -/
theorem openDataRun_eq (pre mid c0 : List Char) (st : SidecarScan)
    (hpre : ':' ∉ pre) (hmid : '"' ∉ mid) (hc0 : '"' ∉ c0) :
    openDataRun (pre ++ dataLabel ++ mid ++ '"' :: c0) st =
      { st with datarun := true,
                data := st.data ++ normalize c0 ++
                  (if (normalize c0).isEmpty then [] else ['\n']) } := by
  have hbody : dataLabel = "\"post_3dlut_sidecar_data\"".toList ++ [':'] := by decide
  generalize hB : "\"post_3dlut_sidecar_data\"".toList = body at hbody
  have hcb : ':' ∉ body := by rw [← hB]; decide
  have hnc : ':' ∉ pre ++ body := by
    intro h
    rcases List.mem_append.mp h with h | h
    · exact hpre h
    · exact hcb h
  have hshape : pre ++ dataLabel ++ mid ++ '"' :: c0
      = ([] ++ (pre ++ body)) ++ ':' :: (mid ++ '"' :: c0) := by
    rw [hbody]; simp [List.append_assoc]
  have hshape2 : pre ++ dataLabel ++ mid ++ '"' :: c0
      = ((pre ++ body) ++ (':' :: mid)) ++ '"' :: c0 := by
    rw [hbody]; simp [List.append_assoc]
  have hshape3 : pre ++ dataLabel ++ mid ++ '"' :: c0
      = ((pre ++ body) ++ (':' :: mid) ++ ['"']) ++ c0 := by
    rw [hbody]; simp [List.append_assoc]
  have hq : '"' ∉ ':' :: mid := by
    intro h
    rcases List.mem_cons.mp h with h | h
    · revert h; decide
    · exact hmid h
  apply openDataRun_of_positions _ c0 st (pre ++ body).length
    ((pre ++ body).length + (':' :: mid).length)
  · have := find_char_from ':' [] (pre ++ body) (mid ++ '"' :: c0) hnc
    rw [← hshape] at this
    simpa using this
  · have := find_char_from '"' (pre ++ body) (':' :: mid) c0 hq
    rw [← hshape2] at this
    exact this
  · have hlen : (pre ++ body).length + (':' :: mid).length + 1
        = ((pre ++ body) ++ (':' :: mid) ++ ['"']).length := by
      simp only [List.length_append, List.length_cons, List.length_nil]
    rw [hlen, hshape3, List.drop_left]
  · rw [hshape3]
    simp only [List.length_append, List.length_cons, List.length_nil]
  · exact hc0

/-- Lines of the data run without a quote are normalised and appended, each with a
newline. -/
theorem scanLoop_dataLines (ls rest : List (List Char)) (st : SidecarScan)
    (hst : st.datarun = true) (hls : ∀ l ∈ ls, '"' ∉ l) :
    scanLoop (ls ++ rest) st =
      scanLoop rest
        { st with data := st.data ++ (ls.map (fun l => normalize l ++ ['\n'])).flatten } := by
  induction ls generalizing st with
  | nil => simp
  | cons l ls ih =>
    have hl : '"' ∉ l := hls l (List.mem_cons_self _ _)
    have hrest : ∀ x ∈ ls, '"' ∉ x := fun x hx => hls x (List.mem_cons_of_mem _ hx)
    rw [List.cons_append, scanLoop, if_pos hst, rfind_none '"' l hl]
    have h1 := ih { st with data := st.data ++ normalize l ++ ['\n'] } hst hrest
    simp only [] at h1 ⊢
    rw [h1]
    simp [List.append_assoc]

/-- The first line of the data run that holds a quote ends the scan: the text before its
last quote is normalised and appended, and no later line is read. -/
theorem scanLoop_closing (a b : List Char) (after : List (List Char)) (st : SidecarScan)
    (hst : st.datarun = true) (hb : '"' ∉ b) :
    scanLoop ((a ++ '"' :: b) :: after) st = { st with data := st.data ++ normalize a } := by
  rw [scanLoop, if_pos hst, rfind_last '"' a b hb]
  simp only [List.take_left]

/-! ### Labels on the opening line -/

theorem count_le_of_occurs (c : Char) (needle hay : List Char) (h : Occurs needle hay) :
    needle.count c ≤ hay.count c := by
  obtain ⟨s, t, rfl⟩ := h
  simp only [List.count_append]
  omega

/-- A text that is followed by a colon either ends at the first colon of the line or
reaches beyond it. -/
theorem split_at_first_colon (x z s r : List Char) (hx : ':' ∉ x)
    (h : x ++ ':' :: z = s ++ ':' :: r) :
    (s = x ∧ r = z) ∨ ∃ s2, s = x ++ ':' :: s2 ∧ z = s2 ++ ':' :: r := by
  rcases List.append_eq_append_iff.mp h with ⟨a, hs, hz⟩ | ⟨c, hxs, hr⟩
  · cases a with
    | nil =>
      left
      simp only [List.nil_append, List.cons.injEq, true_and] at hz
      exact ⟨by simpa using hs, hz.symm⟩
    | cons d a =>
      right
      simp only [List.cons_append, List.cons.injEq] at hz
      obtain ⟨hd, hz⟩ := hz
      subst hd
      exact ⟨a, hs, hz⟩
  · cases c with
    | nil =>
      left
      simp only [List.nil_append, List.cons.injEq, true_and] at hr
      exact ⟨by simpa using hxs.symm, hr⟩
    | cons d c =>
      exfalso
      simp only [List.cons_append, List.cons.injEq] at hr
      apply hx
      rw [hxs, ← hr.1]
      simp

/-- On a line `pre "post_3dlut_sidecar_data": mid " c0` without a colon in `pre` and without
a quote in `mid` and `c0`, no other label `qw :` occurs, `qw` being a quoted word. -/
theorem no_other_label (qw pre mid c0 : List Char)
    (hqw : ':' ∉ qw) (hcount : qw.count '"' = 2)
    (h1 : ¬ "\"post_3dlut_sidecar_data\"".toList <:+ qw)
    (h2 : ¬ qw <:+ "\"post_3dlut_sidecar_data\"".toList)
    (hpre : ':' ∉ pre) (hmid : '"' ∉ mid) (hc0 : '"' ∉ c0) :
    ¬ Occurs (qw ++ [':']) (pre ++ dataLabel ++ mid ++ '"' :: c0) := by
  have hbody : dataLabel = "\"post_3dlut_sidecar_data\"".toList ++ [':'] := by decide
  generalize hB : "\"post_3dlut_sidecar_data\"".toList = qd at hbody h1 h2
  have hqd : ':' ∉ qd := by rw [← hB]; decide
  rintro ⟨s, t, hst⟩
  have hline : (pre ++ qd) ++ ':' :: (mid ++ '"' :: c0) = (s ++ qw) ++ ':' :: t := by
    rw [hbody] at hst
    simpa [List.append_assoc] using hst
  have hx : ':' ∉ pre ++ qd := List.not_mem_append hpre hqd
  rcases split_at_first_colon _ _ _ _ hx hline with ⟨hs, -⟩ | ⟨s2, hs, hz⟩
  · rcases List.append_eq_append_iff.mp hs with ⟨a, hp, hq⟩ | ⟨c, hsp, hq⟩
    · exact h1 ⟨a, hq.symm⟩
    · exact h2 ⟨c, hq.symm⟩
  · -- the label would lie after the first colon, where there is a single quote
    have hocc : Occurs qw (mid ++ '"' :: c0) := by
      rcases List.append_eq_append_iff.mp hs with ⟨a, hp, hq⟩ | ⟨c, hsp, hq⟩
      · -- `pre ++ qd = s ++ a`, `qw = a ++ ':' :: s2`: a colon in `qw`
        exfalso
        apply hqw
        rw [hq]
        simp
      · -- `s = (pre ++ qd) ++ c`, `':' :: s2 = c ++ qw`
        cases c with
        | nil =>
          exfalso
          simp only [List.nil_append] at hq
          apply hqw
          rw [← hq]
          simp
        | cons d c =>
          simp only [List.cons_append, List.cons.injEq] at hq
          refine ⟨c, ':' :: t, ?_⟩
          rw [hz, hq.2]
    have hle := count_le_of_occurs '"' _ _ hocc
    rw [hcount, List.count_append, List.count_cons_self,
      List.count_eq_zero_of_not_mem hmid, List.count_eq_zero_of_not_mem hc0] at hle
    omega

theorem no_nameLabel (pre mid c0 : List Char) (hpre : ':' ∉ pre) (hmid : '"' ∉ mid)
    (hc0 : '"' ∉ c0) : ¬ Occurs nameLabel (pre ++ dataLabel ++ mid ++ '"' :: c0) := by
  have h : nameLabel = "\"post_3dlut_sidecar_name\"".toList ++ [':'] := by decide
  rw [h]
  exact no_other_label _ pre mid c0 (by decide) (by decide) (by decide) (by decide)
    hpre hmid hc0

theorem no_titleLabel (pre mid c0 : List Char) (hpre : ':' ∉ pre) (hmid : '"' ∉ mid)
    (hc0 : '"' ∉ c0) : ¬ Occurs titleLabel (pre ++ dataLabel ++ mid ++ '"' :: c0) := by
  have h : titleLabel = "\"post_3dlut_sidecar_title\"".toList ++ [':'] := by decide
  rw [h]
  exact no_other_label _ pre mid c0 (by decide) (by decide) (by decide) (by decide)
    hpre hmid hc0

/-- C4: when the data field opens on a line `pre "post_3dlut_sidecar_data": mid " c0` (no
colon in front of the label, `"` the first quote after the label, no quote in `c0`), is
followed by the lines `ls` without a quote and then by the closing line `a " b` with
that single quote, the data recovered is `norm c0` and a newline (nothing when `norm c0`
is empty), then `norm l` and a newline for every `l` of `ls`, then `norm a` without a
newline; the lines `after` add nothing. Here `norm` collapses every run of two or more
whitespace characters to one space and then drops the leading whitespace; the lines
`before` are those read ahead of the data field (name, title and unlabelled lines). -/
theorem C4_data_block (before ls after : List (List Char)) (pre mid c0 a b : List Char)
    (hbefore : ∀ l ∈ before, Occurs nameLabel l ∨ Occurs titleLabel l ∨ ¬ Occurs dataLabel l)
    (hpre : ':' ∉ pre) (hmid : '"' ∉ mid) (hc0 : '"' ∉ c0)
    (hls : ∀ l ∈ ls, '"' ∉ l) (ha : '"' ∉ a) (hb : '"' ∉ b) :
    (scanSidecar (before ++ (pre ++ dataLabel ++ mid ++ '"' :: c0)
        :: (ls ++ (a ++ '"' :: b) :: after))).data
      = (if norm c0 = [] then [] else norm c0 ++ ['\n'])
          ++ (ls.map (fun l => norm l ++ ['\n'])).flatten ++ norm a := by
  obtain ⟨st1, h1, hdata, hrun⟩ := scanLoop_before before
    ((pre ++ dataLabel ++ mid ++ '"' :: c0) :: (ls ++ (a ++ '"' :: b) :: after))
    ⟨[], [], [], false⟩ rfl hbefore
  have hn : ¬ (find (pre ++ dataLabel ++ mid ++ '"' :: c0) nameLabel 0).isSome = true := by
    rw [find_isSome_iff]; exact no_nameLabel pre mid c0 hpre hmid hc0
  have ht : ¬ (find (pre ++ dataLabel ++ mid ++ '"' :: c0) titleLabel 0).isSome = true := by
    rw [find_isSome_iff]; exact no_titleLabel pre mid c0 hpre hmid hc0
  have hd : (find (pre ++ dataLabel ++ mid ++ '"' :: c0) dataLabel 0).isSome = true := by
    rw [find_isSome_iff]
    exact ⟨pre, mid ++ '"' :: c0, by simp [List.append_assoc]⟩
  rw [scanSidecar, h1, scanLoop, if_neg (by simp [hrun]), if_neg hn, if_neg ht, if_pos hd,
    openDataRun_eq pre mid c0 st1 hpre hmid hc0, scanLoop_dataLines ls _ _ rfl hls,
    scanLoop_closing a b after _ rfl hb]
  simp only [hdata, List.nil_append, normalize_eq_norm, List.isEmpty_iff]
  by_cases he : norm c0 = []
  · simp [he]
  · simp [he, List.append_assoc]

theorem C4_data_block_witness :
    (scanSidecar (["\x7b".toList, "  \"post_3dlut_sidecar_name\": \"Test.cube\",".toList,
          "  \"post_3dlut_sidecar_title\": \"Test\",".toList]
        ++ ("  ".toList ++ dataLabel ++ " ".toList ++ '"' :: "1.0  0.0 0.0".toList)
          :: ([] ++ ("    0.0 1.0  0.0".toList ++ '"' :: []) :: ["\x7d".toList]))).data
      = (if norm "1.0  0.0 0.0".toList = [] then [] else norm "1.0  0.0 0.0".toList ++ ['\n'])
          ++ (([] : List (List Char)).map (fun l => norm l ++ ['\n'])).flatten
          ++ norm "    0.0 1.0  0.0".toList :=
  C4_data_block ["\x7b".toList, "  \"post_3dlut_sidecar_name\": \"Test.cube\",".toList,
      "  \"post_3dlut_sidecar_title\": \"Test\",".toList] [] ["\x7d".toList]
    "  ".toList " ".toList "1.0  0.0 0.0".toList "    0.0 1.0  0.0".toList []
    (by
      intro l hl
      simp only [List.mem_cons, List.mem_singleton, List.not_mem_nil, or_false] at hl
      rcases hl with rfl | rfl | rfl
      · exact Or.inr (Or.inr (fun h => absurd ((find_isSome_iff _ _).mpr h) (by decide)))
      · exact Or.inl ((find_isSome_iff _ _).mp (by decide))
      · exact Or.inr (Or.inl ((find_isSome_iff _ _).mp (by decide))))
    (by decide) (by decide) (by decide) (by simp) (by decide) (by decide)

/-- The two-line block of the specification's scenario: rows `1.0 0.0 0.0` and
`0.0 1.0 0.0`, written with a doubled space and an indented second row, are recovered
as the two rows separated by one newline. -/
theorem scanSidecar_sample :
    (scanSidecar sampleSidecar).data = "1.0 0.0 0.0\n0.0 1.0 0.0".toList ∧
    (scanSidecar sampleSidecar).name = "Test.cube".toList ∧
    (scanSidecar sampleSidecar).title = "Test".toList := by
  decide

/-- C7, on the failing input: a sidecar whose data field closes on its opening line, followed
by the title field. The scan stays in the data run, swallows the title line up to its
last quote into the data, and never sets the title. -/
theorem C7_data_runs_past_closing_quote :
    (scanSidecar ["\"post_3dlut_sidecar_data\": \"1 2 3\",".toList,
        "\"post_3dlut_sidecar_title\": \"T\"".toList]).data
      = "1 2 3\n\"post_3dlut_sidecar_title\": \"T".toList ∧
    (scanSidecar ["\"post_3dlut_sidecar_data\": \"1 2 3\",".toList,
        "\"post_3dlut_sidecar_title\": \"T\"".toList]).title = [] ∧
    (scanSidecar ["\"post_3dlut_sidecar_data\": \"1 2 3".toList,
        "4 5 6\", \"x\": \"y\"".toList]).data
      = "1 2 3\n4 5 6\", \"x\": \"y".toList := by
  decide

/-! ### The guarded write -/

theorem FileSystem.exists_write (fs : FileSystem) (path text : List Char) :
    (fs.write path text).exists_ path = true := by
  simp [FileSystem.exists_, FileSystem.write]

/-- C5: if a file exists at the derived LUT path (the parent directory of the clip, then
`/3DLut/`, then the extracted name) the block writes nothing and leaves the file system
as it is, whatever the sidecar holds; and a second run on the outcome of a first run
(same sidecar, same clip path) writes nothing and leaves every file as the first run
left it. -/
theorem C5_extraction_idempotent (filename_path : List Char → List Char) (fs : FileSystem)
    (sidecar : Option (List (List Char))) (inputfilename : List Char) :
    (∀ lines, sidecar = some lines →
      fs.exists_ (filename_path inputfilename ++ "/3DLut/".toList ++ (scanSidecar lines).name)
        = true →
      (extractLut filename_path fs sidecar inputfilename).wrote = false ∧
      (extractLut filename_path fs sidecar inputfilename).fs = fs ∧
      (extractLut filename_path fs sidecar inputfilename).failed = false) ∧
    (extractLut filename_path (extractLut filename_path fs sidecar inputfilename).fs
        sidecar inputfilename).wrote = false ∧
    (extractLut filename_path (extractLut filename_path fs sidecar inputfilename).fs
        sidecar inputfilename).fs = (extractLut filename_path fs sidecar inputfilename).fs := by
  constructor
  · intro lines hs hex
    subst hs
    have hp : filename_path inputfilename ++ "/3DLut/".toList ++ (scanSidecar lines).name
        = lutfilePath filename_path inputfilename (scanSidecar lines).name := by
      simp only [lutfilePath, combine_path, List.append_assoc]
      rfl
    rw [hp] at hex
    simp [extractLut, hex]
  · cases sidecar with
    | none => exact ⟨rfl, rfl⟩
    | some lines =>
      simp only [extractLut]
      generalize lutfilePath filename_path inputfilename (scanSidecar lines).name = p
      by_cases hex : fs.exists_ p = true
      · simp [hex]
      · by_cases hw : fs.writable p = true
        · simp [hex, hw, FileSystem.exists_write]
        · simp [hex, hw]

theorem C5_extraction_idempotent_witness :
    (extractLut (fun _ => "clips".toList) sampleFileSystem (some sampleSidecar)
        "clips/A001.braw".toList).wrote = false ∧
    (extractLut (fun _ => "clips".toList) sampleFileSystem (some sampleSidecar)
        "clips/A001.braw".toList).fs = sampleFileSystem ∧
    (extractLut (fun _ => "clips".toList) sampleFileSystem (some sampleSidecar)
        "clips/A001.braw".toList).failed = false :=
  (C5_extraction_idempotent (fun _ => "clips".toList) sampleFileSystem (some sampleSidecar)
    "clips/A001.braw".toList).1 sampleSidecar rfl (by decide)

/-! ### The LUT file -/

theorem scanSidecar_no_data (lines : List (List Char))
    (h : ∀ l ∈ lines, ¬ Occurs dataLabel l) : (scanSidecar lines).data = [] := by
  obtain ⟨st1, h1, h2, -⟩ := scanLoop_before lines [] ⟨[], [], [], false⟩ rfl
    (fun l hl => Or.inr (Or.inr (h l hl)))
  rw [List.append_nil] at h1
  rw [scanSidecar, h1, scanLoop, h2]

/-- C18: whenever the block writes the LUT file, the file holds `BMD_TITLE `, the title and
a newline, an empty line, `LUT_3D_SIZE 0` and a newline, then the recovered data as it
is, the size being the literal 0 whatever the sidecar holds; and when no line of the
sidecar carries the data label the recovered data is empty, and where the file does not
exist yet and can be opened it is written all the same, header only, without failing
the run. -/
theorem C18_lut_file_content (filename_path : List Char → List Char) (fs : FileSystem)
    (lines : List (List Char)) (inputfilename : List Char) :
    ((extractLut filename_path fs (some lines) inputfilename).wrote = true →
      (extractLut filename_path fs (some lines) inputfilename).fs.content
          (extractLut filename_path fs (some lines) inputfilename).lutfile
        = some ("BMD_TITLE ".toList ++ (scanSidecar lines).title ++ ['\n'] ++ ['\n']
            ++ "LUT_3D_SIZE 0".toList ++ ['\n'] ++ (scanSidecar lines).data) ∧
      (extractLut filename_path fs (some lines) inputfilename).failed = false) ∧
    ((∀ l ∈ lines, ¬ Occurs dataLabel l) →
      (scanSidecar lines).data = [] ∧
      (fs.exists_ (lutfilePath filename_path inputfilename (scanSidecar lines).name) = false →
       fs.writable (lutfilePath filename_path inputfilename (scanSidecar lines).name) = true →
        (extractLut filename_path fs (some lines) inputfilename).wrote = true ∧
        (extractLut filename_path fs (some lines) inputfilename).failed = false ∧
        (extractLut filename_path fs (some lines) inputfilename).fs.content
            (lutfilePath filename_path inputfilename (scanSidecar lines).name)
          = some ("BMD_TITLE ".toList ++ (scanSidecar lines).title ++ ['\n'] ++ ['\n']
              ++ "LUT_3D_SIZE 0".toList ++ ['\n']))) := by
  have htext : ∀ title data : List Char, lutFileText title data
      = "BMD_TITLE ".toList ++ title ++ ['\n'] ++ ['\n'] ++ "LUT_3D_SIZE 0".toList ++ ['\n']
          ++ data := by
    intro title data
    have h0 : (toString (0 : Int)).toList = "0".toList := by decide
    have h1 : "LUT_3D_SIZE 0".toList = "LUT_3D_SIZE ".toList ++ "0".toList := by decide
    simp only [lutFileText, h0, h1, List.append_assoc]
  constructor
  · simp only [extractLut]
    generalize lutfilePath filename_path inputfilename (scanSidecar lines).name = p
    by_cases hex : fs.exists_ p = true
    · simp [hex]
    · by_cases hw : fs.writable p = true
      · intro _
        simp only [hex, hw, if_true, if_false, Bool.false_eq_true, FileSystem.write, htext]
        simp
      · simp [hex, hw]
  · intro hno
    have hdata := scanSidecar_no_data lines hno
    refine ⟨hdata, ?_⟩
    simp only [extractLut]
    generalize lutfilePath filename_path inputfilename (scanSidecar lines).name = p
    intro hex hw
    simp only [hex, hw, if_true, if_false, Bool.false_eq_true, FileSystem.write, htext, hdata]
    simp

theorem C18_lut_file_content_witness :
    (scanSidecar ["  \"post_3dlut_sidecar_name\": \"Test.cube\",".toList,
        "  \"post_3dlut_sidecar_title\": \"Test\",".toList]).data = [] ∧
    ((⟨fun _ => none, fun _ => true⟩ : FileSystem).exists_
        (lutfilePath (fun _ => "clips".toList) "clips/A001.braw".toList
          (scanSidecar ["  \"post_3dlut_sidecar_name\": \"Test.cube\",".toList,
            "  \"post_3dlut_sidecar_title\": \"Test\",".toList]).name) = false →
      (⟨fun _ => none, fun _ => true⟩ : FileSystem).writable
        (lutfilePath (fun _ => "clips".toList) "clips/A001.braw".toList
          (scanSidecar ["  \"post_3dlut_sidecar_name\": \"Test.cube\",".toList,
            "  \"post_3dlut_sidecar_title\": \"Test\",".toList]).name) = true →
      (extractLut (fun _ => "clips".toList) ⟨fun _ => none, fun _ => true⟩
        (some ["  \"post_3dlut_sidecar_name\": \"Test.cube\",".toList,
          "  \"post_3dlut_sidecar_title\": \"Test\",".toList]) "clips/A001.braw".toList).wrote = true ∧
      (extractLut (fun _ => "clips".toList) ⟨fun _ => none, fun _ => true⟩
        (some ["  \"post_3dlut_sidecar_name\": \"Test.cube\",".toList,
          "  \"post_3dlut_sidecar_title\": \"Test\",".toList]) "clips/A001.braw".toList).failed = false ∧
      (extractLut (fun _ => "clips".toList) ⟨fun _ => none, fun _ => true⟩
        (some ["  \"post_3dlut_sidecar_name\": \"Test.cube\",".toList,
          "  \"post_3dlut_sidecar_title\": \"Test\",".toList]) "clips/A001.braw".toList).fs.content
          (lutfilePath (fun _ => "clips".toList) "clips/A001.braw".toList
            (scanSidecar ["  \"post_3dlut_sidecar_name\": \"Test.cube\",".toList,
              "  \"post_3dlut_sidecar_title\": \"Test\",".toList]).name)
        = some ("BMD_TITLE ".toList
            ++ (scanSidecar ["  \"post_3dlut_sidecar_name\": \"Test.cube\",".toList,
              "  \"post_3dlut_sidecar_title\": \"Test\",".toList]).title ++ ['\n'] ++ ['\n']
            ++ "LUT_3D_SIZE 0".toList ++ ['\n'])) :=
  (C18_lut_file_content (fun _ => "clips".toList) ⟨fun _ => none, fun _ => true⟩
    ["  \"post_3dlut_sidecar_name\": \"Test.cube\",".toList,
      "  \"post_3dlut_sidecar_title\": \"Test\",".toList] "clips/A001.braw".toList).2
    (by
      intro l hl
      simp only [List.mem_cons, List.mem_singleton, List.not_mem_nil, or_false] at hl
      rcases hl with rfl | rfl
      · exact fun h => absurd ((find_isSome_iff _ _).mpr h) (by decide)
      · exact fun h => absurd ((find_isSome_iff _ _).mpr h) (by decide))

/-! ### The override of the 3D LUT -/

/-- C11, on the failing input: the override `Rec709` is in the catalog (its LUT file is
`/res/rec709.cube`) and `--apply3dlut` is on, so `main` passes the check of the override
name; yet the path given to the color transform is the one the sidecar block derived,
`clips/3DLut/Test.cube`, the same as without an override. -/
theorem C11_override_is_not_applied :
    unknownOverride3dlut (sampleTool "Rec709".toList) sampleColorspaces = false ∧
    apply3dlutSrc (sampleTool "Rec709".toList)
        (extractLut (fun _ => "clips".toList) sampleFileSystem (some sampleSidecar)
          (sampleTool "Rec709".toList).inputfilename).lutfile
      = some "clips/3DLut/Test.cube".toList ∧
    apply3dlutSrc (sampleTool "Rec709".toList)
        (extractLut (fun _ => "clips".toList) sampleFileSystem (some sampleSidecar)
          (sampleTool "Rec709".toList).inputfilename).lutfile
      ≠ some "/res/rec709.cube".toList ∧
    apply3dlutSrc (sampleTool [])
        (extractLut (fun _ => "clips".toList) sampleFileSystem (some sampleSidecar)
          (sampleTool []).inputfilename).lutfile
      = some "clips/3DLut/Test.cube".toList := by
  decide

/-- The path given to the color transform does not depend on the override name. -/
theorem apply3dlutSrc_ignores_override (tool : BrawTool) (name lutfile : List Char) :
    apply3dlutSrc { tool with override3dlut := name } lutfile = apply3dlutSrc tool lutfile :=
  rfl

/-! ### Overlay labels -/

theorem toString_natCast (n : Nat) : toString ((n : Nat) : Int) = toString n := rfl

/-- C14: with the kelvin override `k` and `white_balance_kelvin` held as an integer attribute
of value `e` (stored as `int` or as `unsigned int`), the label built for the kelvin entry
is `wb: ` followed by `k` in decimal, ` (`, `e` in decimal and `)`; merging the stream
`iso` 800 (int32), `white_balance_kelvin` 5600 (uint32) and overriding with 4800 gives
`wb: 4800 (5600)`. -/
theorem C14_kelvin_label (str_by_float : F32 → String) (filename : List Char → List Char)
    (tool : BrawTool) (spec : ImageSpec) (k e : Int) (v : AttrValue) (x y : Int)
    (hk : tool.kelvin = some k)
    (hattr : spec.find_attribute "white_balance_kelvin" = some v)
    (hv : v = .int e ∨ v = .uint e.toNat ∧ 0 ≤ e) :
    overlayName str_by_float filename tool spec ⟨"white_balance_kelvin", "wb", .INT, x, y⟩
      = "wb: " ++ toString k ++ " (" ++ toString e ++ ")" ∧
    overlayName str_by_float filename (sampleOverlayTool (some 4800))
        (ProcessMetaData (fun _ => "") sampleStream sampleImage).spec
        ⟨"white_balance_kelvin", "wb", .INT, x, y⟩
      = "wb: 4800 (5600)" := by
  constructor
  · have hval : attributeText str_by_float v = toString e := by
      rcases hv with rfl | ⟨rfl, he⟩
      · rfl
      · obtain ⟨n, rfl⟩ := Int.eq_ofNat_of_zero_le he
        simp [attributeText, toString_natCast]
    have h1 : ("white_balance_kelvin" : String) ≠ "filename" := by decide
    have h2 : ("white_balance_kelvin" : String) ≠ "exposure" := by decide
    have h3 : ("wb" : String) ++ ": " = "wb: " := by decide
    simp only [overlayName, h1, h2, if_false, hattr, hk, hval, if_true, h3]
  · have hs : (ProcessMetaData (fun _ => "") sampleStream sampleImage).spec.find_attribute
        "white_balance_kelvin" = some (.uint 5600) := by decide
    have h1 : ("white_balance_kelvin" : String) ≠ "filename" := by decide
    have h2 : ("white_balance_kelvin" : String) ≠ "exposure" := by decide
    have h3 : (sampleOverlayTool (some 4800)).kelvin = some 4800 := rfl
    simp only [overlayName, h1, h2, if_false, hs, h3, if_true, attributeText]
    decide

theorem C14_kelvin_label_witness :
    overlayName (fun _ => "") (fun p => p) (sampleOverlayTool (some 4800))
        ⟨1920, 1080, 3, [("white_balance_kelvin", .uint 5600)]⟩
        ⟨"white_balance_kelvin", "wb", .INT, 0, 0⟩
      = "wb: " ++ toString (4800 : Int) ++ " (" ++ toString (5600 : Int) ++ ")" ∧
    overlayName (fun _ => "") (fun p => p) (sampleOverlayTool (some 4800))
        (ProcessMetaData (fun _ => "") sampleStream sampleImage).spec
        ⟨"white_balance_kelvin", "wb", .INT, 0, 0⟩
      = "wb: 4800 (5600)" :=
  C14_kelvin_label (fun _ => "") (fun p => p) (sampleOverlayTool (some 4800))
    ⟨1920, 1080, 3, [("white_balance_kelvin", .uint 5600)]⟩ 4800 5600 (.uint 5600) 0 0
    rfl (by decide) (Or.inr ⟨rfl, by decide⟩)

/-- C15, counterexample: the kelvin override 5600 equals the embedded value 5600, yet the
label is `wb: 5600 (5600)`, not `wb: 5600`. -/
theorem C15_equal_override_is_shown :
    overlayName (fun _ => "") (fun p => p) (sampleOverlayTool (some 5600))
        ⟨1920, 1080, 3, [("white_balance_kelvin", .uint 5600)]⟩
        ⟨"white_balance_kelvin", "wb", .INT, 0, 0⟩ = "wb: 5600 (5600)" ∧
    overlayName (fun _ => "") (fun p => p) (sampleOverlayTool (some 5600))
        ⟨1920, 1080, 3, [("white_balance_kelvin", .uint 5600)]⟩
        ⟨"white_balance_kelvin", "wb", .INT, 0, 0⟩ ≠ "wb: 5600" := by
  decide

/-- C15, amended: for each of the keys `exposure`, `white_balance_kelvin` and
`white_balance_tint` whose attribute is in the store with text `embedded`, the label is
`<label>: <override> (<embedded>)` exactly when the user supplied an override, whether or
not it differs from the embedded value, and `<label>: <embedded>` when none was
supplied. -/
theorem C15_override_labels (str_by_float : F32 → String) (filename : List Char → List Char)
    (tool : BrawTool) (spec : ImageSpec) (name : String) (type : TypeDesc) (x y : Int) :
    (∀ v, spec.find_attribute "exposure" = some v →
      overlayName str_by_float filename tool spec ⟨"exposure", name, type, x, y⟩ =
        match tool.exposure with
        | some o => name ++ ": " ++ str_by_float o ++ " (" ++ attributeText str_by_float v ++ ")"
        | none => name ++ ": " ++ attributeText str_by_float v) ∧
    (∀ v, spec.find_attribute "white_balance_kelvin" = some v →
      overlayName str_by_float filename tool spec ⟨"white_balance_kelvin", name, type, x, y⟩ =
        match tool.kelvin with
        | some o => name ++ ": " ++ toString o ++ " (" ++ attributeText str_by_float v ++ ")"
        | none => name ++ ": " ++ attributeText str_by_float v) ∧
    (∀ v, spec.find_attribute "white_balance_tint" = some v →
      overlayName str_by_float filename tool spec ⟨"white_balance_tint", name, type, x, y⟩ =
        match tool.tint with
        | some o => name ++ ": " ++ toString o ++ " (" ++ attributeText str_by_float v ++ ")"
        | none => name ++ ": " ++ attributeText str_by_float v) := by
  refine ⟨?_, ?_, ?_⟩
  · intro v hv
    have h1 : ("exposure" : String) ≠ "filename" := by decide
    simp only [overlayName, h1, if_false, hv, if_true]
  · intro v hv
    have h1 : ("white_balance_kelvin" : String) ≠ "filename" := by decide
    have h2 : ("white_balance_kelvin" : String) ≠ "exposure" := by decide
    simp only [overlayName, h1, h2, if_false, hv, if_true]
  · intro v hv
    have h1 : ("white_balance_tint" : String) ≠ "filename" := by decide
    have h2 : ("white_balance_tint" : String) ≠ "exposure" := by decide
    have h3 : ("white_balance_tint" : String) ≠ "white_balance_kelvin" := by decide
    simp only [overlayName, h1, h2, h3, if_false, hv, if_true]

theorem C15_override_labels_witness :
    overlayName (fun _ => "") (fun p => p) (sampleOverlayTool (some 5600))
        ⟨1920, 1080, 3, [("white_balance_kelvin", .uint 5600)]⟩
        ⟨"white_balance_kelvin", "wb", .INT, 0, 0⟩ =
      match (sampleOverlayTool (some 5600)).kelvin with
      | some o => "wb" ++ ": " ++ toString o ++ " (" ++ attributeText (fun _ => "") (.uint 5600) ++ ")"
      | none => "wb" ++ ": " ++ attributeText (fun _ => "") (.uint 5600) :=
  (C15_override_labels (fun _ => "") (fun p => p) (sampleOverlayTool (some 5600))
    ⟨1920, 1080, 3, [("white_balance_kelvin", .uint 5600)]⟩ "wb" .INT 0 0).2.1
    (.uint 5600) (by decide)

/-! ### The callback object and the decode block -/

theorem SetFrame_m_frame (cb : BrawCallback) (frames : Frames) (f : Option Frame) :
    (SetFrame cb frames f).1.m_frame = f := by
  simp only [SetFrame]

theorem SetFrame_m_refCount (cb : BrawCallback) (frames : Frames) (f : Option Frame) :
    (SetFrame cb frames f).1.m_refCount = cb.m_refCount := by
  simp only [SetFrame]

theorem SetFrame_destroyed (cb : BrawCallback) (frames : Frames) (f : Option Frame) :
    (SetFrame cb frames f).1.destroyed = cb.destroyed := by
  simp only [SetFrame]

theorem SetFrame_m_imageBuf (cb : BrawCallback) (frames : Frames) (f : Option Frame) :
    (SetFrame cb frames f).1.m_imageBuf = cb.m_imageBuf := by
  simp only [SetFrame]

theorem SetFrame_log (cb : BrawCallback) (frames : Frames) (f : Option Frame) :
    (SetFrame cb frames f).2.log = frames.log
      ++ (match cb.m_frame with
          | some held => [FrameEvent.release held]
          | none => [])
      ++ [FrameEvent.assign f]
      ++ (match f with
          | some g => [FrameEvent.addRef g]
          | none => []) := by
  cases hh : cb.m_frame <;> cases f <;> simp [SetFrame, hh, Frames.Release, Frames.AddRef]

theorem SetFrame_refCount (cb : BrawCallback) (frames : Frames) (f : Option Frame) (g : Frame) :
    (SetFrame cb frames f).2.refCount g
      = frames.refCount g - (if cb.m_frame = some g then 1 else 0)
          + (if f = some g then 1 else 0) := by
  cases hh : cb.m_frame with
  | none =>
    cases f with
    | none => simp [SetFrame, hh]
    | some a =>
      by_cases h : g = a
      · simp [SetFrame, hh, Frames.AddRef, h]
      · have h2 : a ≠ g := fun e => h e.symm
        simp [SetFrame, hh, Frames.AddRef, h, h2]
  | some held =>
    cases f with
    | none =>
      by_cases h : g = held
      · simp [SetFrame, hh, Frames.Release, h]
      · have h2 : held ≠ g := fun e => h e.symm
        simp [SetFrame, hh, Frames.Release, h, h2]
    | some a =>
      by_cases h : g = held <;> by_cases k : g = a
      · have e : held = a := h.symm.trans k
        simp [SetFrame, hh, Frames.Release, Frames.AddRef, h, e]
      · have k2 : a ≠ g := fun e => k e.symm
        have k3 : ¬ held = a := fun e => k (h.trans e)
        simp [SetFrame, hh, Frames.Release, Frames.AddRef, h, k3]
        intro e; exact absurd e.symm k3
      · have h2 : held ≠ g := fun e => h e.symm
        have h3 : ¬ a = held := fun e => h (k.trans e)
        have h4 : ¬ held = a := fun e => h3 e.symm
        simp [SetFrame, hh, Frames.Release, Frames.AddRef, k, h3, h4]
      · have h2 : held ≠ g := fun e => h e.symm
        have k2 : a ≠ g := fun e => k e.symm
        simp [SetFrame, hh, Frames.Release, Frames.AddRef, h, k, h2, k2]

/-- C19: `SetFrame(f)` releases the frame held (if any), then assigns `f` to the slot, then
adds a reference to `f` (if any), in this order and nothing else; afterwards the slot
holds `f`, the count of every frame has changed by minus one if it was the frame held and
plus one if it is `f`, so with two different frames the count of the frame held has
dropped by one and the count of `f` has risen by one; `SetFrame(nullptr)` leaves the slot
empty. -/
theorem C19_SetFrame (cb : BrawCallback) (frames : Frames) (f : Option Frame) :
    (SetFrame cb frames f).1.m_frame = f ∧
    (SetFrame cb frames f).2.log = frames.log
      ++ (match cb.m_frame with
          | some held => [FrameEvent.release held]
          | none => [])
      ++ [FrameEvent.assign f]
      ++ (match f with
          | some g => [FrameEvent.addRef g]
          | none => []) ∧
    (∀ g, (SetFrame cb frames f).2.refCount g
      = frames.refCount g - (if cb.m_frame = some g then 1 else 0)
          + (if f = some g then 1 else 0)) ∧
    (∀ held g, cb.m_frame = some held → f = some g → held ≠ g →
      (SetFrame cb frames f).2.refCount held = frames.refCount held - 1 ∧
      (SetFrame cb frames f).2.refCount g = frames.refCount g + 1) ∧
    (∀ g, cb.m_frame = none → f = some g →
      (SetFrame cb frames f).2.refCount g = frames.refCount g + 1) ∧
    (∀ held, cb.m_frame = some held → f = none →
      (SetFrame cb frames f).2.refCount held = frames.refCount held - 1) ∧
    (SetFrame cb frames none).1.m_frame = none ∧
    (SetFrame cb frames f).1.m_refCount = cb.m_refCount ∧
    (SetFrame cb frames f).1.m_imageBuf = cb.m_imageBuf := by
  refine ⟨SetFrame_m_frame _ _ _, SetFrame_log _ _ _, SetFrame_refCount _ _ _, ?_, ?_, ?_,
    SetFrame_m_frame _ _ _, SetFrame_m_refCount _ _ _, SetFrame_m_imageBuf _ _ _⟩
  · intro held g h1 h2 hne
    have hne2 : g ≠ held := fun h => hne h.symm
    constructor
    · rw [SetFrame_refCount, h1, h2]; simp [hne2]
    · rw [SetFrame_refCount, h1, h2]; simp [hne]
  · intro g h1 h2
    rw [SetFrame_refCount, h1, h2]; simp
  · intro held h1 h2
    rw [SetFrame_refCount, h1, h2]; simp

/-- C19 at a callback that holds frame 3 and is given frame 7: release of 3, assignment,
reference on 7; the count of 3 falls from 1 to 0 and that of 7 rises from 1 to 2. -/
theorem C19_SetFrame_witness :
    (SetFrame sampleCallback sampleFrames (some 7)).1.m_frame = some 7 ∧
    (SetFrame sampleCallback sampleFrames (some 7)).2.log
      = [FrameEvent.release 3, FrameEvent.assign (some 7), FrameEvent.addRef 7] ∧
    (SetFrame sampleCallback sampleFrames (some 7)).2.refCount 3 = 0 ∧
    (SetFrame sampleCallback sampleFrames (some 7)).2.refCount 7 = 2 := by
  have h := C19_SetFrame sampleCallback sampleFrames (some 7)
  refine ⟨h.1, ?_, ?_, ?_⟩
  · rw [h.2.1]; rfl
  · rw [(h.2.2.2.1 3 7 rfl rfl (by decide)).1]; rfl
  · rw [(h.2.2.2.1 3 7 rfl rfl (by decide)).2]; rfl

theorem ProcessComplete_members (cb : BrawCallback) (result getWidth getHeight
    getResourceSizeBytes getResource : HRESULT) (width height : Int)
    (image : Int → Int → Int → F32) :
    (ProcessComplete cb result getWidth getHeight getResourceSizeBytes getResource width
      height image).m_frame = cb.m_frame ∧
    (ProcessComplete cb result getWidth getHeight getResourceSizeBytes getResource width
      height image).m_refCount = cb.m_refCount ∧
    (ProcessComplete cb result getWidth getHeight getResourceSizeBytes getResource width
      height image).destroyed = cb.destroyed := by
  unfold ProcessComplete
  simp only
  split_ifs <;> simp [ProcessImage]

theorem ProcessComplete_of_failure (cb : BrawCallback) (result getWidth getHeight
    getResourceSizeBytes getResource : HRESULT) (width height : Int)
    (image : Int → Int → Int → F32)
    (h : ¬ (result = S_OK ∧ getWidth = S_OK ∧ getHeight = S_OK ∧ getResourceSizeBytes = S_OK ∧
      getResource = S_OK)) :
    ProcessComplete cb result getWidth getHeight getResourceSizeBytes getResource width
      height image = cb := by
  unfold ProcessComplete
  simp only
  by_cases h1 : result = S_OK
  · by_cases h2 : getWidth = S_OK
    · by_cases h3 : getHeight = S_OK
      · by_cases h4 : getResourceSizeBytes = S_OK
        · have h5 : getResource ≠ S_OK := fun h5 => h ⟨h1, h2, h3, h4, h5⟩
          simp [h1, h2, h3, h4, h5]
        · simp [h1, h2, h3, h4]
      · simp [h1, h2, h3]
    · simp [h1, h2]
  · simp [h1]

theorem ProcessComplete_of_success (cb : BrawCallback) (width height : Int)
    (image : Int → Int → Int → F32) :
    ProcessComplete cb S_OK S_OK S_OK S_OK S_OK width height image
      = ProcessImage cb width height image := by
  simp [ProcessComplete]

theorem ReadComplete_of_success (cb : BrawCallback) (frames : Frames) (frame : Frame) :
    ReadComplete cb frames S_OK frame S_OK S_OK = (SetFrame cb frames (some frame), true) := by
  simp [ReadComplete]

theorem ReadComplete_of_failure (cb : BrawCallback) (frames : Frames) (frame : Frame)
    (result createJob submit : HRESULT)
    (h : ¬ (result = S_OK ∧ createJob = S_OK ∧ submit = S_OK)) :
    ReadComplete cb frames result frame createJob submit = ((cb, frames), false) := by
  unfold ReadComplete
  simp only
  by_cases h1 : result = S_OK
  · by_cases h2 : createJob = S_OK
    · have h3 : submit ≠ S_OK := fun h3 => h ⟨h1, h2, h3⟩
      simp [h1, h2, h3]
    · simp [h1, h2]
  · simp [h1]

theorem FlushJobs_of_read_failure (engine : EngineRun) (cb : BrawCallback) (frames : Frames)
    (h : ¬ readSucceeds engine) : FlushJobs engine cb frames = (cb, frames) := by
  unfold FlushJobs
  rw [ReadComplete_of_failure _ _ _ _ _ _ h]
  simp

theorem FlushJobs_of_read_success (engine : EngineRun) (cb : BrawCallback) (frames : Frames)
    (h : readSucceeds engine) :
    FlushJobs engine cb frames
      = (ProcessComplete (SetFrame cb frames (some engine.frame)).1 engine.processResult
          engine.getWidth engine.getHeight engine.getResourceSizeBytes engine.getResource
          engine.width engine.height engine.image,
         (SetFrame cb frames (some engine.frame)).2) := by
  obtain ⟨h1, h2, h3⟩ := h
  unfold FlushJobs
  rw [h1, h2, h3, ReadComplete_of_success]
  simp

theorem createCallback_members (tool : BrawTool) :
    (createCallback tool).m_frame = none ∧ (createCallback tool).m_refCount = 1 ∧
    (createCallback tool).destroyed = false ∧
    (createCallback tool).m_imageBuf = ImageBuf.uninitialized := by
  unfold createCallback
  cases tool.kelvin <;> cases tool.tint <;> cases tool.exposure <;>
    simp [BrawCallback.new, BrawCallback.AddRef]

theorem FlushJobs_members (engine : EngineRun) (cb : BrawCallback) (frames : Frames) :
    (FlushJobs engine cb frames).1.m_refCount = cb.m_refCount ∧
    (FlushJobs engine cb frames).1.destroyed = cb.destroyed ∧
    (FlushJobs engine cb frames).1.m_frame
      = if readSucceeds engine then some engine.frame else cb.m_frame := by
  by_cases h : readSucceeds engine
  · rw [FlushJobs_of_read_success _ _ _ h, if_pos h]
    refine ⟨?_, ?_, ?_⟩
    · rw [(ProcessComplete_members _ _ _ _ _ _ _ _ _).2.1, SetFrame_m_refCount]
    · rw [(ProcessComplete_members _ _ _ _ _ _ _ _ _).2.2, SetFrame_destroyed]
    · rw [(ProcessComplete_members _ _ _ _ _ _ _ _ _).1, SetFrame_m_frame]
  · rw [FlushJobs_of_read_failure _ _ _ h, if_neg h]
    exact ⟨rfl, rfl, rfl⟩

theorem decodeBlock_of_setup_failure (fmt : F32 → String) (tool : BrawTool)
    (engine : EngineRun) (frames : Frames) (h : ¬ setupSucceeds engine) :
    (decodeBlock fmt tool engine frames).code = some EXIT_FAILURE ∧
    ((decodeBlock fmt tool engine frames).callback = none ∨
      (decodeBlock fmt tool engine frames).callback = some (createCallback tool)) := by
  unfold decodeBlock
  by_cases h1 : engine.factory = false
  · simp [h1]
  by_cases h2 : engine.createCodec = S_OK
  swap
  · simp [h1, h2]
  by_cases h3 : engine.openClip = S_OK
  swap
  · simp [h1, h2, h3]
  by_cases h4 : engine.setCallback = S_OK
  swap
  · simp [h1, h2, h3, h4]
  by_cases h5 : engine.clipMetadataIterator = S_OK
  swap
  · simp [h1, h2, h3, h4, h5]
  by_cases h6 : engine.createJobReadFrame = S_OK
  swap
  · simp [h1, h2, h3, h4, h5, h6]
  by_cases h7 : engine.submitRead = S_OK
  swap
  · simp [h1, h2, h3, h4, h5, h6, h7]
  exact absurd ⟨by simpa using h1, h2, h3, h4, h5, h6, h7⟩ h

theorem decodeBlock_of_setup (fmt : F32 → String) (tool : BrawTool)
    (engine : EngineRun) (frames : Frames) (h : setupSucceeds engine) :
    decodeBlock fmt tool engine frames =
      match (FlushJobs engine (createCallback tool) frames).1.m_frame with
      | none => ⟨some EXIT_FAILURE, some (FlushJobs engine (createCallback tool) frames).1,
          (FlushJobs engine (createCallback tool) frames).2, ImageBuf.uninitialized⟩
      | some _ =>
        if engine.frameMetadataIterator ≠ S_OK then
          ⟨some EXIT_FAILURE, some (FlushJobs engine (createCallback tool) frames).1,
            (FlushJobs engine (createCallback tool) frames).2, ImageBuf.uninitialized⟩
        else
          ⟨none,
            some ((SetFrame
              { (FlushJobs engine (createCallback tool) frames).1 with
                m_imageBuf := mergeMetaData fmt engine.clipMetadata engine.frameMetadata
                  (FlushJobs engine (createCallback tool) frames).1.m_imageBuf }
              (FlushJobs engine (createCallback tool) frames).2 none).1.Release
                (SetFrame
                  { (FlushJobs engine (createCallback tool) frames).1 with
                    m_imageBuf := mergeMetaData fmt engine.clipMetadata engine.frameMetadata
                      (FlushJobs engine (createCallback tool) frames).1.m_imageBuf }
                  (FlushJobs engine (createCallback tool) frames).2 none).2).1,
            ((SetFrame
              { (FlushJobs engine (createCallback tool) frames).1 with
                m_imageBuf := mergeMetaData fmt engine.clipMetadata engine.frameMetadata
                  (FlushJobs engine (createCallback tool) frames).1.m_imageBuf }
              (FlushJobs engine (createCallback tool) frames).2 none).1.Release
                (SetFrame
                  { (FlushJobs engine (createCallback tool) frames).1 with
                    m_imageBuf := mergeMetaData fmt engine.clipMetadata engine.frameMetadata
                      (FlushJobs engine (createCallback tool) frames).1.m_imageBuf }
                  (FlushJobs engine (createCallback tool) frames).2 none).2).2,
            mergeMetaData fmt engine.clipMetadata engine.frameMetadata
              (FlushJobs engine (createCallback tool) frames).1.m_imageBuf⟩ := by
  obtain ⟨h1, h2, h3, h4, h5, h6, h7⟩ := h
  unfold decodeBlock
  simp only [h1, h2, h3, h4, h5, h6, h7, ne_eq, not_true_eq_false, if_false, Bool.true_eq_false]
  cases hf : (FlushJobs engine (createCallback tool) frames).1.m_frame with
  | none => simp only
  | some f => simp only

theorem BrawCallback.Release_of_one (cb : BrawCallback) (frames : Frames)
    (h : cb.m_refCount = 1) :
    (cb.Release frames).1.m_refCount = 0 ∧ (cb.Release frames).1.destroyed = true ∧
    (cb.Release frames).1.m_frame = none := by
  simp [BrawCallback.Release, h, SetFrame]

/-- C13, as the code has it: when the decode block has created the callback, the block
goes on to the resize exactly when every call and the read job succeed; then the Frame
slot is empty, the reference count is zero and the callback is destroyed. On every
failure return `main` returns `EXIT_FAILURE` with its reference on the callback still
held (count 1, not destroyed); the Frame slot is then empty unless the read had
succeeded, in which case (failure of the metadata iterator of the frame) it still holds
the frame. -/
theorem C13_callback_after_decode (fmt : F32 → String) (tool : BrawTool)
    (engine : EngineRun) (frames : Frames) (cb : BrawCallback)
    (h : (decodeBlock fmt tool engine frames).callback = some cb) :
    ((decodeBlock fmt tool engine frames).code = none ↔
      setupSucceeds engine ∧ readSucceeds engine ∧ engine.frameMetadataIterator = S_OK) ∧
    ((decodeBlock fmt tool engine frames).code = none →
      cb.m_frame = none ∧ cb.m_refCount = 0 ∧ cb.destroyed = true) ∧
    ((decodeBlock fmt tool engine frames).code ≠ none →
      (decodeBlock fmt tool engine frames).code = some EXIT_FAILURE ∧
      cb.m_refCount = 1 ∧ cb.destroyed = false ∧
      cb.m_frame = if setupSucceeds engine ∧ readSucceeds engine then some engine.frame
        else none) := by
  obtain ⟨c1, c2, c3, -⟩ := createCallback_members tool
  by_cases hs : setupSucceeds engine
  swap
  · obtain ⟨g1, g2⟩ := decodeBlock_of_setup_failure fmt tool engine frames hs
    have hcb : cb = createCallback tool := by
      rcases g2 with g2 | g2
      · rw [g2] at h; exact absurd h (by simp)
      · rw [g2] at h; exact (Option.some.inj h).symm
    subst hcb
    refine ⟨⟨fun e => ?_, fun e => absurd e.1 hs⟩, fun e => ?_, fun _ => ⟨g1, c2, c3, ?_⟩⟩
    · rw [g1] at e; exact absurd e (by simp)
    · rw [g1] at e; exact absurd e (by simp)
    · rw [if_neg (fun e => hs e.1)]; exact c1
  rw [decodeBlock_of_setup fmt tool engine frames hs] at h ⊢
  obtain ⟨f1, f2, f3⟩ := FlushJobs_members engine (createCallback tool) frames
  rw [c2] at f1
  rw [c3] at f2
  rw [c1] at f3
  generalize FlushJobs engine (createCallback tool) frames = r at h f1 f2 f3 ⊢
  by_cases hr : readSucceeds engine
  swap
  · rw [if_neg hr] at f3
    simp only [f3] at h ⊢
    have hcb : cb = r.1 := (Option.some.inj h).symm
    subst hcb
    refine ⟨⟨fun e => absurd e (by simp), fun e => absurd e.2.1 hr⟩,
      fun e => absurd e (by simp), fun _ => ⟨trivial, f1, f2, ?_⟩⟩
    rw [if_neg (fun e => hr e.2)]; exact f3
  rw [if_pos hr] at f3
  simp only [f3] at h ⊢
  by_cases hm : engine.frameMetadataIterator = S_OK
  swap
  · rw [if_pos hm] at h ⊢
    have hcb : cb = r.1 := (Option.some.inj h).symm
    subst hcb
    refine ⟨⟨fun e => absurd e (by simp), fun e => absurd e.2.2 hm⟩,
      fun e => absurd e (by simp), fun _ => ⟨rfl, f1, f2, ?_⟩⟩
    rw [if_pos ⟨hs, hr⟩]; exact f3
  have hm2 : ¬ engine.frameMetadataIterator ≠ S_OK := fun e => e hm
  rw [if_neg hm2] at h ⊢
  have hcb := (Option.some.inj h).symm
  have key : ∀ (c : BrawCallback) (fr : Frames), c.m_refCount = 1 →
      cb = ((SetFrame c fr none).1.Release (SetFrame c fr none).2).1 →
      cb.m_frame = none ∧ cb.m_refCount = 0 ∧ cb.destroyed = true := by
    intro c fr hc1 e
    have hone : (SetFrame c fr none).1.m_refCount = 1 := by
      rw [SetFrame_m_refCount]; exact hc1
    obtain ⟨k1, k2, k3⟩ := BrawCallback.Release_of_one _ (SetFrame c fr none).2 hone
    rw [← e] at k1 k2 k3
    exact ⟨k3, k1, k2⟩
  obtain ⟨k3, k1, k2⟩ := key _ _ (by exact f1) hcb
  exact ⟨⟨fun _ => ⟨hs, hr, hm⟩, fun _ => rfl⟩, fun _ => ⟨k3, k1, k2⟩,
    fun e => absurd rfl e⟩

/-- C13 at a run in which everything succeeds: the Frame slot ends up empty and the
count at zero. -/
theorem C13_callback_after_decode_witness :
    (decodeBlock (fun _ => "") (sampleTool []) (sampleEngine S_OK S_OK S_OK S_OK)
      sampleFrames).code = none ∧
    ∃ cb, (decodeBlock (fun _ => "") (sampleTool []) (sampleEngine S_OK S_OK S_OK S_OK)
      sampleFrames).callback = some cb ∧
      cb.m_frame = none ∧ cb.m_refCount = 0 ∧ cb.destroyed = true := by
  have hc : (decodeBlock (fun _ => "") (sampleTool []) (sampleEngine S_OK S_OK S_OK S_OK)
      sampleFrames).code = none := by decide
  refine ⟨hc, ?_⟩
  have hsome : (decodeBlock (fun _ => "") (sampleTool []) (sampleEngine S_OK S_OK S_OK S_OK)
      sampleFrames).callback.isSome = true := by decide
  cases hcb : (decodeBlock (fun _ => "") (sampleTool []) (sampleEngine S_OK S_OK S_OK S_OK)
      sampleFrames).callback with
  | none => rw [hcb] at hsome; exact absurd hsome (by decide)
  | some cb =>
    exact ⟨cb, rfl, (C13_callback_after_decode _ _ _ _ cb hcb).2.1 hc⟩

/-- C13 fails on the failure returns: when the metadata iterator of the frame cannot be
had, `main` returns `EXIT_FAILURE` while the callback still holds frame 7 and the
reference `main` took on the callback is still counted. -/
theorem C13_failure_return_keeps_frame_and_reference :
    (decodeBlock (fun _ => "") (sampleTool []) (sampleEngine S_OK S_OK S_OK E_FAIL)
      sampleFrames).code = some EXIT_FAILURE ∧
    ((decodeBlock (fun _ => "") (sampleTool []) (sampleEngine S_OK S_OK S_OK E_FAIL)
      sampleFrames).callback.map (fun cb => (cb.m_frame, cb.m_refCount, cb.destroyed)))
      = some (some 7, 1, false) ∧
    (decodeBlock (fun _ => "") (sampleTool []) (sampleEngine S_OK S_OK S_OK E_FAIL)
      sampleFrames).frames.refCount 7 = 2 := by
  decide

theorem storeVariant_dims (fmt : F32 → String) (attr : String) (value : Variant)
    (spec : ImageSpec) :
    (storeVariant fmt attr value spec).width = spec.width ∧
    (storeVariant fmt attr value spec).height = spec.height ∧
    (storeVariant fmt attr value spec).nchannels = spec.nchannels := by
  cases value with
  | string bstrVal =>
    simp only [storeVariant]
    cases CFStringGetCString bstrVal m_buffersize <;> simp [ImageSpec.attribute]
  | safeArray safeArray =>
    simp only [storeVariant]
    split_ifs <;> simp [ImageSpec.attribute]
  | _ => simp [storeVariant, ImageSpec.attribute]

theorem metaDataLoop_dims (fmt : F32 → String) (entries : List MetadataEntry) :
    ∀ (attr : String) (spec : ImageSpec),
      (metaDataLoop fmt entries attr spec).width = spec.width ∧
      (metaDataLoop fmt entries attr spec).height = spec.height ∧
      (metaDataLoop fmt entries attr spec).nchannels = spec.nchannels := by
  induction entries with
  | nil => intro attr spec; simp [metaDataLoop]
  | cons e rest ih =>
    intro attr spec
    rw [metaDataLoop]
    cases hd : e.data with
    | none => simp
    | some value =>
      simp only
      obtain ⟨a1, a2, a3⟩ := ih (nextAttribute e.key attr)
        (storeVariant fmt (nextAttribute e.key attr) value spec)
      obtain ⟨b1, b2, b3⟩ := storeVariant_dims fmt (nextAttribute e.key attr) value spec
      exact ⟨a1.trans b1, a2.trans b2, a3.trans b3⟩

theorem mergeMetaData_dims (fmt : F32 → String) (clip frame : List MetadataEntry)
    (buf : ImageBuf) :
    (mergeMetaData fmt clip frame buf).spec.width = buf.spec.width ∧
    (mergeMetaData fmt clip frame buf).spec.height = buf.spec.height ∧
    (mergeMetaData fmt clip frame buf).spec.nchannels = buf.spec.nchannels := by
  simp only [mergeMetaData, ProcessMetaData]
  obtain ⟨a1, a2, a3⟩ := metaDataLoop_dims fmt frame "" (metaDataLoop fmt clip "" buf.spec)
  obtain ⟨b1, b2, b3⟩ := metaDataLoop_dims fmt clip "" buf.spec
  exact ⟨a1.trans b1, a2.trans b2, a3.trans b3⟩

/-- A read job that does not succeed ends the run in the decode block. -/
theorem decodeBlock_of_read_failure (fmt : F32 → String) (tool : BrawTool)
    (engine : EngineRun) (frames : Frames) (hs : setupSucceeds engine)
    (hr : ¬ readSucceeds engine) :
    (decodeBlock fmt tool engine frames).code = some EXIT_FAILURE := by
  rw [decodeBlock_of_setup fmt tool engine frames hs]
  have f3 := (FlushJobs_members engine (createCallback tool) frames).2.2
  rw [if_neg hr, (createCallback_members tool).1] at f3
  generalize FlushJobs engine (createCallback tool) frames = r at f3 ⊢
  simp only [f3]

/-- A decode and process job that does not succeed leaves the buffer of the callback as
it was constructed, and the decode block hands that buffer on. -/
theorem decodeBlock_of_process_failure (fmt : F32 → String) (tool : BrawTool)
    (engine : EngineRun) (frames : Frames) (hs : setupSucceeds engine)
    (hr : readSucceeds engine) (hm : engine.frameMetadataIterator = S_OK)
    (hp : ¬ processSucceeds engine) :
    (decodeBlock fmt tool engine frames).code = none ∧
    (decodeBlock fmt tool engine frames).imageBuf
      = mergeMetaData fmt engine.clipMetadata engine.frameMetadata ImageBuf.uninitialized := by
  rw [decodeBlock_of_setup fmt tool engine frames hs]
  have f3 := (FlushJobs_members engine (createCallback tool) frames).2.2
  rw [if_pos hr] at f3
  have fb : (FlushJobs engine (createCallback tool) frames).1.m_imageBuf
      = ImageBuf.uninitialized := by
    rw [FlushJobs_of_read_success _ _ _ hr]
    simp only
    rw [ProcessComplete_of_failure _ _ _ _ _ _ _ _ _ hp, SetFrame_m_imageBuf]
    exact (createCallback_members tool).2.2.2
  generalize FlushJobs engine (createCallback tool) frames = r at f3 fb ⊢
  have hm2 : ¬ engine.frameMetadataIterator ≠ S_OK := fun e => e hm
  simp only [f3, if_neg hm2, fb, and_self]

/-- C12 at its failing inputs: with every call of `main` succeeding and the read job
succeeding, a decode and process job that completes with `E_FAIL`, or a width getter
that answers `E_FAIL`, does not end the run in the decode block: `main` goes on (towards
the resize, the clones and `imageBuf.write`) with a buffer of no pixels and no channels
that carries the two metadata attributes. A read job that completes with `E_FAIL` does
end the run with `EXIT_FAILURE`. -/
theorem C12_process_failure_goes_on (fmt : F32 → String) (tool : BrawTool) (frames : Frames) :
    ((decodeBlock fmt tool (sampleEngine S_OK E_FAIL S_OK S_OK) frames).code = none ∧
      (decodeBlock fmt tool (sampleEngine S_OK E_FAIL S_OK S_OK) frames).imageBuf.spec
        = { width := 0, height := 0, nchannels := 0,
            extra_attribs := [("iso", .int 800), ("white_balance_kelvin", .uint 5600)] }) ∧
    ((decodeBlock fmt tool (sampleEngine S_OK S_OK E_FAIL S_OK) frames).code = none ∧
      (decodeBlock fmt tool (sampleEngine S_OK S_OK E_FAIL S_OK) frames).imageBuf.spec
        = { width := 0, height := 0, nchannels := 0,
            extra_attribs := [("iso", .int 800), ("white_balance_kelvin", .uint 5600)] }) ∧
    (decodeBlock fmt tool (sampleEngine E_FAIL S_OK S_OK S_OK) frames).code
      = some EXIT_FAILURE := by
  refine ⟨?_, ?_, ?_⟩
  · obtain ⟨h1, h2⟩ := decodeBlock_of_process_failure fmt tool
      (sampleEngine S_OK E_FAIL S_OK S_OK) frames (by decide) (by decide) rfl (by decide)
    refine ⟨h1, ?_⟩
    rw [h2]
    rfl
  · obtain ⟨h1, h2⟩ := decodeBlock_of_process_failure fmt tool
      (sampleEngine S_OK S_OK E_FAIL S_OK) frames (by decide) (by decide) rfl (by decide)
    refine ⟨h1, ?_⟩
    rw [h2]
    rfl
  · exact decodeBlock_of_read_failure fmt tool (sampleEngine E_FAIL S_OK S_OK S_OK) frames
      (by decide) (by decide)

/-! ### Rounding is monotone at the integers a `float` holds -/

/-- The shape of a rounded value: as `rne24_spec`, with the fact that only one of the
two scalings is at work. -/
theorem rne24_shape (n d : Nat) (hn : 0 < n) (hd : 0 < d) :
    ∃ q sn sd : Nat, rne24 n d = (q * 2 ^ sd, 2 ^ sn) ∧ (sn = 0 ∨ sd = 0) ∧
      2 ^ 23 * (d * 2 ^ sd) ≤ n * 2 ^ sn ∧ n * 2 ^ sn < 2 ^ 24 * (d * 2 ^ sd) ∧
      2 ^ 23 ≤ q ∧ q ≤ 2 ^ 24 ∧
      2 * (q * (d * 2 ^ sd)) ≤ 2 * (n * 2 ^ sn) + d * 2 ^ sd ∧
      2 * (n * 2 ^ sn) ≤ 2 * (q * (d * 2 ^ sd)) + d * 2 ^ sd := by
  have hne : ¬ (n = 0 ∨ d = 0) := by omega
  have hadj : ∀ adj : Nat, adj = (if d * 2 ^ ilog2 n ≤ n * 2 ^ ilog2 d then 0 else 1) →
      (adj = 0 ∧ d * 2 ^ ilog2 n ≤ n * 2 ^ ilog2 d) ∨
      (adj = 1 ∧ n * 2 ^ ilog2 d < d * 2 ^ ilog2 n) := by
    intro adj h
    by_cases hc : d * 2 ^ ilog2 n ≤ n * 2 ^ ilog2 d
    · rw [if_pos hc] at h; exact Or.inl ⟨h, hc⟩
    · rw [if_neg hc] at h; exact Or.inr ⟨h, by omega⟩
  unfold rne24
  rw [if_neg hne]
  simp only []
  generalize hA : (if d * 2 ^ ilog2 n ≤ n * 2 ^ ilog2 d then 0 else 1) = adj
  obtain ⟨hlo, hhi⟩ := scaled_bounds n d (ilog2 n) (ilog2 d) adj (ilog2_spec n hn)
    (ilog2_spec d hd) (hadj adj hA.symm)
  have hz : 23 + ilog2 d + adj - ilog2 n = 0 ∨ ilog2 n - (23 + ilog2 d + adj) = 0 := by omega
  generalize 23 + ilog2 d + adj - ilog2 n = sn at hlo hhi hz ⊢
  generalize ilog2 n - (23 + ilog2 d + adj) = sd at hlo hhi hz ⊢
  have hD : 0 < d * 2 ^ sd := Nat.mul_pos hd (Nat.pos_pow_of_pos _ (by decide))
  obtain ⟨q, hq, h1, h2, h3, h4, -⟩ := round_step (n * 2 ^ sn) (d * 2 ^ sd) hD hlo hhi
  exact ⟨q, sn, sd, by rw [hq], hz, hlo, hhi, h1, h2, h3, h4⟩

/-- Rounding does not fall below an integer of at most 24 bits that the value reaches. -/
theorem rne24_ge_of_le (n d k : Nat) (hd : 0 < d) (hk : k ≤ 2 ^ 24) (h : k * d ≤ n) :
    k * (rne24 n d).2 ≤ (rne24 n d).1 := by
  rcases Nat.eq_zero_or_pos n with hn | hn
  · subst hn
    have hk0 : k = 0 := by
      rcases Nat.eq_zero_or_pos k with h0 | h0
      · exact h0
      · have := Nat.mul_pos h0 hd
        omega
    subst hk0
    simp
  obtain ⟨q, sn, sd, hr, hz, hlo, -, hq, -, -, h6⟩ := rne24_shape n d hn hd
  rw [hr]
  show k * 2 ^ sn ≤ q * 2 ^ sd
  have hP : 0 < 2 ^ sd := Nat.pos_pow_of_pos _ (by decide)
  rcases Nat.eq_zero_or_pos sd with hsd | hsd
  · subst hsd
    simp only [pow_zero, mul_one] at h6 ⊢
    have h7 : 2 * (k * 2 ^ sn) * d ≤ (2 * q + 1) * d := by
      calc 2 * (k * 2 ^ sn) * d = 2 * ((k * d) * 2 ^ sn) := by ring
        _ ≤ 2 * (n * 2 ^ sn) := by
            exact Nat.mul_le_mul_left _ (Nat.mul_le_mul_right _ h)
        _ ≤ 2 * (q * d) + d := h6
        _ = (2 * q + 1) * d := by ring
    have h8 := Nat.le_of_mul_le_mul_right h7 hd
    omega
  · have hsn : sn = 0 := by omega
    subst hsn
    have h2 : 2 ≤ 2 ^ sd := by
      calc 2 = 2 ^ 1 := by norm_num
        _ ≤ 2 ^ sd := Nat.pow_le_pow_right (by decide) hsd
    simp only [pow_zero, mul_one]
    calc k ≤ 2 ^ 24 := hk
      _ = 2 ^ 23 * 2 := by norm_num
      _ ≤ q * 2 ^ sd := Nat.mul_le_mul hq h2

/-- Rounding does not rise above an integer of at most 24 bits that bounds the value. -/
theorem rne24_le_of_ge (n d k : Nat) (hd : 0 < d) (hk : k ≤ 2 ^ 24) (h : n ≤ k * d) :
    (rne24 n d).1 ≤ k * (rne24 n d).2 := by
  rcases Nat.eq_zero_or_pos n with hn | hn
  · subst hn
    simp [rne24]
  obtain ⟨q, sn, sd, hr, hz, hlo, -, hq, -, h5, -⟩ := rne24_shape n d hn hd
  rw [hr]
  show q * 2 ^ sd ≤ k * 2 ^ sn
  rcases Nat.eq_zero_or_pos sd with hsd | hsd
  · subst hsd
    simp only [pow_zero, mul_one] at h5 ⊢
    have h7 : 2 * q * d ≤ (2 * (k * 2 ^ sn) + 1) * d := by
      calc 2 * q * d = 2 * (q * d) := by ring
        _ ≤ 2 * (n * 2 ^ sn) + d := h5
        _ ≤ 2 * ((k * d) * 2 ^ sn) + d := by
            have := Nat.mul_le_mul_left 2 (Nat.mul_le_mul_right (2 ^ sn) h)
            omega
        _ = (2 * (k * 2 ^ sn) + 1) * d := by ring
    have h8 := Nat.le_of_mul_le_mul_right h7 hd
    omega
  · have hsn : sn = 0 := by omega
    subst hsn
    simp only [pow_zero, mul_one] at hlo h5 ⊢
    have h2 : 2 ≤ 2 ^ sd := by
      calc 2 = 2 ^ 1 := by norm_num
        _ ≤ 2 ^ sd := Nat.pow_le_pow_right (by decide) hsd
    generalize 2 ^ sd = P at hlo h5 h2 ⊢
    -- `2 ^ 23 * (d * P) ≤ n ≤ k * d ≤ 2 ^ 24 * d` forces `P = 2` and `k = 2 ^ 24`
    have h9 : 2 ^ 23 * P * d ≤ k * d := by
      calc 2 ^ 23 * P * d = 2 ^ 23 * (d * P) := by ring
        _ ≤ n := hlo
        _ ≤ k * d := h
    have h10 : 2 ^ 23 * P ≤ k := Nat.le_of_mul_le_mul_right h9 hd
    have hP2 : P = 2 := by omega
    subst hP2
    have hk2 : k = 2 ^ 24 := by omega
    subst hk2
    have h11 : 4 * q * d ≤ (2 ^ 25 + 2) * d := by
      calc 4 * q * d = 2 * (q * (d * 2)) := by ring
        _ ≤ 2 * n + d * 2 := h5
        _ ≤ 2 * (2 ^ 24 * d) + d * 2 := by omega
        _ = (2 ^ 25 + 2) * d := by ring
    have h12 := Nat.le_of_mul_le_mul_right h11 hd
    omega

/-- Rounding of a signed fraction does not fall below an integer of at most 24 bits that
the fraction reaches. -/
theorem F32.round_ge (n : Int) (d : Nat) (k : Int) (hd : 0 < d) (hk : |k| ≤ 2 ^ 24)
    (h : k * (d : Int) ≤ n) : k * ((F32.round n d).den : Int) ≤ (F32.round n d).num := by
  have hdI : (0 : Int) < (d : Int) := by exact_mod_cast hd
  obtain ⟨hk1, hk2⟩ := abs_le.mp hk
  by_cases hn : n < 0
  · -- a negative fraction: `k` is negative too, and the magnitudes compare the other way
    have hkneg : k < 0 := by
      by_contra hc
      have : 0 ≤ k * (d : Int) := mul_nonneg (not_lt.mp hc) hdI.le
      omega
    have hnabs : (n.natAbs : Int) = -n := Int.ofNat_natAbs_of_nonpos hn.le
    have hkabs : (k.natAbs : Int) = -k := Int.ofNat_natAbs_of_nonpos hkneg.le
    have h1 : n.natAbs ≤ k.natAbs * d := by
      have : (n.natAbs : Int) ≤ (k.natAbs : Int) * (d : Int) := by
        rw [hnabs, hkabs]; linarith
      exact_mod_cast this
    have hkb : k.natAbs ≤ 2 ^ 24 := by
      have : (k.natAbs : Int) ≤ 2 ^ 24 := by rw [hkabs]; linarith
      exact_mod_cast this
    have h2 := rne24_le_of_ge n.natAbs d k.natAbs hd hkb h1
    have h3 : ((rne24 n.natAbs d).1 : Int) ≤ (k.natAbs : Int) * ((rne24 n.natAbs d).2 : Int) := by
      exact_mod_cast h2
    simp only [F32.round, hn, if_true]
    rw [hkabs] at h3
    linarith
  · have hn0 : 0 ≤ n := not_lt.mp hn
    simp only [F32.round, hn, if_false, one_mul]
    by_cases hk0 : k ≤ 0
    · have h1 : k * ((rne24 n.natAbs d).2 : Int) ≤ 0 :=
        mul_nonpos_of_nonpos_of_nonneg hk0 (Int.natCast_nonneg _)
      have h2 : (0 : Int) ≤ ((rne24 n.natAbs d).1 : Int) := Int.natCast_nonneg _
      linarith
    · have hkpos : 0 ≤ k := by omega
      have hnabs : (n.natAbs : Int) = n := Int.natAbs_of_nonneg hn0
      have hkabs : (k.natAbs : Int) = k := Int.natAbs_of_nonneg hkpos
      have h1 : k.natAbs * d ≤ n.natAbs := by
        have : (k.natAbs : Int) * (d : Int) ≤ (n.natAbs : Int) := by
          rw [hnabs, hkabs]; exact h
        exact_mod_cast this
      have hkb : k.natAbs ≤ 2 ^ 24 := by
        have : (k.natAbs : Int) ≤ 2 ^ 24 := by rw [hkabs]; exact hk2
        exact_mod_cast this
      have h2 := rne24_ge_of_le n.natAbs d k.natAbs hd hkb h1
      have h3 : (k.natAbs : Int) * ((rne24 n.natAbs d).2 : Int) ≤ ((rne24 n.natAbs d).1 : Int) := by
        exact_mod_cast h2
      rw [hkabs] at h3
      exact h3

/-- The conversion of an integer of at most 24 bits to `float` does not fall below it. -/
theorem F32.ofInt_ge (i : Int) (hi : |i| ≤ 2 ^ 24) :
    i * ((F32.ofInt i).den : Int) ≤ (F32.ofInt i).num :=
  F32.round_ge i 1 i (by decide) hi (by simp)

/-- A `float` sum does not fall below the sum of two integers its operands reach, when
that sum has at most 24 bits. -/
theorem F32.add_ge (a b : F32) (ha : 0 < a.den) (hb : 0 < b.den) (k j : Int)
    (hk : k * (a.den : Int) ≤ a.num) (hj : j * (b.den : Int) ≤ b.num)
    (hkj : |k + j| ≤ 2 ^ 24) :
    (k + j) * ((F32.add a b).den : Int) ≤ (F32.add a b).num := by
  have haI : (0 : Int) < (a.den : Int) := by exact_mod_cast ha
  have hbI : (0 : Int) < (b.den : Int) := by exact_mod_cast hb
  apply F32.round_ge _ _ _ (Nat.mul_pos ha hb) hkj
  have h1 : k * (a.den : Int) * (b.den : Int) ≤ a.num * (b.den : Int) :=
    mul_le_mul_of_nonneg_right hk hbI.le
  have h2 : j * (b.den : Int) * (a.den : Int) ≤ b.num * (a.den : Int) :=
    mul_le_mul_of_nonneg_right hj haI.le
  have h3 : (k + j) * ((a.den * b.den : Nat) : Int)
      = k * (a.den : Int) * (b.den : Int) + j * (b.den : Int) * (a.den : Int) := by
    push_cast; ring
  rw [h3]
  linarith

/-- The conversion to `int` does not fall below an integer the value reaches. -/
theorem F32.toInt_ge (a : F32) (ha : 0 < a.den) (k : Int) (h : k * (a.den : Int) ≤ a.num) :
    k ≤ F32.toInt a := by
  have haI : (0 : Int) < (a.den : Int) := by exact_mod_cast ha
  unfold F32.toInt
  by_cases hn : 0 ≤ a.num
  · rw [Int.tdiv_eq_ediv hn haI.le]
    exact Int.le_ediv_of_mul_le haI h
  · have hm : 0 ≤ -a.num := by omega
    have e : a.num = -(-a.num) := by ring
    rw [e, Int.neg_tdiv, Int.tdiv_eq_ediv hm haI.le]
    have h1 : -a.num / (a.den : Int) ≤ -k :=
      Int.ediv_le_of_le_mul haI (by linarith)
    linarith

/-- The cursor of the overlay moves on by at least the height of the rectangle, as long
as the start, the height and their sum have at most 24 bits. -/
theorem advance_ge (height y : Int) (roi : ROI) (hH : 0 ≤ height) (hy : |y| ≤ 2 ^ 24)
    (hb : |roi.height| ≤ 2 ^ 24) (hs : |y + roi.height| ≤ 2 ^ 24) :
    y + roi.height ≤ advance height y roi := by
  unfold advance
  have hm : (0 : Int) * ((F32.mul (F32.ofInt height) (F32.round 1 100)).den : Int)
      ≤ (F32.mul (F32.ofInt height) (F32.round 1 100)).num := by
    rw [zero_mul]
    exact F32.mul_num_nonneg _ _ (F32.ofInt_num_nonneg _ hH)
      (F32.round_num_nonneg _ _ (by decide))
  have h1 := F32.add_ge (F32.ofInt roi.height) (F32.mul (F32.ofInt height) (F32.round 1 100))
    (F32.ofInt_den_pos _) (F32.mul_den_pos _ _) roi.height 0 (F32.ofInt_ge _ hb) hm
    (by rw [add_zero]; exact hb)
  rw [add_zero] at h1
  have h2 := F32.add_ge (F32.ofInt y)
    (F32.add (F32.ofInt roi.height) (F32.mul (F32.ofInt height) (F32.round 1 100)))
    (F32.ofInt_den_pos _) (F32.round_den_pos _ _) y roi.height (F32.ofInt_ge _ hy) h1 hs
  exact F32.toInt_ge _ (F32.round_den_pos _ _) _ h2

/-! ### The overlay cursor -/

theorem overlayLoop_head (text_size : String → F32 → ROI) (name : BrawMetadata → String)
    (imageBuf : ImageBuf) (entries : List BrawMetadata) (x y : Int) :
    ∀ b ∈ (overlayLoop text_size name imageBuf entries x y).head?,
      b.1.y = y ∧ b.2 = draw_metadata text_size imageBuf b.1 := by
  cases entries with
  | nil => simp [overlayLoop]
  | cons m rest => simp [overlayLoop]

/-- C16, as the code has it: in the overlay loop over any list of entries on an image of
height `H ≥ 0`, with any text measure, every entry is drawn at the cursor, the next
cursor is the single precision sum of the cursor, the height of the rectangle
`draw_metadata` returned and `H * 0.01f`, truncated to an integer, and whenever the
cursor, that height and their sum have at most 24 bits (`inFloatRange`) the next
entry starts at or below the cursor plus the height of the rectangle. -/
theorem C16_overlay_cursor (text_size : String → F32 → ROI) (name : BrawMetadata → String)
    (imageBuf : ImageBuf) (entries : List BrawMetadata) (x y : Int)
    (hH : 0 ≤ imageBuf.spec.height) :
    List.Chain'
      (fun a b : BrawMetadata × ROI =>
        a.2 = draw_metadata text_size imageBuf a.1 ∧
        b.1.y = advance imageBuf.spec.height a.1.y a.2 ∧
        (inFloatRange a → a.1.y + a.2.height ≤ b.1.y))
      (overlayLoop text_size name imageBuf entries x y) := by
  induction entries generalizing y with
  | nil => simp [overlayLoop]
  | cons m rest ih =>
    rw [overlayLoop, List.chain'_cons']
    refine ⟨?_, ih _⟩
    intro b hb
    obtain ⟨h1, -⟩ := overlayLoop_head text_size name imageBuf rest x _ b hb
    refine ⟨rfl, h1, ?_⟩
    intro hr
    obtain ⟨r1, r2, r3⟩ := hr
    rw [h1]
    exact advance_ge _ _ _ hH r1 r2 r3

set_option maxRecDepth 20000

/-- C16 on a 4096 by 2160 image: the twelve entries start at 86, 179, ..., 1109, each
93 pixels below the one before, and their rectangles are 72 pixels high. -/
theorem C16_overlay_cursor_witness :
    (0 : Int) ≤ (blankImage 4096 2160).spec.height ∧
    List.Chain'
      (fun a b : BrawMetadata × ROI =>
        a.2 = draw_metadata sampleTextSize (blankImage 4096 2160) a.1 ∧
        b.1.y = advance (blankImage 4096 2160).spec.height a.1.y a.2 ∧
        (inFloatRange a → a.1.y + a.2.height ≤ b.1.y))
      (overlayLoop sampleTextSize (fun m => m.name) (blankImage 4096 2160) metadatas 81 86) ∧
    (overlayLoop sampleTextSize (fun m => m.name) (blankImage 4096 2160) metadatas 81 86).map
        (fun e => (e.1.y, e.2.height))
      = [(86, 72), (179, 72), (272, 72), (365, 72), (458, 72), (551, 72), (644, 72),
         (737, 72), (830, 72), (923, 72), (1016, 72), (1109, 72)] :=
  ⟨by decide, C16_overlay_cursor sampleTextSize (fun m => m.name) (blankImage 4096 2160)
    metadatas 81 86 (by decide), by decide⟩

/-- C16 fails for a text height past 24 bits: on a 100 by 100 image with a text measure
of 16777217 pixels of height, the first entry starts at 4 and its rectangle is 16777217
high, yet the second entry starts at 16777220, one above the end of that rectangle. -/
theorem C16_next_start_inside_box :
    ((applyMetadata tallTextSize (fun _ => "") (fun _ => "A001.braw".toList)
        (sampleOverlayTool none) (blankImage 100 100)).map
        (fun e => (e.1.y, e.2.height))).take 2
      = [(4, 16777217), (16777220, 16777218)] ∧
    ¬ ((4 : Int) + 16777217 ≤ 16777220) := by
  decide

/-! ### The resize rule in exact arithmetic -/

/-- The resized region of the exact reading, by case: its constrained side is the target
side, its other side is the floor of the scaled source side. -/
theorem resizeDimsExact_cases (sw sh tw th : Int) (hsw : 0 < sw) (hsh : 0 < sh) :
    ((tw : ℚ) / (th : ℚ) < (sw : ℚ) / (sh : ℚ) →
      resizeDimsExact sw sh tw th = (tw, ⌊(tw : ℚ) * (sh : ℚ) / (sw : ℚ)⌋)) ∧
    (¬ (tw : ℚ) / (th : ℚ) < (sw : ℚ) / (sh : ℚ) →
      resizeDimsExact sw sh tw th = (⌊(th : ℚ) * (sw : ℚ) / (sh : ℚ)⌋, th)) := by
  have hsw' : (sw : ℚ) ≠ 0 := by
    have : (0 : ℚ) < (sw : ℚ) := by exact_mod_cast hsw
    exact ne_of_gt this
  have hsh' : (sh : ℚ) ≠ 0 := by
    have : (0 : ℚ) < (sh : ℚ) := by exact_mod_cast hsh
    exact ne_of_gt this
  constructor
  · intro h
    simp only [resizeDimsExact, h, if_true]
    congr 2
    field_simp
  · intro h
    simp only [resizeDimsExact, h, if_false]
    congr 2
    field_simp

/-- The exact reading keeps the aspect ratio of the source to within one pixel: when the
source is the wider one (`tw / th < sw / sh`) the region is `tw` wide and its height
`rh` has `tw * sh / sw - 1 < rh ≤ tw * sh / sw`; otherwise the region is `th` high and
its width `rw` has `th * sw / sh - 1 < rw ≤ th * sw / sh`. -/
theorem resizeDimsExact_within_one_pixel (sw sh tw th : Int) (hsw : 0 < sw) (hsh : 0 < sh) :
    ((tw : ℚ) / (th : ℚ) < (sw : ℚ) / (sh : ℚ) →
      (resizeDimsExact sw sh tw th).1 = tw ∧
      (tw : ℚ) * (sh : ℚ) / (sw : ℚ) - 1 < ((resizeDimsExact sw sh tw th).2 : ℚ) ∧
      ((resizeDimsExact sw sh tw th).2 : ℚ) ≤ (tw : ℚ) * (sh : ℚ) / (sw : ℚ)) ∧
    (¬ (tw : ℚ) / (th : ℚ) < (sw : ℚ) / (sh : ℚ) →
      (resizeDimsExact sw sh tw th).2 = th ∧
      (th : ℚ) * (sw : ℚ) / (sh : ℚ) - 1 < ((resizeDimsExact sw sh tw th).1 : ℚ) ∧
      ((resizeDimsExact sw sh tw th).1 : ℚ) ≤ (th : ℚ) * (sw : ℚ) / (sh : ℚ)) := by
  obtain ⟨c1, c2⟩ := resizeDimsExact_cases sw sh tw th hsw hsh
  constructor
  · intro h
    rw [c1 h]
    refine ⟨rfl, ?_, Int.floor_le _⟩
    have := Int.lt_floor_add_one ((tw : ℚ) * (sh : ℚ) / (sw : ℚ))
    simp only
    linarith
  · intro h
    rw [c2 h]
    refine ⟨rfl, ?_, Int.floor_le _⟩
    have := Int.lt_floor_add_one ((th : ℚ) * (sw : ℚ) / (sh : ℚ))
    simp only
    linarith

/-- A region whose sides lie between zero and the sides of the canvas fits the canvas. -/
theorem fitsCanvas_of_le (width height : Int) (d : Int × Int) (h1 : 0 ≤ d.1)
    (h2 : d.1 ≤ width) (h3 : 0 ≤ d.2) (h4 : d.2 ≤ height) : fitsCanvas width height d := by
  have key : ∀ a : Int, 0 ≤ a → 0 ≤ Int.tdiv a 2 ∧ Int.tdiv a 2 ≤ a ∧
      |(a - Int.tdiv a 2) - Int.tdiv a 2| ≤ 1 := by
    intro a ha
    rw [Int.tdiv_eq_ediv ha (by decide)]
    refine ⟨by omega, by omega, ?_⟩
    rw [abs_le]
    constructor <;> omega
  obtain ⟨a1, a2, a3⟩ := key (width - d.1) (by omega)
  obtain ⟨b1, b2, b3⟩ := key (height - d.2) (by omega)
  exact ⟨h1, h2, h3, h4, a1, b1, by omega, by omega, a3, b3⟩

/-- In the exact reading the resized region fits the target canvas, whatever the sizes. -/
theorem resizeDimsExact_fits_canvas (sw sh tw th : Int) (hsw : 0 < sw) (hsh : 0 < sh)
    (htw : 0 < tw) (hth : 0 < th) :
    fitsCanvas tw th (resizeDimsExact sw sh tw th) := by
  have hswq : (0 : ℚ) < (sw : ℚ) := by exact_mod_cast hsw
  have hshq : (0 : ℚ) < (sh : ℚ) := by exact_mod_cast hsh
  have htwq : (0 : ℚ) < (tw : ℚ) := by exact_mod_cast htw
  have hthq : (0 : ℚ) < (th : ℚ) := by exact_mod_cast hth
  obtain ⟨c1, c2⟩ := resizeDimsExact_cases sw sh tw th hsw hsh
  by_cases h : (tw : ℚ) / (th : ℚ) < (sw : ℚ) / (sh : ℚ)
  · rw [c1 h]
    have hx : (tw : ℚ) * (sh : ℚ) / (sw : ℚ) < (th : ℚ) := by
      rw [div_lt_div_iff₀ hthq hshq] at h
      rw [div_lt_iff₀ hswq]
      linarith
    have h0 : (0 : ℚ) ≤ (tw : ℚ) * (sh : ℚ) / (sw : ℚ) :=
      div_nonneg (mul_nonneg htwq.le hshq.le) hswq.le
    apply fitsCanvas_of_le
    · exact htw.le
    · exact le_refl _
    · exact Int.floor_nonneg.mpr h0
    · have h1 : ((⌊(tw : ℚ) * (sh : ℚ) / (sw : ℚ)⌋ : Int) : ℚ) < (th : ℚ) :=
        lt_of_le_of_lt (Int.floor_le _) hx
      have h2 : ⌊(tw : ℚ) * (sh : ℚ) / (sw : ℚ)⌋ < th := by exact_mod_cast h1
      exact h2.le
  · rw [c2 h]
    have hx : (th : ℚ) * (sw : ℚ) / (sh : ℚ) ≤ (tw : ℚ) := by
      have h' := not_lt.mp h
      rw [div_le_div_iff₀ hshq hthq] at h'
      rw [div_le_iff₀ hshq]
      linarith
    have h0 : (0 : ℚ) ≤ (th : ℚ) * (sw : ℚ) / (sh : ℚ) :=
      div_nonneg (mul_nonneg hthq.le hswq.le) hshq.le
    apply fitsCanvas_of_le
    · exact Int.floor_nonneg.mpr h0
    · have h1 : ((⌊(th : ℚ) * (sw : ℚ) / (sh : ℚ)⌋ : Int) : ℚ) ≤ (tw : ℚ) :=
        le_trans (Int.floor_le _) hx
      exact_mod_cast h1
    · exact hth.le
    · exact le_refl _

/-! ### The guard of the resize block -/

/-- C21: the resize block runs its body as soon as one of `--width` and `--height` is
given and reads both values there. With both given it resizes to them; with exactly one
given it ends in `bad_optional_access` on the absent one, neither resizing nor leaving
the image as it is; with none given the image stays as decoded. So, once one of the two
is given, the block completes exactly when both are. -/
theorem C21_resize_guard (filter : ImageBuf → Int → Int → Int → Int → Int → F32)
    (tool : BrawTool) (imageBuf : ImageBuf) :
    (∀ width height, tool.width = some width → tool.height = some height →
      resizeBlock filter tool imageBuf = .ok (resizeStep filter imageBuf width height)) ∧
    (∀ width, tool.width = some width → tool.height = none →
      resizeBlock filter tool imageBuf = .error .bad_optional_access) ∧
    (∀ height, tool.width = none → tool.height = some height →
      resizeBlock filter tool imageBuf = .error .bad_optional_access) ∧
    (tool.width = none → tool.height = none →
      resizeBlock filter tool imageBuf = .ok imageBuf) ∧
    (tool.width ≠ none ∨ tool.height ≠ none →
      ((∃ out, resizeBlock filter tool imageBuf = .ok out) ↔
        (tool.width ≠ none ∧ tool.height ≠ none))) := by
  refine ⟨?_, ?_, ?_, ?_, ?_⟩
  · intro width height hw hh
    simp [resizeBlock, hw, hh, optionalValue]
  · intro width hw hh
    simp [resizeBlock, hw, hh, optionalValue]
  · intro height hw hh
    simp [resizeBlock, hw, hh, optionalValue]
  · intro hw hh
    simp [resizeBlock, hw, hh]
  · intro _
    cases hw : tool.width with
    | none =>
      cases hh : tool.height with
      | none => simp_all
      | some height => simp [resizeBlock, hw, hh, optionalValue]
    | some width =>
      cases hh : tool.height with
      | none => simp [resizeBlock, hw, hh, optionalValue]
      | some height => simp [resizeBlock, hw, hh, optionalValue]

/-- C21 on the sample image: `--width 1920 --height 1080` resizes, `--width 1920` alone
and `--height 1080` alone end in `bad_optional_access`, no option leaves the image. -/
theorem C21_resize_guard_witness :
    resizeBlock (fun src _ _ _ _ c => src.pixel 0 0 c) (sampleResizeTool (some 1920) (some 1080))
        sampleImage
      = .ok (resizeStep (fun src _ _ _ _ c => src.pixel 0 0 c) sampleImage 1920 1080) ∧
    resizeBlock (fun src _ _ _ _ c => src.pixel 0 0 c) (sampleResizeTool (some 1920) none)
        sampleImage
      = .error .bad_optional_access ∧
    resizeBlock (fun src _ _ _ _ c => src.pixel 0 0 c) (sampleResizeTool none (some 1080))
        sampleImage
      = .error .bad_optional_access ∧
    resizeBlock (fun src _ _ _ _ c => src.pixel 0 0 c) (sampleResizeTool none none)
        sampleImage
      = .ok sampleImage :=
  ⟨(C21_resize_guard _ (sampleResizeTool (some 1920) (some 1080)) sampleImage).1
      1920 1080 rfl rfl,
   (C21_resize_guard _ (sampleResizeTool (some 1920) none) sampleImage).2.1 1920 rfl rfl,
   (C21_resize_guard _ (sampleResizeTool none (some 1080)) sampleImage).2.2.1 1080 rfl rfl,
   (C21_resize_guard _ (sampleResizeTool none none) sampleImage).2.2.2.1 rfl rfl⟩

/-! ### The key an attribute is written under -/

theorem keyAfter_append_singleton (pre : List MetadataEntry) (e : MetadataEntry)
    (attr : String) :
    keyAfter (pre ++ [e]) attr = nextAttribute e.key (keyAfter pre attr) := by
  simp [keyAfter, List.foldl_append]

/-- The local `attribute` is the text of the last key that decoded, and the value it
started from when none did. -/
theorem keyAfter_eq_last_decoded (pre : List MetadataEntry) (attr : String) :
    keyAfter pre attr =
      match pre.reverse.findSome? (fun x => CFStringGetCString x.key m_buffersize) with
      | some k => String.mk k
      | none => attr := by
  induction pre using List.reverseRecOn with
  | nil => rfl
  | append_singleton xs x ih =>
    rw [keyAfter_append_singleton, List.reverse_append, List.reverse_singleton,
      List.singleton_append, List.findSome?_cons, nextAttribute]
    cases CFStringGetCString x.key m_buffersize with
    | some k => rfl
    | none => exact ih

/-- The loop over a prefix whose fetches all succeed hands the rest of the stream the
local `attribute` and the store it has reached. -/
theorem metaDataLoop_of_fetched (fmt : F32 → String) (pre : List MetadataEntry)
    (hpre : ∀ x ∈ pre, x.data ≠ none) (rest : List MetadataEntry) (attr : String)
    (spec : ImageSpec) :
    metaDataLoop fmt (pre ++ rest) attr spec
      = metaDataLoop fmt rest (keyAfter pre attr) (metaDataLoop fmt pre attr spec) := by
  induction pre generalizing attr spec with
  | nil => rfl
  | cons x xs ih =>
    have hx : x.data ≠ none := hpre x (List.mem_cons_self _ _)
    have hxs : ∀ y ∈ xs, y.data ≠ none := fun y hy => hpre y (List.mem_cons_of_mem _ hy)
    cases hd : x.data with
    | none => exact absurd hd hx
    | some value =>
      simp only [List.cons_append, metaDataLoop, hd, keyAfter, List.foldl_cons]
      exact ih hxs _ _

/-- The key decodes exactly when it has a MacRoman encoding and its bytes and the
terminating NUL fit the buffer of 1024 bytes; the text read is then the whole key,
unless the key holds a NUL. -/
theorem CFStringGetCString_key (key : CFString) :
    ((CFStringGetCString key m_buffersize).isSome = true ↔
      key.macRoman = true ∧ key.chars.length < 1024) ∧
    ((∀ c ∈ key.chars, c ≠ Char.ofNat 0) →
      ∀ k, CFStringGetCString key m_buffersize = some k → k = key.chars) := by
  constructor
  · unfold CFStringGetCString m_buffersize
    by_cases h : key.macRoman = true ∧ key.chars.length + 1 ≤ 1024
    · rw [if_pos h]
      simp only [Option.isSome_some, true_iff]
      exact ⟨h.1, by omega⟩
    · rw [if_neg h]
      simp only [Option.isSome_none, Bool.false_eq_true, false_iff]
      intro h2
      exact h ⟨h2.1, by omega⟩
  · intro hnul k hk
    unfold CFStringGetCString at hk
    split_ifs at hk
    have e := (Option.some.inj hk).symm
    rw [e]
    apply List.takeWhile_eq_self_iff.mpr
    intro c hc
    simpa using hnul c hc

/-- C22: in a merge, let the entry `e` be fetched after a prefix `pre` of fetched entries.
If the key of `e` decodes to `k`, the loop writes the value of `e` under `k` and goes on
with `k`; if it does not decode, the local `attribute` keeps its value, the text of the
last key of `pre` that decoded (the empty text when none did, as for a first entry),
and the value of `e` is written under that name. A value the `switch` stores as `v` is
written by `attribute(name, v)`, after which the store holds `v` under that name,
whatever it held there. A key decodes exactly when it has a MacRoman encoding and fits
the buffer of 1024 bytes with its NUL, and the decoded text is the key itself when the
key holds no NUL. -/
theorem C22_write_key (fmt : F32 → String) (pre rest : List MetadataEntry)
    (e : MetadataEntry) (value : Variant) (spec : ImageSpec)
    (hpre : ∀ x ∈ pre, x.data ≠ none) (hdata : e.data = some value) :
    (∀ k, CFStringGetCString e.key m_buffersize = some k →
      metaDataLoop fmt (pre ++ e :: rest) "" spec
        = metaDataLoop fmt rest (String.mk k)
            (storeVariant fmt (String.mk k) value (metaDataLoop fmt pre "" spec))) ∧
    (CFStringGetCString e.key m_buffersize = none →
      metaDataLoop fmt (pre ++ e :: rest) "" spec
        = metaDataLoop fmt rest (keyAfter pre "")
            (storeVariant fmt (keyAfter pre "") value (metaDataLoop fmt pre "" spec))) ∧
    (keyAfter pre "" =
      match pre.reverse.findSome? (fun x => CFStringGetCString x.key m_buffersize) with
      | some k => String.mk k
      | none => "") ∧
    (∀ (name : String) (v : AttrValue) (s : ImageSpec), value.stored fmt = some v →
      storeVariant fmt name value s = s.attribute name v ∧
      (storeVariant fmt name value s).find_attribute name = some v) ∧
    ((CFStringGetCString e.key m_buffersize).isSome = true ↔
      e.key.macRoman = true ∧ e.key.chars.length < 1024) ∧
    ((∀ c ∈ e.key.chars, c ≠ Char.ofNat 0) →
      ∀ k, CFStringGetCString e.key m_buffersize = some k → k = e.key.chars) := by
  refine ⟨?_, ?_, keyAfter_eq_last_decoded pre "", ?_, (CFStringGetCString_key e.key).1,
    (CFStringGetCString_key e.key).2⟩
  · intro k hk
    rw [metaDataLoop_of_fetched fmt pre hpre]
    simp only [metaDataLoop, hdata, nextAttribute_of_decoded _ _ _ hk]
  · intro hk
    rw [metaDataLoop_of_fetched fmt pre hpre]
    simp only [metaDataLoop, hdata, nextAttribute, hk]
  · intro name v s hv
    have h1 : storeVariant fmt name value s = s.attribute name v := by
      rw [storeVariant_eq, hv]
    exact ⟨h1, by rw [h1]; exact ImageSpec.find_attribute_attribute_same _ _ _⟩

/-- C22 on a stream of two entries: `iso` = 800 and then 400 under a key that does not
decode. The second value is written under `iso`, the key decoded before, and takes
the place of 800. -/
theorem C22_write_key_witness :
    CFStringGetCString undecodableEntry.key m_buffersize = none ∧
    keyAfter [⟨isoKey, some (.s32 800)⟩] "" = "iso" ∧
    metaDataLoop (fun _ => "") ([⟨isoKey, some (.s32 800)⟩] ++ undecodableEntry :: []) ""
        ⟨1, 1, 3, []⟩
      = ⟨1, 1, 3, [("iso", .int 400)]⟩ := by
  have hk : CFStringGetCString undecodableEntry.key m_buffersize = none := by decide
  have ha : keyAfter [⟨isoKey, some (.s32 800)⟩] "" = "iso" := by decide
  refine ⟨hk, ha, ?_⟩
  rw [(C22_write_key (fun _ => "") [⟨isoKey, some (.s32 800)⟩] [] undecodableEntry (.s32 400)
    ⟨1, 1, 3, []⟩ (by simp) rfl).2.1 hk, ha]
  decide

/-! ### Rounding against a `float`, and its relative error -/

/-- Of two powers of two, one is a multiple of the other. -/
theorem pow_two_split (a b : Nat) :
    (∃ M, 0 < M ∧ 2 ^ a = 2 ^ b * M) ∨ (∃ M, 2 ≤ M ∧ 2 ^ b = 2 ^ a * M) := by
  rcases Nat.lt_or_ge a b with h | h
  · right
    refine ⟨2 ^ (b - a), ?_, ?_⟩
    · calc 2 = 2 ^ 1 := by norm_num
        _ ≤ 2 ^ (b - a) := Nat.pow_le_pow_right (by decide) (by omega)
    · rw [← pow_add]; congr 1; omega
  · left
    refine ⟨2 ^ (a - b), Nat.pos_pow_of_pos _ (by decide), ?_⟩
    rw [← pow_add]; congr 1; omega

/-- Rounding does not fall below a number `qx * 2 ^ ax / 2 ^ bx` with `qx` of at most 24
bits (a `float`) that the value reaches. -/
theorem rne24_ge_of_float_le (n d qx ax bx : Nat) (hd : 0 < d) (hqx : qx ≤ 2 ^ 24)
    (h : qx * 2 ^ ax * d ≤ n * 2 ^ bx) :
    qx * 2 ^ ax * (rne24 n d).2 ≤ (rne24 n d).1 * 2 ^ bx := by
  have hax : 0 < 2 ^ ax := Nat.pos_pow_of_pos _ (by decide)
  rcases Nat.eq_zero_or_pos n with hn | hn
  · subst hn
    have h0 : qx * 2 ^ ax * d = 0 := by omega
    have h1 : qx = 0 := by
      rcases Nat.eq_zero_or_pos qx with h2 | h2
      · exact h2
      · have := Nat.mul_pos (Nat.mul_pos h2 hax) hd
        omega
    subst h1
    simp
  obtain ⟨q, sn, sd, hr, -, hlo, -, hq, -, -, h6⟩ := rne24_shape n d hn hd
  rw [hr]
  show qx * 2 ^ ax * 2 ^ sn ≤ q * 2 ^ sd * 2 ^ bx
  have hD : 0 < d * 2 ^ sd := Nat.mul_pos hd (Nat.pos_pow_of_pos _ (by decide))
  have hs : qx * 2 ^ (ax + sn) * (d * 2 ^ sd) ≤ n * 2 ^ sn * 2 ^ (sd + bx) := by
    calc qx * 2 ^ (ax + sn) * (d * 2 ^ sd)
        = (qx * 2 ^ ax * d) * (2 ^ sn * 2 ^ sd) := by rw [pow_add]; ring
      _ ≤ (n * 2 ^ bx) * (2 ^ sn * 2 ^ sd) := Nat.mul_le_mul_right _ h
      _ = n * 2 ^ sn * 2 ^ (sd + bx) := by rw [pow_add]; ring
  have hgoal : qx * 2 ^ (ax + sn) ≤ q * 2 ^ (sd + bx) →
      qx * 2 ^ ax * 2 ^ sn ≤ q * 2 ^ sd * 2 ^ bx := by
    intro hg
    calc qx * 2 ^ ax * 2 ^ sn = qx * 2 ^ (ax + sn) := by rw [pow_add]; ring
      _ ≤ q * 2 ^ (sd + bx) := hg
      _ = q * 2 ^ sd * 2 ^ bx := by rw [pow_add]; ring
  apply hgoal
  have hB : 0 < 2 ^ (sd + bx) := Nat.pos_pow_of_pos _ (by decide)
  have hA : 0 < 2 ^ (ax + sn) := Nat.pos_pow_of_pos _ (by decide)
  generalize d * 2 ^ sd = D at hD hs h6 hlo
  generalize n * 2 ^ sn = N at hs h6 hlo
  rcases pow_two_split (ax + sn) (sd + bx) with ⟨M, hM, hAB⟩ | ⟨M, hM, hBA⟩
  · rw [hAB] at hs ⊢
    generalize 2 ^ (sd + bx) = B at hB hs ⊢
    have h1 : (qx * M * D) * B ≤ N * B := by
      calc (qx * M * D) * B = qx * (B * M) * D := by ring
        _ ≤ N * B := hs
    have h2 : qx * M * D ≤ N := Nat.le_of_mul_le_mul_right h1 hB
    have h3 : 2 * (qx * M) * D ≤ (2 * q + 1) * D := by
      calc 2 * (qx * M) * D = 2 * (qx * M * D) := by ring
        _ ≤ 2 * N := Nat.mul_le_mul_left _ h2
        _ ≤ 2 * (q * D) + D := h6
        _ = (2 * q + 1) * D := by ring
    have h4 := Nat.le_of_mul_le_mul_right h3 hD
    have h5 : qx * M ≤ q := by omega
    calc qx * (B * M) = (qx * M) * B := by ring
      _ ≤ q * B := Nat.mul_le_mul_right _ h5
  · rw [hBA]
    generalize 2 ^ (ax + sn) = A at hA ⊢
    have h1 : qx ≤ q * M := by
      calc qx ≤ 2 ^ 24 := hqx
        _ = 2 ^ 23 * 2 := by norm_num
        _ ≤ q * M := Nat.mul_le_mul hq hM
    calc qx * A ≤ (q * M) * A := Nat.mul_le_mul_right _ h1
      _ = q * (A * M) := by ring

/-- Rounding does not rise above a number `qx * 2 ^ ax / 2 ^ bx` with `qx` of at most 24
bits (a `float`) that bounds the value. -/
theorem rne24_le_of_le_float (n d qx ax bx : Nat) (hd : 0 < d) (hqx : qx ≤ 2 ^ 24)
    (h : n * 2 ^ bx ≤ qx * 2 ^ ax * d) :
    (rne24 n d).1 * 2 ^ bx ≤ qx * 2 ^ ax * (rne24 n d).2 := by
  rcases Nat.eq_zero_or_pos n with hn | hn
  · subst hn
    simp [rne24]
  obtain ⟨q, sn, sd, hr, -, hlo, -, hq, -, h5, -⟩ := rne24_shape n d hn hd
  rw [hr]
  show q * 2 ^ sd * 2 ^ bx ≤ qx * 2 ^ ax * 2 ^ sn
  have hD : 0 < d * 2 ^ sd := Nat.mul_pos hd (Nat.pos_pow_of_pos _ (by decide))
  have hs : n * 2 ^ sn * 2 ^ (sd + bx) ≤ qx * 2 ^ (ax + sn) * (d * 2 ^ sd) := by
    calc n * 2 ^ sn * 2 ^ (sd + bx) = (n * 2 ^ bx) * (2 ^ sn * 2 ^ sd) := by
          rw [pow_add]; ring
      _ ≤ (qx * 2 ^ ax * d) * (2 ^ sn * 2 ^ sd) := Nat.mul_le_mul_right _ h
      _ = qx * 2 ^ (ax + sn) * (d * 2 ^ sd) := by rw [pow_add]; ring
  have hgoal : q * 2 ^ (sd + bx) ≤ qx * 2 ^ (ax + sn) →
      q * 2 ^ sd * 2 ^ bx ≤ qx * 2 ^ ax * 2 ^ sn := by
    intro hg
    calc q * 2 ^ sd * 2 ^ bx = q * 2 ^ (sd + bx) := by rw [pow_add]; ring
      _ ≤ qx * 2 ^ (ax + sn) := hg
      _ = qx * 2 ^ ax * 2 ^ sn := by rw [pow_add]; ring
  apply hgoal
  have hB : 0 < 2 ^ (sd + bx) := Nat.pos_pow_of_pos _ (by decide)
  have hA : 0 < 2 ^ (ax + sn) := Nat.pos_pow_of_pos _ (by decide)
  generalize d * 2 ^ sd = D at hD hs h5 hlo
  generalize n * 2 ^ sn = N at hs h5 hlo
  rcases pow_two_split (ax + sn) (sd + bx) with ⟨M, hM, hAB⟩ | ⟨M, hM, hBA⟩
  · rw [hAB] at hs ⊢
    generalize 2 ^ (sd + bx) = B at hB hs ⊢
    have h1 : N * B ≤ (qx * M * D) * B := by
      calc N * B ≤ qx * (B * M) * D := hs
        _ = (qx * M * D) * B := by ring
    have h2 : N ≤ qx * M * D := Nat.le_of_mul_le_mul_right h1 hB
    have h3 : 2 * q * D ≤ (2 * (qx * M) + 1) * D := by
      calc 2 * q * D = 2 * (q * D) := by ring
        _ ≤ 2 * N + D := h5
        _ ≤ 2 * (qx * M * D) + D := by omega
        _ = (2 * (qx * M) + 1) * D := by ring
    have h4 := Nat.le_of_mul_le_mul_right h3 hD
    have h6 : q ≤ qx * M := by omega
    calc q * B ≤ (qx * M) * B := Nat.mul_le_mul_right _ h6
      _ = qx * (B * M) := by ring
  · rw [hBA] at hs ⊢
    generalize 2 ^ (ax + sn) = A at hA hs ⊢
    -- `2 ^ 23 * D ≤ N` and `N * M ≤ qx * D` force `M = 2` and `qx = 2 ^ 24`
    have h1 : (N * M) * A ≤ (qx * D) * A := by
      calc (N * M) * A = N * (A * M) := by ring
        _ ≤ qx * A * D := hs
        _ = (qx * D) * A := by ring
    have h2 : N * M ≤ qx * D := Nat.le_of_mul_le_mul_right h1 hA
    have h3 : (2 ^ 23 * M) * D ≤ qx * D := by
      calc (2 ^ 23 * M) * D = (2 ^ 23 * D) * M := by ring
        _ ≤ N * M := Nat.mul_le_mul_right _ hlo
        _ ≤ qx * D := h2
    have h4 : 2 ^ 23 * M ≤ qx := Nat.le_of_mul_le_mul_right h3 hD
    have hM2 : M = 2 := by omega
    subst hM2
    have hqx2 : qx = 2 ^ 24 := by omega
    subst hqx2
    have h6 : 4 * q * D ≤ (2 ^ 25 + 2) * D := by
      calc 4 * q * D = 2 * (2 * (q * D)) := by ring
        _ ≤ 2 * (2 * N + D) := Nat.mul_le_mul_left _ h5
        _ = 2 * (N * 2) + 2 * D := by ring
        _ ≤ 2 * (2 ^ 24 * D) + 2 * D := by omega
        _ = (2 ^ 25 + 2) * D := by ring
    have h7 := Nat.le_of_mul_le_mul_right h6 hD
    have h8 : q ≤ 2 ^ 23 := by omega
    calc q * (A * 2) = (q * 2) * A := by ring
      _ ≤ 2 ^ 24 * A := Nat.mul_le_mul_right _ (by omega)

/-- The relative error of rounding is at most `2 ^ -24`. -/
theorem rne24_rel (n d : Nat) (hd : 0 < d) :
    (2 ^ 24 - 1) * (n * (rne24 n d).2) ≤ 2 ^ 24 * ((rne24 n d).1 * d) ∧
    2 ^ 24 * ((rne24 n d).1 * d) ≤ (2 ^ 24 + 1) * (n * (rne24 n d).2) := by
  rcases Nat.eq_zero_or_pos n with hn | hn
  · subst hn
    simp [rne24]
  obtain ⟨q, sn, sd, hr, -, hlo, -, -, -, h5, h6⟩ := rne24_shape n d hn hd
  rw [hr]
  show (2 ^ 24 - 1) * (n * 2 ^ sn) ≤ 2 ^ 24 * (q * 2 ^ sd * d) ∧
    2 ^ 24 * (q * 2 ^ sd * d) ≤ (2 ^ 24 + 1) * (n * 2 ^ sn)
  have e : q * 2 ^ sd * d = q * (d * 2 ^ sd) := by ring
  rw [e]
  generalize d * 2 ^ sd = D at hlo h5 h6 ⊢
  generalize n * 2 ^ sn = N at hlo h5 h6 ⊢
  generalize q * D = Q at h5 h6 ⊢
  constructor <;> omega

/-- The value of a rounded fraction that is not negative, from the parts of `rne24`. -/
theorem F32.round_val (n : Int) (d : Nat) (hn : 0 ≤ n) :
    (F32.round n d).val
      = ((rne24 n.natAbs d).1 : ℚ) / ((rne24 n.natAbs d).2 : ℚ) := by
  have h1 : ¬ n < 0 := not_lt.mpr hn
  simp only [F32.round, F32.val, h1, if_false, one_mul]
  push_cast
  rfl

/-- Rounding keeps a relative error of at most `2 ^ -24`. -/
theorem F32.round_val_rel (n : Int) (d : Nat) (hn : 0 ≤ n) (hd : 0 < d) :
    (n : ℚ) / (d : ℚ) * (1 - 1 / 2 ^ 24) ≤ (F32.round n d).val ∧
    (F32.round n d).val ≤ (n : ℚ) / (d : ℚ) * (1 + 1 / 2 ^ 24) := by
  rw [F32.round_val n d hn]
  obtain ⟨h1, h2⟩ := rne24_rel n.natAbs d hd
  have hp := rne24_snd_pos n.natAbs d
  have hnabs : ((n.natAbs : Nat) : ℚ) = (n : ℚ) := by
    rw [← Int.cast_natCast, Int.natAbs_of_nonneg hn]
  generalize (rne24 n.natAbs d).1 = a at h1 h2 ⊢
  generalize (rne24 n.natAbs d).2 = b at h1 h2 hp ⊢
  have hdq : (0 : ℚ) < (d : ℚ) := by exact_mod_cast hd
  have hbq : (0 : ℚ) < (b : ℚ) := by exact_mod_cast hp
  have h1q : ((2 : ℚ) ^ 24 - 1) * ((n : ℚ) * (b : ℚ)) ≤ 2 ^ 24 * ((a : ℚ) * (d : ℚ)) := by
    rw [← hnabs]
    have : (((2 ^ 24 - 1) * (n.natAbs * b) : Nat) : ℚ) ≤ ((2 ^ 24 * (a * d) : Nat) : ℚ) := by
      exact_mod_cast h1
    push_cast at this
    norm_num at this ⊢
    linarith
  have h2q : (2 : ℚ) ^ 24 * ((a : ℚ) * (d : ℚ)) ≤ (2 ^ 24 + 1) * ((n : ℚ) * (b : ℚ)) := by
    rw [← hnabs]
    have : ((2 ^ 24 * (a * d) : Nat) : ℚ) ≤ (((2 ^ 24 + 1) * (n.natAbs * b) : Nat) : ℚ) := by
      exact_mod_cast h2
    push_cast at this
    norm_num at this ⊢
    linarith
  constructor
  · rw [le_div_iff₀ hbq, div_mul_eq_mul_div, div_mul_eq_mul_div, div_le_iff₀ hdq]
    norm_num at h1q ⊢
    nlinarith
  · rw [div_le_iff₀ hbq, div_mul_eq_mul_div, div_mul_eq_mul_div, le_div_iff₀ hdq]
    norm_num at h2q ⊢
    nlinarith

/-- Two fractions of natural numbers compare as their cross products. -/
theorem natfrac_le (a b c d : Nat) (hb : 0 < b) (hd : 0 < d) :
    (a : ℚ) / (b : ℚ) ≤ (c : ℚ) / (d : ℚ) ↔ a * d ≤ c * b := by
  have hbq : (0 : ℚ) < (b : ℚ) := by exact_mod_cast hb
  have hdq : (0 : ℚ) < (d : ℚ) := by exact_mod_cast hd
  rw [div_le_div_iff₀ hbq hdq]
  constructor
  · intro h
    exact_mod_cast h
  · intro h
    exact_mod_cast h

theorem natAbs_cast_of_nonneg (n : Int) (hn : 0 ≤ n) : ((n.natAbs : Nat) : ℚ) = (n : ℚ) := by
  rw [← Int.cast_natCast, Int.natAbs_of_nonneg hn]

/-- A rounded fraction does not rise above an integer of at most 24 bits that bounds the
fraction. -/
theorem F32.round_val_le_int (n : Int) (d : Nat) (hn : 0 ≤ n) (hd : 0 < d) (k : Int)
    (hk0 : 0 ≤ k) (hk : k ≤ 2 ^ 24) (h : (n : ℚ) / (d : ℚ) ≤ (k : ℚ)) :
    (F32.round n d).val ≤ (k : ℚ) := by
  rw [F32.round_val n d hn]
  have hp := rne24_snd_pos n.natAbs d
  have hkb : k.natAbs ≤ 2 ^ 24 := by omega
  rw [← natAbs_cast_of_nonneg n hn, ← natAbs_cast_of_nonneg k hk0] at h
  rw [← natAbs_cast_of_nonneg k hk0]
  have h1 : n.natAbs ≤ k.natAbs * d := by
    have := (natfrac_le n.natAbs d k.natAbs 1 hd (by decide)).mp (by simpa using h)
    simpa using this
  have h2 := rne24_le_of_ge n.natAbs d k.natAbs hd hkb h1
  have := (natfrac_le (rne24 n.natAbs d).1 (rne24 n.natAbs d).2 k.natAbs 1 hp
    (by decide)).mpr (by simpa using h2)
  simpa using this

/-- A rounded fraction does not fall below an integer of at most 24 bits that the
fraction reaches. -/
theorem F32.round_val_ge_int (n : Int) (d : Nat) (hn : 0 ≤ n) (hd : 0 < d) (k : Int)
    (hk0 : 0 ≤ k) (hk : k ≤ 2 ^ 24) (h : (k : ℚ) ≤ (n : ℚ) / (d : ℚ)) :
    (k : ℚ) ≤ (F32.round n d).val := by
  rw [F32.round_val n d hn]
  have hp := rne24_snd_pos n.natAbs d
  have hkb : k.natAbs ≤ 2 ^ 24 := by omega
  rw [← natAbs_cast_of_nonneg n hn, ← natAbs_cast_of_nonneg k hk0] at h
  rw [← natAbs_cast_of_nonneg k hk0]
  have h1 : k.natAbs * d ≤ n.natAbs := by
    have := (natfrac_le k.natAbs 1 n.natAbs d (by decide) hd).mp (by simpa using h)
    simpa using this
  have h2 := rne24_ge_of_le n.natAbs d k.natAbs hd hkb h1
  have := (natfrac_le k.natAbs 1 (rne24 n.natAbs d).1 (rne24 n.natAbs d).2 (by decide)
    hp).mpr (by simpa using h2)
  simpa using this

/-- A rounded fraction does not rise above `k + 1 / 2`, for an integer `k` of less than
23 bits, when the fraction does not. -/
theorem F32.round_val_le_half (n : Int) (d : Nat) (hn : 0 ≤ n) (hd : 0 < d) (k : Int)
    (hk0 : 0 ≤ k) (hk : k < 2 ^ 23) (h : (n : ℚ) / (d : ℚ) ≤ (k : ℚ) + 1 / 2) :
    (F32.round n d).val ≤ (k : ℚ) + 1 / 2 := by
  rw [F32.round_val n d hn]
  have hp := rne24_snd_pos n.natAbs d
  have hkb : 2 * k.natAbs + 1 ≤ 2 ^ 24 := by omega
  have e : (k : ℚ) + 1 / 2 = ((2 * k.natAbs + 1 : Nat) : ℚ) / ((2 : Nat) : ℚ) := by
    rw [← natAbs_cast_of_nonneg k hk0]
    push_cast
    ring
  rw [e] at h ⊢
  rw [← natAbs_cast_of_nonneg n hn] at h
  have h1 := (natfrac_le n.natAbs d (2 * k.natAbs + 1) 2 hd (by decide)).mp h
  have h2 := rne24_le_of_le_float n.natAbs d (2 * k.natAbs + 1) 0 1 hd hkb
    (by simpa using h1)
  exact (natfrac_le (rne24 n.natAbs d).1 (rne24 n.natAbs d).2 (2 * k.natAbs + 1) 2 hp
    (by decide)).mpr (by simpa using h2)

/-- A `float` that the fraction `n / d` reaches stays at or below the rounded fraction:
rounding is monotone at the values of `float`. -/
theorem F32.round_val_mono (m : Int) (c : Nat) (n : Int) (d : Nat) (hm : 0 ≤ m)
    (hc : 0 < c) (hn : 0 ≤ n) (hd : 0 < d)
    (h : (F32.round m c).val ≤ (n : ℚ) / (d : ℚ)) :
    (F32.round m c).val ≤ (F32.round n d).val := by
  rw [F32.round_val m c hm] at h ⊢
  rw [F32.round_val n d hn]
  rw [← natAbs_cast_of_nonneg n hn] at h
  have hp := rne24_snd_pos n.natAbs d
  rcases Nat.eq_zero_or_pos m.natAbs with h0 | h0
  · rw [h0]
    have e : rne24 0 c = (0, 1) := by simp [rne24]
    rw [e]
    simp only [Nat.cast_zero, zero_div]
    exact div_nonneg (Nat.cast_nonneg _) (Nat.cast_nonneg _)
  obtain ⟨q, sn, sd, hr, -, -, -, -, hq, -, -⟩ := rne24_shape m.natAbs c h0 hc
  rw [hr] at h ⊢
  have hsn : 0 < 2 ^ sn := Nat.pos_pow_of_pos _ (by decide)
  have h1 := (natfrac_le (q * 2 ^ sd) (2 ^ sn) n.natAbs d hsn hd).mp h
  have h2 := rne24_ge_of_float_le n.natAbs d q sd sn hd hq h1
  exact (natfrac_le (q * 2 ^ sd) (2 ^ sn) (rne24 n.natAbs d).1 (rne24 n.natAbs d).2 hsn
    hp).mpr h2

/-- The conversion of a size of at most 24 bits to `float` is exact. -/
theorem F32.ofInt_val (i : Int) (h0 : 0 ≤ i) (hi : i ≤ 2 ^ 24) : (F32.ofInt i).val = (i : ℚ) := by
  apply le_antisymm
  · exact F32.round_val_le_int i 1 h0 (by decide) i h0 hi (by simp)
  · exact F32.round_val_ge_int i 1 h0 (by decide) i h0 hi (by simp)

theorem F32.num_pos_of_val_pos (a : F32) (hd : 0 < a.den) (h : 0 < a.val) : 0 < a.num := by
  have hdq : (0 : ℚ) < (a.den : ℚ) := by exact_mod_cast hd
  unfold F32.val at h
  have h1 : (0 : ℚ) < (a.num : ℚ) := by
    by_contra hc
    have h2 : (a.num : ℚ) ≤ 0 := not_lt.mp hc
    have := div_nonpos_of_nonpos_of_nonneg h2 hdq.le
    linarith
  exact_mod_cast h1

/-- The quotient of two `float`s, the divisor positive, is the rounded quotient of their
values. -/
theorem F32.div_eq_round (a b : F32) (ha : 0 < a.den) (hb : 0 < b.num) (hbd : 0 < b.den) :
    F32.div a b = F32.round (a.num * (b.den : Int)) (a.den * b.num.natAbs) ∧
    0 < a.den * b.num.natAbs ∧
    ((a.num * (b.den : Int) : Int) : ℚ) / ((a.den * b.num.natAbs : Nat) : ℚ)
      = a.val / b.val := by
  have hs : Int.sign b.num = 1 := Int.sign_eq_one_of_pos hb
  have hn : 0 < b.num.natAbs := Int.natAbs_pos.mpr (ne_of_gt hb)
  refine ⟨?_, Nat.mul_pos ha hn, ?_⟩
  · simp only [F32.div, hs, mul_one]
  · have haq : (a.den : ℚ) ≠ 0 := by exact_mod_cast (ne_of_gt ha)
    have hbq : (b.den : ℚ) ≠ 0 := by exact_mod_cast (ne_of_gt hbd)
    have hbn : (b.num : ℚ) ≠ 0 := by exact_mod_cast (ne_of_gt hb)
    have e : ((b.num.natAbs : Nat) : ℚ) = (b.num : ℚ) := natAbs_cast_of_nonneg _ hb.le
    unfold F32.val
    push_cast
    rw [e]
    field_simp

/-- The product of two `float`s is the rounded product of their values. -/
theorem F32.mul_eq_round (a b : F32) (ha : 0 < a.den) (hbd : 0 < b.den) :
    F32.mul a b = F32.round (a.num * b.num) (a.den * b.den) ∧
    0 < a.den * b.den ∧
    ((a.num * b.num : Int) : ℚ) / ((a.den * b.den : Nat) : ℚ) = a.val * b.val := by
  refine ⟨rfl, Nat.mul_pos ha hbd, ?_⟩
  have haq : (a.den : ℚ) ≠ 0 := by exact_mod_cast (ne_of_gt ha)
  have hbq : (b.den : ℚ) ≠ 0 := by exact_mod_cast (ne_of_gt hbd)
  unfold F32.val
  push_cast
  field_simp

/-- Two roundings, of a ratio and of a quotient by it, stay within `2 ^ -22` of the exact
quotient. -/
theorem two_roundings_div (a t r q : ℚ) (ha : 0 < a) (ht : 0 ≤ t)
    (hr1 : a * (1 - 1 / 2 ^ 24) ≤ r) (hr2 : r ≤ a * (1 + 1 / 2 ^ 24))
    (hq1 : t / r * (1 - 1 / 2 ^ 24) ≤ q) (hq2 : q ≤ t / r * (1 + 1 / 2 ^ 24)) :
    t / a * (1 - 1 / 2 ^ 22) ≤ q ∧ q ≤ t / a * (1 + 1 / 2 ^ 22) := by
  have hr : 0 < r := lt_of_lt_of_le (mul_pos ha (by norm_num)) hr1
  obtain ⟨u, hu, rfl⟩ : ∃ u : ℚ, 0 ≤ u ∧ t = u * a :=
    ⟨t / a, div_nonneg ht ha.le, by field_simp⟩
  have e : u * a / a = u := by field_simp
  rw [e]
  have h1 : u * (a * (1 - 1 / 2 ^ 24)) ≤ u * r := mul_le_mul_of_nonneg_left hr1 hu
  have h2 : u * r ≤ u * (a * (1 + 1 / 2 ^ 24)) := mul_le_mul_of_nonneg_left hr2 hu
  have h3 : 0 ≤ u * a := mul_nonneg hu ha.le
  constructor
  · refine le_trans ?_ hq1
    rw [div_mul_eq_mul_div, le_div_iff₀ hr]
    norm_num at h1 h2 ⊢
    nlinarith
  · refine le_trans hq2 ?_
    rw [div_mul_eq_mul_div, div_le_iff₀ hr]
    norm_num at h1 h2 ⊢
    nlinarith

/-- Two roundings, of a ratio and of a product with it, stay within `2 ^ -22` of the exact
product. -/
theorem two_roundings_mul (a t r p : ℚ) (ha : 0 < a) (ht : 0 ≤ t)
    (hr1 : a * (1 - 1 / 2 ^ 24) ≤ r) (hr2 : r ≤ a * (1 + 1 / 2 ^ 24))
    (hp1 : t * r * (1 - 1 / 2 ^ 24) ≤ p) (hp2 : p ≤ t * r * (1 + 1 / 2 ^ 24)) :
    t * a * (1 - 1 / 2 ^ 22) ≤ p ∧ p ≤ t * a * (1 + 1 / 2 ^ 22) := by
  have h1 : t * (a * (1 - 1 / 2 ^ 24)) ≤ t * r := mul_le_mul_of_nonneg_left hr1 ht
  have h2 : t * r ≤ t * (a * (1 + 1 / 2 ^ 24)) := mul_le_mul_of_nonneg_left hr2 ht
  have h3 : 0 ≤ t * a := mul_nonneg ht ha.le
  constructor
  · refine le_trans ?_ hp1
    norm_num at h1 h2 ⊢
    nlinarith
  · refine le_trans hp2 ?_
    norm_num at h1 h2 ⊢
    nlinarith

theorem F32.round_num_pos (n : Int) (d : Nat) (hn : 0 < n) (hd : 0 < d) :
    0 < (F32.round n d).num := by
  apply F32.num_pos_of_val_pos _ (F32.round_den_pos n d)
  have h := (F32.round_val_rel n d hn.le hd).1
  have hnq : (0 : ℚ) < (n : ℚ) := by exact_mod_cast hn
  have hdq : (0 : ℚ) < (d : ℚ) := by exact_mod_cast hd
  have h1 : (0 : ℚ) < (n : ℚ) / (d : ℚ) * (1 - 1 / 2 ^ 24) :=
    mul_pos (div_pos hnq hdq) (by norm_num)
  linarith

theorem F32.ofInt_num_pos (i : Int) (hi : 0 < i) : 0 < (F32.ofInt i).num :=
  F32.round_num_pos i 1 hi (by decide)

theorem F32.div_num_pos (a b : F32) (ha : 0 < a.num) (had : 0 < a.den) (hb : 0 < b.num)
    (hbd : 0 < b.den) : 0 < (F32.div a b).num := by
  obtain ⟨e, hd, -⟩ := F32.div_eq_round a b had hb hbd
  rw [e]
  exact F32.round_num_pos _ _ (mul_pos ha (by exact_mod_cast hbd)) hd

theorem F32.val_pos (a : F32) (hn : 0 < a.num) (hd : 0 < a.den) : 0 < a.val := by
  unfold F32.val
  exact div_pos (by exact_mod_cast hn) (by exact_mod_cast hd)

/-- The `float` quotient keeps a relative error of at most `2 ^ -24`. -/
theorem F32.div_val_rel (a b : F32) (ha : 0 ≤ a.num) (had : 0 < a.den) (hb : 0 < b.num)
    (hbd : 0 < b.den) :
    a.val / b.val * (1 - 1 / 2 ^ 24) ≤ (F32.div a b).val ∧
    (F32.div a b).val ≤ a.val / b.val * (1 + 1 / 2 ^ 24) := by
  obtain ⟨e, hd, f⟩ := F32.div_eq_round a b had hb hbd
  have h := F32.round_val_rel (a.num * (b.den : Int)) (a.den * b.num.natAbs)
    (mul_nonneg ha (Int.natCast_nonneg _)) hd
  rw [f, ← e] at h
  exact h

/-- The `float` product keeps a relative error of at most `2 ^ -24`. -/
theorem F32.mul_val_rel (a b : F32) (ha : 0 ≤ a.num) (had : 0 < a.den) (hb : 0 ≤ b.num)
    (hbd : 0 < b.den) :
    a.val * b.val * (1 - 1 / 2 ^ 24) ≤ (F32.mul a b).val ∧
    (F32.mul a b).val ≤ a.val * b.val * (1 + 1 / 2 ^ 24) := by
  obtain ⟨e, hd, f⟩ := F32.mul_eq_round a b had hbd
  have h := F32.round_val_rel (a.num * b.num) (a.den * b.den) (mul_nonneg ha hb) hd
  rw [f, ← e] at h
  exact h

/-- The `float` quotient does not rise above an integer of at most 24 bits that bounds
the exact quotient. -/
theorem F32.div_val_le_int (a b : F32) (ha : 0 ≤ a.num) (had : 0 < a.den) (hb : 0 < b.num)
    (hbd : 0 < b.den) (k : Int) (hk0 : 0 ≤ k) (hk : k ≤ 2 ^ 24)
    (h : a.val / b.val ≤ (k : ℚ)) : (F32.div a b).val ≤ (k : ℚ) := by
  obtain ⟨e, hd, f⟩ := F32.div_eq_round a b had hb hbd
  rw [e]
  apply F32.round_val_le_int _ _ (mul_nonneg ha (Int.natCast_nonneg _)) hd k hk0 hk
  rw [f]
  exact h

/-- A `float` quotient that the exact quotient of two other `float`s reaches stays at or
below their `float` quotient. -/
theorem F32.div_val_mono (c e a b : F32) (hc : 0 ≤ c.num) (hcd : 0 < c.den) (he : 0 < e.num)
    (hed : 0 < e.den) (ha : 0 ≤ a.num) (had : 0 < a.den) (hb : 0 < b.num) (hbd : 0 < b.den)
    (h : (F32.div c e).val ≤ a.val / b.val) : (F32.div c e).val ≤ (F32.div a b).val := by
  obtain ⟨e1, hd1, -⟩ := F32.div_eq_round c e hcd he hed
  obtain ⟨e2, hd2, f2⟩ := F32.div_eq_round a b had hb hbd
  rw [e1] at h ⊢
  rw [e2]
  apply F32.round_val_mono _ _ _ _ (mul_nonneg hc (Int.natCast_nonneg _)) hd1
    (mul_nonneg ha (Int.natCast_nonneg _)) hd2
  rw [f2]
  exact h

/-- The `float` product does not rise above `k + 1 / 2`, for an integer `k` of less than
23 bits, when the exact product does not. -/
theorem F32.mul_val_le_half (a b : F32) (ha : 0 ≤ a.num) (had : 0 < a.den) (hb : 0 ≤ b.num)
    (hbd : 0 < b.den) (k : Int) (hk0 : 0 ≤ k) (hk : k < 2 ^ 23)
    (h : a.val * b.val ≤ (k : ℚ) + 1 / 2) : (F32.mul a b).val ≤ (k : ℚ) + 1 / 2 := by
  obtain ⟨e, hd, f⟩ := F32.mul_eq_round a b had hbd
  rw [e]
  apply F32.round_val_le_half _ _ (mul_nonneg ha hb) hd k hk0 hk
  rw [f]
  exact h

/-- The size the resize block computes, by the comparison of the two `float` ratios. -/
theorem resizeDims_cases (sw sh tw th : Int)
    (hsw : 0 < sw) (hsh : 0 < sh) (htw : 0 < tw) (hth : 0 < th) :
    (F32.val (F32.div (F32.ofInt tw) (F32.ofInt th))
        < F32.val (F32.div (F32.ofInt sw) (F32.ofInt sh)) →
      resizeDims sw sh tw th =
        (tw, ⌊F32.val (F32.div (F32.ofInt tw) (F32.div (F32.ofInt sw) (F32.ofInt sh)))⌋)) ∧
    (F32.val (F32.div (F32.ofInt sw) (F32.ofInt sh))
        ≤ F32.val (F32.div (F32.ofInt tw) (F32.ofInt th)) →
      resizeDims sw sh tw th =
        (⌊F32.val (F32.mul (F32.ofInt th) (F32.div (F32.ofInt sw) (F32.ofInt sh)))⌋, th)) := by
  have har : 0 ≤ (F32.div (F32.ofInt sw) (F32.ofInt sh)).num :=
    F32.div_num_nonneg _ _ (F32.ofInt_num_nonneg _ hsw.le) (F32.ofInt_num_nonneg _ hsh.le)
  have hgt := F32.gt_iff (F32.div (F32.ofInt sw) (F32.ofInt sh))
    (F32.div (F32.ofInt tw) (F32.ofInt th)) (F32.div_den_pos _ _) (F32.div_den_pos _ _)
  constructor
  · intro h
    have hg := hgt.mpr h
    simp only [resizeDims, hg, if_true]
    rw [F32.toInt_eq_floor _ (F32.div_num_nonneg _ _ (F32.ofInt_num_nonneg _ htw.le) har)]
  · intro h
    have hg : F32.gt (F32.div (F32.ofInt sw) (F32.ofInt sh))
        (F32.div (F32.ofInt tw) (F32.ofInt th)) = false := by
      rw [Bool.eq_false_iff]
      intro hc
      exact absurd (hgt.mp hc) (not_lt.mpr h)
    simp only [resizeDims, hg]
    rw [F32.toInt_eq_floor _ (F32.mul_num_nonneg _ _ (F32.ofInt_num_nonneg _ hth.le) har)]
    simp

/-! ### The aspect ratio and the canvas, as the `float` code computes them -/

/-- The `float` ratio of two sizes of at most 24 bits is positive and within `2 ^ -24`
of the exact ratio. -/
theorem aspectratio_rel (sw sh : Int) (hsw : 0 < sw) (hsh : 0 < sh) (bsw : sw ≤ 2 ^ 24)
    (bsh : sh ≤ 2 ^ 24) :
    (sw : ℚ) / (sh : ℚ) * (1 - 1 / 2 ^ 24) ≤ (F32.div (F32.ofInt sw) (F32.ofInt sh)).val ∧
    (F32.div (F32.ofInt sw) (F32.ofInt sh)).val ≤ (sw : ℚ) / (sh : ℚ) * (1 + 1 / 2 ^ 24) := by
  have h := F32.div_val_rel (F32.ofInt sw) (F32.ofInt sh) (F32.ofInt_num_pos sw hsw).le
    (F32.ofInt_den_pos sw) (F32.ofInt_num_pos sh hsh) (F32.ofInt_den_pos sh)
  rw [F32.ofInt_val sw hsw.le bsw, F32.ofInt_val sh hsh.le bsh] at h
  exact h

/-- C17, as the code has it: for sizes of at most `2 ^ 24`, with the case decided by the
two single precision ratios, the resized region keeps the aspect ratio of the source to
within one pixel of truncation and the relative error `2 ^ -22` of the two `float`
roundings. When the source ratio is the greater one the region is `tw` wide and its
height `rh` has `tw * sh / sw * (1 - 2 ^ -22) - 1 < rh ≤ tw * sh / sw * (1 + 2 ^ -22)`;
otherwise the region is `th` high and its width `rw` has
`th * sw / sh * (1 - 2 ^ -22) - 1 < rw ≤ th * sw / sh * (1 + 2 ^ -22)`. -/
theorem C17_aspect_single_precision (sw sh tw th : Int)
    (hsw : 0 < sw) (hsh : 0 < sh) (htw : 0 < tw) (hth : 0 < th)
    (bsw : sw ≤ 2 ^ 24) (bsh : sh ≤ 2 ^ 24) (btw : tw ≤ 2 ^ 24) (bth : th ≤ 2 ^ 24) :
    (F32.val (F32.div (F32.ofInt tw) (F32.ofInt th))
        < F32.val (F32.div (F32.ofInt sw) (F32.ofInt sh)) →
      (resizeDims sw sh tw th).1 = tw ∧
      (tw : ℚ) * (sh : ℚ) / (sw : ℚ) * (1 - 1 / 2 ^ 22) - 1
        < ((resizeDims sw sh tw th).2 : ℚ) ∧
      ((resizeDims sw sh tw th).2 : ℚ)
        ≤ (tw : ℚ) * (sh : ℚ) / (sw : ℚ) * (1 + 1 / 2 ^ 22)) ∧
    (F32.val (F32.div (F32.ofInt sw) (F32.ofInt sh))
        ≤ F32.val (F32.div (F32.ofInt tw) (F32.ofInt th)) →
      (resizeDims sw sh tw th).2 = th ∧
      (th : ℚ) * (sw : ℚ) / (sh : ℚ) * (1 - 1 / 2 ^ 22) - 1
        < ((resizeDims sw sh tw th).1 : ℚ) ∧
      ((resizeDims sw sh tw th).1 : ℚ)
        ≤ (th : ℚ) * (sw : ℚ) / (sh : ℚ) * (1 + 1 / 2 ^ 22)) := by
  have hswq : (0 : ℚ) < (sw : ℚ) := by exact_mod_cast hsw
  have hshq : (0 : ℚ) < (sh : ℚ) := by exact_mod_cast hsh
  have htwq : (0 : ℚ) < (tw : ℚ) := by exact_mod_cast htw
  have hthq : (0 : ℚ) < (th : ℚ) := by exact_mod_cast hth
  obtain ⟨c1, c2⟩ := resizeDims_cases sw sh tw th hsw hsh htw hth
  obtain ⟨r1, r2⟩ := aspectratio_rel sw sh hsw hsh bsw bsh
  have nar : 0 < (F32.div (F32.ofInt sw) (F32.ofInt sh)).num :=
    F32.div_num_pos _ _ (F32.ofInt_num_pos sw hsw) (F32.ofInt_den_pos sw)
      (F32.ofInt_num_pos sh hsh) (F32.ofInt_den_pos sh)
  have dar : 0 < (F32.div (F32.ofInt sw) (F32.ofInt sh)).den := F32.div_den_pos _ _
  constructor
  · intro h
    rw [c1 h]
    have hq := F32.div_val_rel (F32.ofInt tw) (F32.div (F32.ofInt sw) (F32.ofInt sh))
      (F32.ofInt_num_pos tw htw).le (F32.ofInt_den_pos tw) nar dar
    rw [F32.ofInt_val tw htw.le btw] at hq
    obtain ⟨b1, b2⟩ := two_roundings_div ((sw : ℚ) / (sh : ℚ)) (tw : ℚ) _ _
      (div_pos hswq hshq) htwq.le r1 r2 hq.1 hq.2
    have e : (tw : ℚ) / ((sw : ℚ) / (sh : ℚ)) = (tw : ℚ) * (sh : ℚ) / (sw : ℚ) := by
      field_simp
    rw [e] at b1 b2
    generalize F32.val (F32.div (F32.ofInt tw) (F32.div (F32.ofInt sw) (F32.ofInt sh))) = Q
      at b1 b2 ⊢
    have f1 := Int.floor_le Q
    have f2 := Int.lt_floor_add_one Q
    refine ⟨rfl, ?_, ?_⟩
    · show _ < ((⌊Q⌋ : Int) : ℚ)
      linarith
    · show ((⌊Q⌋ : Int) : ℚ) ≤ _
      linarith
  · intro h
    rw [c2 h]
    have hp := F32.mul_val_rel (F32.ofInt th) (F32.div (F32.ofInt sw) (F32.ofInt sh))
      (F32.ofInt_num_pos th hth).le (F32.ofInt_den_pos th) nar.le dar
    rw [F32.ofInt_val th hth.le bth] at hp
    obtain ⟨b1, b2⟩ := two_roundings_mul ((sw : ℚ) / (sh : ℚ)) (th : ℚ) _ _
      (div_pos hswq hshq) hthq.le r1 r2 hp.1 hp.2
    have e : (th : ℚ) * ((sw : ℚ) / (sh : ℚ)) = (th : ℚ) * (sw : ℚ) / (sh : ℚ) := by
      field_simp
    rw [e] at b1 b2
    generalize F32.val (F32.mul (F32.ofInt th) (F32.div (F32.ofInt sw) (F32.ofInt sh))) = P
      at b1 b2 ⊢
    have f1 := Int.floor_le P
    have f2 := Int.lt_floor_add_one P
    refine ⟨rfl, ?_, ?_⟩
    · show _ < ((⌊P⌋ : Int) : ℚ)
      linarith
    · show ((⌊P⌋ : Int) : ℚ) ≤ _
      linarith

/-- C17 at 6144 x 2560 into 1920 x 1080: the region is 1920 wide and its 799 rows lie
within the bounds around `1920 * 2560 / 6144 = 800`. -/
theorem C17_aspect_single_precision_witness :
    resizeDims 6144 2560 1920 1080 = (1920, 799) ∧
    (resizeDims 6144 2560 1920 1080).1 = 1920 ∧
    ((1920 : Int) : ℚ) * ((2560 : Int) : ℚ) / ((6144 : Int) : ℚ) * (1 - 1 / 2 ^ 22) - 1
      < ((resizeDims 6144 2560 1920 1080).2 : ℚ) ∧
    ((resizeDims 6144 2560 1920 1080).2 : ℚ)
      ≤ ((1920 : Int) : ℚ) * ((2560 : Int) : ℚ) / ((6144 : Int) : ℚ) * (1 + 1 / 2 ^ 22) := by
  have hc : F32.val (F32.div (F32.ofInt 1920) (F32.ofInt 1080))
      < F32.val (F32.div (F32.ofInt 6144) (F32.ofInt 2560)) :=
    (F32.gt_iff _ _ (F32.div_den_pos _ _) (F32.div_den_pos _ _)).mp (by decide)
  exact ⟨by decide,
    (C17_aspect_single_precision 6144 2560 1920 1080 (by decide) (by decide) (by decide)
      (by decide) (by decide) (by decide) (by decide) (by decide)).1 hc⟩

/-- C17 fails on the `float` code, on either side. At 6144 x 2560 into 1920 x 1080 the
source is the wider one and `1920 * 2560 / 6144` is exactly 800, yet the region is 799
rows high, which is not above `800 - 1`. At 6498 x 4985 into 5347 x 6871 the source is
the wider one and the region is 4102 rows high, above `5347 * 4985 / 6498`. -/
theorem C17_float_height_one_short :
    ((1920 : ℚ) / 1080 < (6144 : ℚ) / 2560) ∧
    (1920 : ℚ) * 2560 / 6144 = 800 ∧
    resizeDims 6144 2560 1920 1080 = (1920, 799) ∧
    ¬ ((1920 : ℚ) * 2560 / 6144 - 1 < ((resizeDims 6144 2560 1920 1080).2 : ℚ)) ∧
    ((5347 : ℚ) / 6871 < (6498 : ℚ) / 4985) ∧
    resizeDims 6498 4985 5347 6871 = (5347, 4102) ∧
    ¬ (((resizeDims 6498 4985 5347 6871).2 : ℚ) ≤ (5347 : ℚ) * 4985 / 6498) := by
  have h : resizeDims 6144 2560 1920 1080 = (1920, 799) := by decide
  have k : resizeDims 6498 4985 5347 6871 = (5347, 4102) := by decide
  refine ⟨by norm_num, by norm_num, h, ?_, by norm_num, k, ?_⟩
  · rw [h]
    norm_num
  · rw [k]
    norm_num

/-- C20, as the code has it: for a target width below `2 ^ 23` and a target height of at
most `2 ^ 24` the region the `float` code computes fits the target canvas: both sides lie
between zero and the target sides, both paste offsets are non-negative, the pasted
region ends inside the canvas and the borders on either side differ by at most one
pixel (`fitsCanvas`). -/
theorem C20_float_region_fits_canvas (sw sh tw th : Int)
    (hsw : 0 < sw) (hsh : 0 < sh) (htw : 0 < tw) (hth : 0 < th)
    (btw : tw < 2 ^ 23) (bth : th ≤ 2 ^ 24) :
    fitsCanvas tw th (resizeDims sw sh tw th) := by
  have htwq : (0 : ℚ) < (tw : ℚ) := by exact_mod_cast htw
  have hthq : (0 : ℚ) < (th : ℚ) := by exact_mod_cast hth
  have btw24 : tw ≤ 2 ^ 24 := by omega
  obtain ⟨c1, c2⟩ := resizeDims_cases sw sh tw th hsw hsh htw hth
  have nSW := F32.ofInt_num_pos sw hsw
  have nSH := F32.ofInt_num_pos sh hsh
  have nTW := F32.ofInt_num_pos tw htw
  have nTH := F32.ofInt_num_pos th hth
  have vTW := F32.ofInt_val tw htw.le btw24
  have vTH := F32.ofInt_val th hth.le bth
  have nar : 0 < (F32.div (F32.ofInt sw) (F32.ofInt sh)).num :=
    F32.div_num_pos _ _ nSW (F32.ofInt_den_pos sw) nSH (F32.ofInt_den_pos sh)
  have dar : 0 < (F32.div (F32.ofInt sw) (F32.ofInt sh)).den := F32.div_den_pos _ _
  have par := F32.val_pos _ nar dar
  by_cases h : F32.val (F32.div (F32.ofInt tw) (F32.ofInt th))
      < F32.val (F32.div (F32.ofInt sw) (F32.ofInt sh))
  · rw [c1 h]
    -- the exact target ratio lies at or below the `float` source ratio
    have hle : (tw : ℚ) / (th : ℚ) ≤ (F32.div (F32.ofInt sw) (F32.ofInt sh)).val := by
      by_contra hc
      have h1 : (F32.div (F32.ofInt sw) (F32.ofInt sh)).val
          ≤ (F32.ofInt tw).val / (F32.ofInt th).val := by
        rw [vTW, vTH]; exact (not_le.mp hc).le
      have h2 := F32.div_val_mono (F32.ofInt sw) (F32.ofInt sh) (F32.ofInt tw) (F32.ofInt th)
        nSW.le (F32.ofInt_den_pos sw) nSH (F32.ofInt_den_pos sh) nTW.le (F32.ofInt_den_pos tw)
        nTH (F32.ofInt_den_pos th) h1
      exact absurd h (not_lt.mpr h2)
    have hq : (F32.ofInt tw).val / (F32.div (F32.ofInt sw) (F32.ofInt sh)).val ≤ (th : ℚ) := by
      rw [vTW, div_le_iff₀ par]
      rw [div_le_iff₀ hthq] at hle
      linarith
    have hQ := F32.div_val_le_int (F32.ofInt tw) (F32.div (F32.ofInt sw) (F32.ofInt sh))
      nTW.le (F32.ofInt_den_pos tw) nar dar th hth.le bth hq
    have hQ0 : 0 ≤ (F32.div (F32.ofInt tw) (F32.div (F32.ofInt sw) (F32.ofInt sh))).val :=
      (F32.val_pos _ (F32.div_num_pos _ _ nTW (F32.ofInt_den_pos tw) nar dar)
        (F32.div_den_pos _ _)).le
    apply fitsCanvas_of_le
    · exact htw.le
    · exact le_refl _
    · exact Int.floor_nonneg.mpr hQ0
    · exact Int.floor_le_iff.mpr (by linarith)
  · rw [c2 (not_lt.mp h)]
    have hrar := (aspectratio_rel tw th htw hth btw24 bth).2
    have hprod : (F32.ofInt th).val * (F32.div (F32.ofInt sw) (F32.ofInt sh)).val
        ≤ (tw : ℚ) + 1 / 2 := by
      rw [vTH]
      have h1 : (th : ℚ) * (F32.div (F32.ofInt sw) (F32.ofInt sh)).val
          ≤ (th : ℚ) * ((tw : ℚ) / (th : ℚ) * (1 + 1 / 2 ^ 24)) :=
        mul_le_mul_of_nonneg_left (le_trans (not_lt.mp h) hrar) hthq.le
      have h2 : (th : ℚ) * ((tw : ℚ) / (th : ℚ) * (1 + 1 / 2 ^ 24))
          = (tw : ℚ) * (1 + 1 / 2 ^ 24) := by
        field_simp
        ring
      have h3 : (tw : ℚ) ≤ 2 ^ 23 := by
        have : tw ≤ 2 ^ 23 := by omega
        exact_mod_cast this
      rw [h2] at h1
      norm_num at h1 h3 ⊢
      linarith
    have hP := F32.mul_val_le_half (F32.ofInt th) (F32.div (F32.ofInt sw) (F32.ofInt sh))
      nTH.le (F32.ofInt_den_pos th) nar.le dar tw htw.le btw hprod
    have hP0 : 0 ≤ (F32.mul (F32.ofInt th) (F32.div (F32.ofInt sw) (F32.ofInt sh))).val := by
      unfold F32.val
      exact div_nonneg (by exact_mod_cast F32.mul_num_nonneg _ _ nTH.le nar.le)
        (Nat.cast_nonneg _)
    apply fitsCanvas_of_le
    · exact Int.floor_nonneg.mpr hP0
    · have h4 : (F32.mul (F32.ofInt th) (F32.div (F32.ofInt sw) (F32.ofInt sh))).val
          < ((tw + 1 : Int) : ℚ) := by
        push_cast
        linarith
      have h5 := Int.floor_lt.mpr h4
      omega
    · exact hth.le
    · exact le_refl _

/-- C20 at 4096 x 2160 into 1920 x 1080: the region of 1920 x 1012 fits the canvas. -/
theorem C20_float_region_fits_canvas_witness :
    resizeDims 4096 2160 1920 1080 = (1920, 1012) ∧
    fitsCanvas 1920 1080 (resizeDims 4096 2160 1920 1080) :=
  ⟨by decide, C20_float_region_fits_canvas 4096 2160 1920 1080 (by decide) (by decide)
    (by decide) (by decide) (by decide) (by decide)⟩

/-- C20 fails on the `float` code for a target width past 23 bits: at 822812 x 639356 into
12342180 x 9590340 the region is 12342181 wide, one pixel wider than the canvas. -/
theorem C20_float_region_past_canvas :
    resizeDims 822812 639356 12342180 9590340 = (12342181, 9590340) ∧
    ¬ (resizeDims 822812 639356 12342180 9590340).1 ≤ 12342180 ∧
    ¬ fitsCanvas 12342180 9590340 (resizeDims 822812 639356 12342180 9590340) := by
  decide

end Braw
